import Mathlib

/-!
The bc bytecode virtual machine (`src/bc/program.c`).

A shallow embedding of the execution engine of `bc`: the tagged result stack,
name resolution through the frame stack and the global tables, operand
materialisation, the assignment family, increment/decrement, the relational
and boolean operators, the call and return protocol, references, the function
table and the fetch-dispatch loop, followed by theorems about them.

Conventions of the embedding.

* A C vector (`BcVec`) is a `List` whose index `0` is the bottom; the top of a
  stack is its last element.
* A pointer to a number (`BcNum *`) is a `BcLoc`: the place inside the program
  image the pointer refers to.  Reading and writing go through `readNum` and
  `writeNum`.
* A pointer into the buffer of a vector does not outlive a growth of that
  vector.  The vector library is not among the sources and the embedding keeps
  no capacities, so a buffer that has been asked to grow is taken to have moved
  ("any move invalidates it"); what is left of a pointer into it is
  `BcLoc.dangling`, and a read through it is not defined.
* A routine returning `BcStatus` and mutating the program returns a `BcRet`:
  `ok` for `BC_STATUS_SUCCESS`, `fail s p` for a non-success status `s` with the
  program left as `p`, and `abort` for a failed `assert` (behaviour the C code
  does not define).
* Allocation never fails: the `BC_STATUS_MALLOC_FAIL` paths are not taken.
* What the loop `bc_program_exec` depends on outside the program image (the
  interrupt flag, the standard streams, the parser, the byte values of the
  opcodes) is a parameter, `BcEnv`; what it leaves outside the image is a
  `BcWorld`.
-/

namespace Bc

/-! ## Statuses -/

/-- Status codes used by `program.c`.  The enumeration itself lives in
`status.h`; the names are those the code mentions, together with the failure
statuses of the number library. -/
inductive BcStatus where
  | SUCCESS
  | MALLOC_FAIL
  | IO_ERR
  | VEC_OUT_OF_BOUNDS
  | VEC_ITEM_EXISTS
  | LEX_EOF
  | PARSE_BAD_ASSIGN
  | MATH_NEGATIVE
  | MATH_NON_INTEGER
  | MATH_OVERFLOW
  | MATH_DIVIDE_BY_ZERO
  | MATH_BAD_STRING
  | EXEC_BAD_TYPE
  | EXEC_BAD_READ_EXPR
  | EXEC_UNDEFINED_FUNC
  | EXEC_MISMATCHED_PARAMS
  | EXEC_ARRAY_LEN
  | EXEC_BAD_IBASE
  | EXEC_BAD_OBASE
  | EXEC_BAD_SCALE
  | EXEC_SIGNAL
  | QUIT
  deriving DecidableEq, Repr

/-! ## Numbers -/

/-- Modelled from the spec: the arbitrary-precision number library (`bc_num_*`)
is an external collaborator whose code is not among the sources.  A number
"carries a sign flag and a scale": it is the signed integer `val` formed by all
its decimal digits, its scale `rdx` (the count of fractional digits) and `zneg`,
the sign flag it carries when it has no nonzero digit.  It stands for
`val / 10 ^ rdx`.  The library keeps the sign flag apart from the digits, so
that a zero can carry it; the sign flag of a number other than zero is the sign
of `val`. -/
structure BcNum where
  val : Int
  rdx : Nat
  zneg : Bool
  deriving DecidableEq, Repr

/-- The field `neg` of the C structure: the sign flag. -/
def BcNum.neg (n : BcNum) : Bool := if n.val = 0 then n.zneg else decide (n.val < 0)

/-- Modelled from the spec: `bc_num_init` ("initialize-with-capacity") yields a
number without digits, which is zero. -/
def bc_num_init (_request : Nat) : BcNum := ⟨0, 0, false⟩

/-- Modelled from the spec: `bc_num_zero` ("set-zero"). -/
def bc_num_zero : BcNum := ⟨0, 0, false⟩

/-- Modelled from the spec: `bc_num_one` ("set-one"). -/
def bc_num_one : BcNum := ⟨1, 0, false⟩

/-- Modelled from the spec: `bc_num_ten` ("set-ten"). -/
def bc_num_ten : BcNum := ⟨10, 0, false⟩

/-- Modelled from the spec: `bc_num_copy` ("copy"); the destination becomes the
source. -/
def bc_num_copy (src : BcNum) : BcNum := src

/-- Modelled from the spec: `bc_num_cmp` "returns sign of difference". -/
def bc_num_cmp (a b : BcNum) : Int :=
  Int.sign (a.val * 10 ^ b.rdx - b.val * 10 ^ a.rdx)

/-- Type of the binary operations of the number library (`BcNumBinaryFunc`):
two operands and the scale; a status or the result. -/
abbrev BcNumBinaryFunc := BcNum → BcNum → Nat → Except BcStatus BcNum

/-- Modelled from the spec: `bc_num_add` ("add ... ignore scale"); the result
carries the larger of the two scales. -/
def bc_num_add : BcNumBinaryFunc := fun a b _ =>
  .ok ⟨a.val * 10 ^ (max a.rdx b.rdx - a.rdx) + b.val * 10 ^ (max a.rdx b.rdx - b.rdx),
       max a.rdx b.rdx, false⟩

/-- Modelled from the spec: `bc_num_sub` ("sub ... ignore scale"). -/
def bc_num_sub : BcNumBinaryFunc := fun a b _ =>
  .ok ⟨a.val * 10 ^ (max a.rdx b.rdx - a.rdx) - b.val * 10 ^ (max a.rdx b.rdx - b.rdx),
       max a.rdx b.rdx, false⟩

/-- Modelled from the spec: `bc_num_mul` ("mul ... ignore scale"): the exact
product. -/
def bc_num_mul : BcNumBinaryFunc := fun a b _ =>
  .ok ⟨a.val * b.val, a.rdx + b.rdx, false⟩

/-- Modelled from the spec: `bc_num_div` ("div ... truncate to scale fractional
digits"); a zero divisor is signalled by the library
(`MATH_DIVIDE_BY_ZERO`) and leaves no result. -/
def bc_num_div : BcNumBinaryFunc := fun a b scale =>
  if b.val = 0 then .error .MATH_DIVIDE_BY_ZERO
  else .ok ⟨Int.tdiv (a.val * 10 ^ (scale + b.rdx)) (b.val * 10 ^ a.rdx), scale, false⟩

/-- Modelled from the spec: `bc_num_mod` ("mod ... truncate to scale fractional
digits"): `a - (a / b) * b` with the quotient truncated to `scale` digits; a
zero divisor is signalled by the library. -/
def bc_num_mod : BcNumBinaryFunc := fun a b scale =>
  match bc_num_div a b scale with
  | .error e => .error e
  | .ok q =>
    match bc_num_mul q b scale with
    | .error e => .error e
    | .ok qb => bc_num_sub a qb scale

/-- Modelled from the spec: `bc_num_pow` ("pow ... ignore scale").  The exponent
must be an integer.  A non-negative exponent gives the exact power; a negative
one gives the reciprocal of the power, truncated to `scale` digits. -/
def bc_num_pow : BcNumBinaryFunc := fun a b scale =>
  if b.val % 10 ^ b.rdx ≠ 0 then .error .MATH_NON_INTEGER
  else
    let e : Int := b.val / 10 ^ b.rdx
    if 0 ≤ e then .ok ⟨a.val ^ e.toNat, a.rdx * e.toNat, false⟩
    else bc_num_div bc_num_one ⟨a.val ^ (-e).toNat, a.rdx * (-e).toNat, false⟩ scale

/-- Largest value of the C type `unsigned long`, taken to be 64 bits wide. -/
def ULONG_MAX : Nat := 2 ^ 64 - 1

/-- Modelled from the spec: `bc_num_ulong` ("convert-to-unsigned-integer (fails
if out of range or fractional)"); a number whose sign flag is set is out of
range. -/
def bc_num_ulong (n : BcNum) : Except BcStatus Nat :=
  if n.neg then .error .MATH_NEGATIVE
  else if n.val % 10 ^ n.rdx ≠ 0 then .error .MATH_NON_INTEGER
  else if (n.val / 10 ^ n.rdx).toNat > ULONG_MAX then .error .MATH_OVERFLOW
  else .ok (n.val / 10 ^ n.rdx).toNat

/-- Modelled from the spec: `bc_num_ulong2num`, the number of an unsigned
integer. -/
def bc_num_ulong2num (v : Nat) : BcNum := ⟨(v : Int), 0, false⟩

/-- Value of one digit character: `0`-`9` and `A`-`F`. -/
def digitVal (c : Char) : Option Nat :=
  if 48 ≤ c.toNat ∧ c.toNat ≤ 57 then some (c.toNat - 48)
  else if 65 ≤ c.toNat ∧ c.toNat ≤ 70 then some (c.toNat - 55)
  else none

/-- Digits of a run of characters read in `base`, most significant first:
the value read so far and the number of digits read; `none` when a character is
not a digit valid for the base. -/
def parseDigits (base : Nat) : List Char → Nat → Nat → Option (Nat × Nat)
  | [], acc, k => some (acc, k)
  | c :: cs, acc, k =>
    match digitVal c with
    | none => none
    | some d => if d < base then parseDigits base cs (acc * base + d) (k + 1) else none

/-- Modelled from the spec: `bc_num_parse` ("parse-from-string-in-base":
"consumes any initial" sign, "digit or A-F characters valid for the given
base, and fraction after" the point): the integer part is read exactly; a fraction of `k`
digits is converted to `k` decimal digits, truncating. -/
def bc_num_parse (s : String) (base : Nat) : Except BcStatus BcNum :=
  let cs := s.toList
  let neg := cs.head? = some '-'
  let body := if cs.head? = some '-' ∨ cs.head? = some '+' then cs.tail else cs
  let ip := body.takeWhile (fun c => c ≠ '.')
  let fp := (body.dropWhile (fun c => c ≠ '.')).tail
  match parseDigits base ip 0 0, parseDigits base fp 0 0 with
  | some (iv, _), some (fv, k) =>
    let m : Int := ((iv * 10 ^ k + fv * 10 ^ k / base ^ k : Nat) : Int)
    .ok ⟨if neg then -m else m, k, false⟩
  | _, _ => .error .MATH_BAD_STRING

/-! ## Data model -/

/-- Opcodes dispatched by `bc_program_exec`.  Their byte values are declared in
`instructions.h`; being the case labels of one `switch`, they are pairwise
distinct. -/
inductive BcInst where
  | CALL | RETURN | RETURN_ZERO | READ | JUMP_ZERO | JUMP
  | PUSH_VAR | PUSH_ARRAY | PUSH_LAST | PUSH_SCALE | PUSH_IBASE | PUSH_OBASE
  | SCALE_FUNC | LENGTH | SQRT | PUSH_NUM | POP
  | INC_DUP | DEC_DUP | INC | DEC | HALT | PRINT | PRINT_EXPR | STR | PRINT_STR
  | OP_POWER | OP_MULTIPLY | OP_DIVIDE | OP_MODULUS | OP_PLUS | OP_MINUS
  | OP_REL_EQUAL | OP_REL_LESS_EQ | OP_REL_GREATER_EQ | OP_REL_NOT_EQ
  | OP_REL_LESS | OP_REL_GREATER
  | OP_BOOL_NOT | OP_BOOL_OR | OP_BOOL_AND | OP_NEGATE
  | OP_ASSIGN_POWER | OP_ASSIGN_MULTIPLY | OP_ASSIGN_DIVIDE | OP_ASSIGN_MODULUS
  | OP_ASSIGN_PLUS | OP_ASSIGN_MINUS | OP_ASSIGN
  deriving DecidableEq, Repr

/-- Modelled from the spec: the constant `BC_EXPR_ASSIGN_DIVIDE`, which the
guard of `bc_program_assign` compares the opcode with, is declared in `parse.h`,
not among the sources.  The spec reads that guard as "For `/=` with zero RHS,
fail `DIVIDE_BY_ZERO`", so the constant is the divide-assign opcode. -/
def BC_EXPR_ASSIGN_DIVIDE : BcInst := .OP_ASSIGN_DIVIDE

/-- Modelled from the spec: `BC_NUM_MAX_INPUT_BASE` ("`MAX_INPUT_BASE = 16`"). -/
def BC_NUM_MAX_INPUT_BASE : Nat := 16

/-- Modelled from the spec: `BC_NUM_MIN_BASE` ("`MIN_BASE = 2`"). -/
def BC_NUM_MIN_BASE : Nat := 2

/-- Modelled from the spec: `BC_PROGRAM_MAIN`, declared in `program.h` ("Two
functions are reserved: id 0 = `main`"). -/
def BC_PROGRAM_MAIN : Nat := 0

/-- Modelled from the spec: `BC_PROGRAM_READ`, declared in `program.h` ("id 1 =
`read`"). -/
def BC_PROGRAM_READ : Nat := 1

/-- Tags of a result-stack slot (`BcResultType`).  `VAR_AUTO` follows
`ARRAY_AUTO` and `OBASE` follows `IBASE`, as the arithmetic on the tags in
`bc_program_call` and `bc_program_assign` requires. -/
inductive BcResultType where
  | INTERMEDIATE | CONSTANT | VAR | ARRAY | ARRAY_AUTO | VAR_AUTO
  | SCALE | LAST | IBASE | OBASE | ONE
  deriving DecidableEq, Repr

/-- The union `data` of a `BcResult`: a number, an array of numbers, or the
name and index of a reference; `uninit` is a union nobody has written. -/
inductive BcData where
  | num (n : BcNum)
  | array (a : List BcNum)
  | id (name : String) (idx : Nat)
  | uninit
  deriving DecidableEq, Repr

/-- A result-stack slot (`BcResult`). -/
structure BcResult where
  type : BcResultType
  data : BcData
  deriving DecidableEq, Repr

/-- A descriptor of a parameter or local of a function (`BcAuto`); `var` is
true for a scalar. -/
structure BcAuto where
  name : String
  var : Bool
  deriving DecidableEq, Repr

/-- A function (`BcFunc`). -/
structure BcFunc where
  code : List Nat
  labels : List Nat
  nparams : Nat
  autos : List BcAuto
  deriving DecidableEq, Repr

/-- A frame (`BcInstPtr`); `len` is the result-stack length recorded at the
call (the frame's base). -/
structure BcInstPtr where
  func : Nat
  idx : Nat
  len : Nat
  deriving DecidableEq, Repr

/-- An entry of an ordered map (`BcEntry`): a name and the slot it denotes. -/
structure BcEntry where
  name : String
  idx : Nat
  deriving DecidableEq, Repr

/-- The program image (`BcProgram`). -/
structure BcProgram where
  ibase : BcNum
  ibase_t : Nat
  obase : BcNum
  obase_t : Nat
  scale : Nat
  base_max : Nat
  dim_max : Nat
  scale_max : Nat
  string_max : Nat
  last : BcNum
  zero : BcNum
  one : BcNum
  funcs : List BcFunc
  func_map : List BcEntry
  vars : List BcNum
  var_map : List BcEntry
  arrays : List (List BcNum)
  array_map : List BcEntry
  strings : List String
  constants : List String
  results : List BcResult
  stack : List BcInstPtr
  nchars : Nat
  deriving DecidableEq, Repr

/-- Outcome of a routine that returns a `BcStatus`: success with the program
and the values handed back, a non-success status with the program as the
routine left it, or a failed assertion. -/
inductive BcRet (α : Type) where
  | ok (p : BcProgram) (a : α)
  | fail (s : BcStatus) (p : BcProgram)
  | abort
  deriving DecidableEq, Repr

/-- Status a routine returned, when it returned. -/
def BcRet.status {α : Type} : BcRet α → Option BcStatus
  | .ok _ _ => some .SUCCESS
  | .fail s _ => some s
  | .abort => none

/-- Program a routine left behind, when it returned. -/
def BcRet.prog {α : Type} : BcRet α → Option BcProgram
  | .ok p _ => some p
  | .fail _ p => some p
  | .abort => none

/-- Target of a pointer to a number (or, for the two array cases reached with
`BC_PROGRAM_SEARCH_ARRAY`, to a whole array). -/
inductive BcLoc where
  | result (i : Nat)
  | resultElem (i k : Nat)
  | var (i : Nat)
  | array (i : Nat)
  | arrayElem (i k : Nat)
  | last
  | ibase
  | obase
  | one
  | dangling
  deriving DecidableEq, Repr

/-- Number a pointer refers to; `none` for a pointer that refers to no number. -/
def readNum (p : BcProgram) : BcLoc → Option BcNum
  | .result i =>
    match p.results[i]? with
    | some ⟨_, .num n⟩ => some n
    | _ => none
  | .resultElem i k =>
    match p.results[i]? with
    | some ⟨_, .array a⟩ => a[k]?
    | _ => none
  | .var i => p.vars[i]?
  | .array _ => none
  | .arrayElem i k =>
    match p.arrays[i]? with
    | some a => a[k]?
    | none => none
  | .last => some p.last
  | .ibase => some p.ibase
  | .obase => some p.obase
  | .one => some p.one
  | .dangling => none

/-- Array a pointer refers to (the pointer `bc_program_search` hands back under
`BC_PROGRAM_SEARCH_ARRAY`). -/
def readArray (p : BcProgram) : BcLoc → Option (List BcNum)
  | .result i =>
    match p.results[i]? with
    | some ⟨_, .array a⟩ => some a
    | _ => none
  | .array i => p.arrays[i]?
  | _ => none

/-- Store a number through a pointer. -/
def writeNum (p : BcProgram) (loc : BcLoc) (v : BcNum) : BcProgram :=
  match loc with
  | .result i =>
    match p.results[i]? with
    | some r => { p with results := p.results.set i { r with data := .num v } }
    | none => p
  | .resultElem i k =>
    match p.results[i]? with
    | some ⟨t, .array a⟩ => { p with results := p.results.set i ⟨t, .array (a.set k v)⟩ }
    | _ => p
  | .var i => { p with vars := p.vars.set i v }
  | .array _ => p
  | .arrayElem i k =>
    match p.arrays[i]? with
    | some a => { p with arrays := p.arrays.set i (a.set k v) }
    | none => p
  | .last => { p with last := v }
  | .ibase => { p with ibase := v }
  | .obase => { p with obase := v }
  | .one => { p with one := v }
  | .dangling => p

/-! ## Vectors and ordered maps -/

/-- Item `idx` counted from the top of a vector (`bc_vec_item_rev`). -/
def bc_vec_item_rev {α : Type} (v : List α) (idx : Nat) : Option α :=
  if idx < v.length then v[v.length - idx - 1]? else none

/-- Modelled from the spec: `bc_array_expand` ("growing the array to cover the
index"): the array is padded with zeros up to `len` elements. -/
def bc_array_expand (a : List BcNum) (len : Nat) : List BcNum :=
  a ++ List.replicate (len - a.length) (bc_num_init 0)

/-- Order of `strcmp` on names: lexicographic on the character codes. -/
def nameLt : List Char → List Char → Bool
  | _, [] => false
  | [], _ :: _ => true
  | a :: as, b :: bs => a.toNat < b.toNat || (a.toNat == b.toNat && nameLt as bs)

/-- Position of the entry with a given name, if there is one. -/
def entryPos (name : String) : List BcEntry → Option Nat
  | [] => none
  | e :: es => if e.name = name then some 0 else (entryPos name es).map (· + 1)

/-- Insertion of an entry in front of the first entry that is not smaller: the
new map and the position of the new entry. -/
def insertSorted (e : BcEntry) : List BcEntry → List BcEntry × Nat
  | [] => ([e], 0)
  | x :: xs =>
    if nameLt x.name.toList e.name.toList then
      ((x :: (insertSorted e xs).1), (insertSorted e xs).2 + 1)
    else (e :: x :: xs, 0)

/-- Modelled from the spec: `bc_veco_insert` on a map kept in "lexicographic
name ordering": "Insertion returns either the existing index (no-op) or a
freshly allocated one; duplicate detection is by strict string equality."  The
status is `VEC_ITEM_EXISTS` in the first case. -/
def bc_veco_insert (m : List BcEntry) (e : BcEntry) : BcStatus × List BcEntry × Nat :=
  match entryPos e.name m with
  | some i => (.VEC_ITEM_EXISTS, m, i)
  | none => (.SUCCESS, (insertSorted e m).1, (insertSorted e m).2)

/-- Modelled from the spec: `bc_vec_pop` removes the top item; on an empty
vector it returns a non-success status (`none` here). -/
def bc_vec_pop {α : Type} (v : List α) : Option (List α) :=
  match v with
  | [] => none
  | _ :: _ => some v.dropLast

/-- Capacity a fresh number is created with (`BC_NUM_DEF_SIZE`, declared in
`num.h`, not among the sources).  Only a capacity: `bc_num_init` yields the same
number whatever it is, so no statement depends on the value chosen here. -/
def BC_NUM_DEF_SIZE : Nat := 16

/-- Modelled from the spec: the digits a number stores (field `num`), least
significant first ("`length(n)` equals the number of significant decimal digits
of `n`; `scale(n)` equals its fractional digit count"): the decimal digits of the
absolute value, with zeros on top of them up to the `rdx` fractional digits. -/
def BcNum.num (n : BcNum) : List Nat :=
  Nat.digits 10 n.val.natAbs ++
    List.replicate (n.rdx - (Nat.digits 10 n.val.natAbs).length) 0

/-- Modelled from the spec: the field `len` of a number, the count of digits it
stores. -/
def BcNum.len (n : BcNum) : Nat := n.num.length

/-! ## Name resolution: `bc_program_search` -/

/-- The bits of the `flags` argument of `bc_program_search`:
`BC_PROGRAM_SEARCH_VAR` and `BC_PROGRAM_SEARCH_ARRAY`. -/
structure BcSearchFlags where
  var : Bool
  array : Bool
  deriving DecidableEq, Repr

/-- Inner loop of `bc_program_search` (lines 62-89): the autos of the function
of frame `ip`, scanned from index `idx`; `none` when no auto has the name. -/
def bc_program_search_autos (p : BcProgram) (ip : BcInstPtr) (name : String) (ridx : Nat)
    (flags : BcSearchFlags) : List BcAuto → Nat → Option (BcRet BcLoc)
  | [], _ => none
  | a :: rest, idx =>
    if a.name = name then
      if (!a.var) != (!flags.var) then some (.fail .EXEC_BAD_TYPE p)
      else
        match p.results[ip.len + idx]? with
        | none => some .abort
        | some r =>
          if flags.var || flags.array then some (.ok p (.result (ip.len + idx)))
          else
            match r.data with
            | .array arr =>
              some (.ok
                { p with
                  results := p.results.set (ip.len + idx)
                    ⟨r.type, .array (bc_array_expand arr (ridx + 1))⟩ }
                (.resultElem (ip.len + idx) ridx))
            | _ => some .abort
    else bc_program_search_autos p ip name ridx flags rest (idx + 1)

/-- Outer loop of `bc_program_search` (lines 47-90) over the frames it visits,
innermost first; `none` when no frame has an auto of that name. -/
def bc_program_search_frames (p : BcProgram) (name : String) (ridx : Nat)
    (flags : BcSearchFlags) : List BcInstPtr → Option (BcRet BcLoc)
  | [] => none
  | ip :: rest =>
    if ip.func = BC_PROGRAM_READ ∨ ip.func = BC_PROGRAM_MAIN then
      bc_program_search_frames p name ridx flags rest
    else
      match p.funcs[ip.func]? with
      | none => some .abort
      | some func =>
        match bc_program_search_autos p ip name ridx flags func.autos 0 with
        | some r => some r
        | none => bc_program_search_frames p name ridx flags rest

/-- Tail of `bc_program_search` (lines 92-149): the global tables. -/
def bc_program_search_global (p : BcProgram) (name : String) (ridx : Nat)
    (flags : BcSearchFlags) : BcRet BcLoc :=
  if flags.var then
    match bc_veco_insert p.var_map ⟨name, p.vars.length⟩ with
    | (status, m, idx) =>
      let p1 := if status ≠ .VEC_ITEM_EXISTS then
          { p with var_map := m, vars := p.vars ++ [bc_num_init BC_NUM_DEF_SIZE] }
        else p
      match p1.var_map[idx]? with
      | none => .abort
      | some entry =>
        if entry.idx < p1.vars.length then .ok p1 (.var entry.idx) else .abort
  else
    match bc_veco_insert p.array_map ⟨name, p.arrays.length⟩ with
    | (status, m, idx) =>
      let p1 := if status ≠ .VEC_ITEM_EXISTS then
          { p with array_map := m, arrays := p.arrays ++ [[]] }
        else p
      match p1.array_map[idx]? with
      | none => .abort
      | some entry =>
        match p1.arrays[entry.idx]? with
        | none => .abort
        | some aptr =>
          if flags.array then .ok p1 (.array entry.idx)
          else
            .ok { p1 with arrays := p1.arrays.set entry.idx (bc_array_expand aptr (ridx + 1)) }
              (.arrayElem entry.idx ridx)

/-- The routine `bc_program_search`: the reference `name` (with element index
`ridx`) is looked up in the frames above the bottom one, innermost first, and
then in the global table of its kind. -/
def bc_program_search (p : BcProgram) (name : String) (ridx : Nat)
    (flags : BcSearchFlags) : BcRet BcLoc :=
  if p.stack = [] then .abort
  else
    match bc_program_search_frames p name ridx flags
        (p.stack.reverse.take (p.stack.length - 1)) with
    | some r => r
    | none => bc_program_search_global p name ridx flags

/-! ## Materialisation: `bc_program_num` and the operand helpers -/

/-- The routine `bc_program_num` applied to the slot at index `ri` of the
result stack: the pointer to the slot's number. -/
def bc_program_num (p : BcProgram) (ri : Nat) (hex : Bool) : BcRet BcLoc :=
  match p.results[ri]? with
  | none => .abort
  | some result =>
    match result.type with
    | .INTERMEDIATE | .SCALE => .ok p (.result ri)
    | .CONSTANT =>
      match result.data with
      | .id _ cidx =>
        match p.constants[cidx]? with
        | none => .abort
        | some s =>
          match bc_num_parse s
              (if hex && s.length == 1 then BC_NUM_MAX_INPUT_BASE else p.ibase_t) with
          | .error status =>
            .fail status { p with results := p.results.set ri { result with data := .uninit } }
          | .ok n =>
            .ok { p with results := p.results.set ri ⟨.INTERMEDIATE, .num n⟩ } (.result ri)
      | _ => .abort
    | .VAR | .ARRAY =>
      match result.data with
      | .id name idx =>
        bc_program_search p name idx ⟨result.type = .VAR, false⟩
      | _ => .abort
    | .LAST => .ok p .last
    | .IBASE => .ok p .ibase
    | .OBASE => .ok p .obase
    | .ONE => .ok p .one
    | .ARRAY_AUTO | .VAR_AUTO => .abort

/-- Operands of a binary operation as `bc_program_binaryOpPrep` hands them back:
index and number pointer of the left one, then of the right one. -/
structure BcOperands where
  left : Nat
  lval : BcLoc
  right : Nat
  rval : BcLoc
  deriving DecidableEq, Repr

/-- Whether a pointer taken in the program `p` still refers to its target in the
later program `q`: the vector whose buffer it points into (the result stack, the
array held by a result slot, the global scalars, the global arrays, a global
array) has the length it had.  The registers are fields of the program and do
not move. -/
def ptrKept (p q : BcProgram) : BcLoc → Bool
  | .result _ => decide (q.results.length = p.results.length)
  | .resultElem i _ =>
    decide ((readArray q (.result i)).map List.length =
      (readArray p (.result i)).map List.length)
  | .var _ => decide (q.vars.length = p.vars.length)
  | .array _ => decide (q.arrays.length = p.arrays.length)
  | .arrayElem i _ =>
    decide ((q.arrays[i]?).map List.length = (p.arrays[i]?).map List.length)
  | .last | .ibase | .obase | .one => true
  | .dangling => false

/-- The routine `bc_program_binaryOpPrep`.  The pointer `*lval` is taken before
the right operand is materialised (lines 253-254), and materialising the right
operand can grow the vector it points into: a first reference to a global
scalar appends to `p->vars`, an array element reference expands its array.  The
pointer handed back is then dangling. -/
def bc_program_binaryOpPrep (p : BcProgram) : BcRet BcOperands :=
  match bc_vec_item_rev p.results 0, bc_vec_item_rev p.results 1 with
  | some _, some l =>
    match bc_program_num p (p.results.length - 2) false with
    | .abort => .abort
    | .fail s q => .fail s q
    | .ok p1 lval =>
      match bc_program_num p1 (p.results.length - 1)
          (decide (l.type = .IBASE) || decide (l.type = .OBASE)) with
      | .abort => .abort
      | .fail s q => .fail s q
      | .ok p2 rval =>
        .ok p2 ⟨p.results.length - 2, if ptrKept p1 p2 lval then lval else .dangling,
                p.results.length - 1, rval⟩
  | _, _ => .abort

/-- The routine `bc_program_binaryOpRetire`: both operands are popped and
`result`, retagged `type`, is pushed. -/
def bc_program_binaryOpRetire (p : BcProgram) (result : BcResult) (type : BcResultType) :
    BcRet Unit :=
  match bc_vec_pop p.results with
  | none => .fail .VEC_OUT_OF_BOUNDS p
  | some r1 =>
    match bc_vec_pop r1 with
    | none => .fail .VEC_OUT_OF_BOUNDS { p with results := r1 }
    | some r2 => .ok { p with results := r2 ++ [{ result with type := type }] } ()

/-- The routine `bc_program_unaryOpPrep`: index and number pointer of the top
operand. -/
def bc_program_unaryOpPrep (p : BcProgram) : BcRet (Nat × BcLoc) :=
  match bc_vec_item_rev p.results 0 with
  | none => .abort
  | some _ =>
    match bc_program_num p (p.results.length - 1) false with
    | .abort => .abort
    | .fail s q => .fail s q
    | .ok p1 val => .ok p1 (p.results.length - 1, val)

/-- The routine `bc_program_unaryOpRetire`. -/
def bc_program_unaryOpRetire (p : BcProgram) (result : BcResult) (type : BcResultType) :
    BcRet Unit :=
  match bc_vec_pop p.results with
  | none => .fail .VEC_OUT_OF_BOUNDS p
  | some r1 => .ok { p with results := r1 ++ [{ result with type := type }] } ()

/-! ## Binary arithmetic: `bc_program_op` -/

/-- Modelled from the spec: the table `bc_program_math_ops`, indexed by
`inst - BC_INST_OP_MODULUS`, is defined outside the sources; each of the
"Binary math" opcodes other than `POWER` selects the library operation of its
name. -/
def bc_program_math_ops (inst : BcInst) : Option BcNumBinaryFunc :=
  match inst with
  | .OP_MODULUS => some bc_num_mod
  | .OP_MULTIPLY => some bc_num_mul
  | .OP_PLUS => some bc_num_add
  | .OP_MINUS => some bc_num_sub
  | .OP_DIVIDE => some bc_num_div
  | _ => none

/-- The routine `bc_program_op`. -/
def bc_program_op (p : BcProgram) (inst : BcInst) : BcRet Unit :=
  match bc_program_binaryOpPrep p with
  | .abort => .abort
  | .fail s q => .fail s q
  | .ok p1 o =>
    match readNum p1 o.lval, readNum p1 o.rval with
    | some num1, some num2 =>
      match (if inst ≠ .OP_POWER then bc_program_math_ops inst else some bc_num_pow) with
      | none => .abort
      | some op =>
        match op num1 num2 p1.scale with
        | .error status => .fail status p1
        | .ok r => bc_program_binaryOpRetire p1 ⟨.INTERMEDIATE, .num r⟩ .INTERMEDIATE
    | _, _ => .abort

/-! ## Assignment: `bc_program_assign` -/

/-- The routine `bc_program_assignOp`: the library operation of a compound
assignment opcode; `none` is the `assert(false)` of the default case. -/
def bc_program_assignOp (inst : BcInst) : Option BcNumBinaryFunc :=
  match inst with
  | .OP_ASSIGN_POWER => some bc_num_pow
  | .OP_ASSIGN_MULTIPLY => some bc_num_mul
  | .OP_ASSIGN_DIVIDE => some bc_num_div
  | .OP_ASSIGN_MODULUS => some bc_num_mod
  | .OP_ASSIGN_PLUS => some bc_num_add
  | .OP_ASSIGN_MINUS => some bc_num_sub
  | _ => none

/-- The `switch (inst)` shared by `bc_program_assign` (lines 808-833) and
`bc_program_assignScale` (lines 751-778): the status of the update or the new
value of the left-hand number.  `lv` is the left-hand number when the pointer
refers to one; plain assignment does not read it.  `none` is the
`assert(false)` of the default case or a read through a pointer that refers to
no number. -/
def bc_program_assign_switch (inst : BcInst) (lv : Option BcNum) (rv : BcNum) (scale : Nat) :
    Option (Except BcStatus BcNum) :=
  match inst with
  | .OP_ASSIGN_POWER | .OP_ASSIGN_MULTIPLY | .OP_ASSIGN_DIVIDE | .OP_ASSIGN_MODULUS
  | .OP_ASSIGN_PLUS | .OP_ASSIGN_MINUS =>
    match bc_program_assignOp inst, lv with
    | some op, some l => some (op l rv scale)
    | _, _ => none
  | .OP_ASSIGN => some (.ok (bc_num_copy rv))
  | _ => none

/-- The routine `bc_program_assignScale`; `scale` points at the number of the
`Scale` slot on the left. -/
def bc_program_assignScale (p : BcProgram) (scale : BcLoc) (rv : BcNum) (inst : BcInst) :
    BcRet Unit :=
  match bc_program_assign_switch inst (readNum p scale) rv p.scale with
  | none => .abort
  | some (.error status) => .fail status p
  | some (.ok nv) =>
    match readNum (writeNum p scale nv) scale with
    | none => .abort
    | some sv =>
      match bc_num_ulong sv with
      | .error status => .fail status (writeNum p scale nv)
      | .ok result =>
        if result > p.scale_max then .fail .EXEC_BAD_SCALE (writeNum p scale nv)
        else .ok { writeNum p scale nv with scale := result } ()

/-- End of `bc_program_assign` (lines 856-862): a copy of the left-hand number is
pushed as an `Intermediate` in place of the two operands. -/
def bc_program_assign_finish (p : BcProgram) (lval : BcLoc) : BcRet Unit :=
  match readNum p lval with
  | none => .abort
  | some lv => bc_program_binaryOpRetire p ⟨.INTERMEDIATE, .num (bc_num_copy lv)⟩ .INTERMEDIATE

/-- The routine `bc_program_assign`. -/
def bc_program_assign (p : BcProgram) (inst : BcInst) : BcRet Unit :=
  match bc_program_binaryOpPrep p with
  | .abort => .abort
  | .fail s q => .fail s q
  | .ok p1 o =>
    match p1.results[o.left]? with
    | none => .abort
    | some left =>
      if left.type = .CONSTANT ∨ left.type = .INTERMEDIATE then .fail .PARSE_BAD_ASSIGN p1
      else
        match readNum p1 o.rval with
        | none => .abort
        | some rv =>
          if inst = BC_EXPR_ASSIGN_DIVIDE ∧ bc_num_cmp rv p1.zero = 0 then
            .fail .MATH_DIVIDE_BY_ZERO p1
          else if left.type ≠ .SCALE then
            match bc_program_assign_switch inst (readNum p1 o.lval) rv p1.scale with
            | none => .abort
            | some (.error status) => .fail status p1
            | some (.ok nv) =>
              if left.type = .IBASE ∨ left.type = .OBASE then
                match readNum (writeNum p1 o.lval nv) o.lval with
                | none => .abort
                | some bv =>
                  match bc_num_ulong bv with
                  | .error status => .fail status (writeNum p1 o.lval nv)
                  | .ok base =>
                    if base < BC_NUM_MIN_BASE ∨
                        base > (if left.type = .IBASE then BC_NUM_MAX_INPUT_BASE
                                else p1.base_max) then
                      .fail (if left.type = .IBASE then .EXEC_BAD_IBASE else .EXEC_BAD_OBASE)
                        (writeNum p1 o.lval nv)
                    else if left.type = .IBASE then
                      bc_program_assign_finish
                        { writeNum p1 o.lval nv with ibase_t := base } o.lval
                    else
                      bc_program_assign_finish
                        { writeNum p1 o.lval nv with obase_t := base } o.lval
              else bc_program_assign_finish (writeNum p1 o.lval nv) o.lval
          else
            match bc_program_assignScale p1 o.lval rv inst with
            | .abort => .abort
            | .fail s q => .fail s q
            | .ok p2 _ => bc_program_assign_finish p2 o.lval

/-! ## Increment and decrement: `bc_program_incdec` -/

/-- The routine `bc_program_incdec`. -/
def bc_program_incdec (p : BcProgram) (inst : BcInst) : BcRet Unit :=
  match bc_program_unaryOpPrep p with
  | .abort => .abort
  | .fail s q => .fail s q
  | .ok p1 (_, num) =>
    let inst2 : BcInst :=
      if inst = .INC ∨ inst = .INC_DUP then .OP_ASSIGN_PLUS else .OP_ASSIGN_MINUS
    let dup : Bool := inst = .INC_DUP ∨ inst = .DEC_DUP
    match (if dup then
             (readNum p1 num).map (fun n => BcResult.mk .INTERMEDIATE (.num (bc_num_init n.len)))
           else some ⟨.INTERMEDIATE, .uninit⟩) with
    | none => .abort
    | some copy =>
      match bc_program_assign { p1 with results := p1.results ++ [⟨.ONE, .uninit⟩] } inst2 with
      | .abort => .abort
      | .fail s q => .fail s q
      | .ok p3 _ =>
        if dup then
          match bc_vec_pop p3.results with
          | none => .fail .VEC_OUT_OF_BOUNDS p3
          | some r => .ok { p3 with results := r ++ [copy] } ()
        else .ok p3 ()

/-! ## The `BC_INST_OP_BOOL_NOT` case of `bc_program_exec` -/

/-- The case `BC_INST_OP_BOOL_NOT` of the dispatch in `bc_program_exec` (lines
1584-1602). -/
def bc_program_exec_OP_BOOL_NOT (p : BcProgram) : BcRet Unit :=
  match bc_program_unaryOpPrep p with
  | .abort => .abort
  | .fail s q => .fail s q
  | .ok p1 (_, num) =>
    match readNum p1 num with
    | none => .abort
    | some n =>
      let r : BcNum := if bc_num_cmp n p1.zero ≠ 0 then bc_num_one else bc_num_zero
      bc_program_unaryOpRetire p1 ⟨.INTERMEDIATE, .num r⟩ .INTERMEDIATE

/-! ## Calls: `bc_program_index` and `bc_program_call` -/

/-- Loop of `bc_program_index` (lines 394-397): `n` further bytes are read
starting with byte number `i`; the value so far and the offset.  A read outside
the buffer and a shift by the width of `size_t` (64 bits) or more are not
defined. -/
def bc_program_index_loop (code : List Nat) : Nat → Nat → Nat → Nat → Option (Nat × Nat)
  | 0, _, result, start => some (result, start)
  | n + 1, i, result, start =>
    match code[start]? with
    | none => none
    | some byte =>
      if i * 8 < 64 then
        bc_program_index_loop code n (i + 1) (result ||| (byte <<< (i * 8))) (start + 1)
      else none

/-- The routine `bc_program_index`: the decoded immediate and the advanced
offset. -/
def bc_program_index (code : List Nat) (start : Nat) : Option (Nat × Nat) :=
  match code[start]? with
  | none => none
  | some bytes => bc_program_index_loop code bytes 0 0 (start + 1)

/-- First loop of `bc_program_call` (lines 894-929): `n` further parameters are
copied, starting with parameter `i`. -/
def bc_program_call_params (func : BcFunc) (nparams : Nat) :
    Nat → Nat → BcProgram → BcRet Unit
  | 0, _, p => .ok p ()
  | n + 1, i, p =>
    match func.autos[i]?, bc_vec_item_rev p.results (nparams - 1) with
    | some auto_ptr, some arg =>
      if auto_ptr.var then
        match bc_program_num p (p.results.length - (nparams - 1) - 1) false with
        | .abort => .abort
        | .fail s q => .fail s q
        | .ok p1 num =>
          match readNum p1 num with
          | none => .abort
          | some v =>
            bc_program_call_params func nparams n (i + 1)
              { p1 with results := p1.results ++ [⟨.VAR_AUTO, .num (bc_num_copy v)⟩] }
      else
        if arg.type ≠ .VAR ∨ arg.type ≠ .ARRAY then .fail .EXEC_BAD_TYPE p
        else
          match arg.data with
          | .id name idx =>
            match bc_program_search p name idx ⟨false, true⟩ with
            | .abort => .abort
            | .fail s q => .fail s q
            | .ok p1 a =>
              match readArray p1 a with
              | none => .abort
              | some arr =>
                bc_program_call_params func nparams n (i + 1)
                  { p1 with results := p1.results ++ [⟨.ARRAY_AUTO, .array arr⟩] }
          | _ => .abort
    | _, _ => .abort

/-- Second loop of `bc_program_call` (lines 931-943): `n` further locals are
pushed, starting with index `i`; the descriptor is fetched with
`bc_vec_item_rev`. -/
def bc_program_call_autos (func : BcFunc) : Nat → Nat → BcProgram → BcRet Unit
  | 0, _, p => .ok p ()
  | n + 1, i, p =>
    match bc_vec_item_rev func.autos i with
    | none => .abort
    | some auto_ptr =>
      bc_program_call_autos func n (i + 1)
        { p with results := p.results ++
            [if auto_ptr.var then ⟨.VAR_AUTO, .num (bc_num_init BC_NUM_DEF_SIZE)⟩
             else ⟨.ARRAY_AUTO, .array []⟩] }

/-- The routine `bc_program_call`.  The offset `idx` it decodes from is the field
`idx` of the frame on top of the frame stack (the caller passes `&ip->idx`); it
is advanced past the two immediates in place. -/
def bc_program_call (p : BcProgram) (code : List Nat) : BcRet Unit :=
  match p.stack.getLast? with
  | none => .abort
  | some ip0 =>
    match bc_program_index code ip0.idx with
    | none => .abort
    | some (nparams, idx1) =>
      match bc_program_index code idx1 with
      | none => .abort
      | some (fidx, idx2) =>
        let p0 : BcProgram := { p with stack := p.stack.dropLast ++ [{ ip0 with idx := idx2 }] }
        let ip : BcInstPtr := ⟨fidx, 0, p0.results.length⟩
        match p0.funcs[fidx]? with
        | none => .abort
        | some func =>
          if func.code.length = 0 then .fail .EXEC_UNDEFINED_FUNC p0
          else if nparams ≠ func.nparams then .fail .EXEC_MISMATCHED_PARAMS p0
          else
            match bc_program_call_params func nparams nparams 0 p0 with
            | .abort => .abort
            | .fail s q => .fail s q
            | .ok p1 _ =>
              match bc_program_call_autos func (func.autos.length - nparams) nparams p1 with
              | .abort => .abort
              | .fail s q => .fail s q
              | .ok p2 _ => .ok { p2 with stack := p2.stack ++ [ip] } ()

/-! ## Relational and boolean operators: `bc_program_logical` -/

/-- The condition `cond` computed by `bc_program_logical` (lines 633-686);
`none` is the `assert(false)` of the default case. -/
def bc_program_logical_cond (inst : BcInst) (num1 num2 zero : BcNum) : Option Bool :=
  if inst = .OP_BOOL_AND then
    some (decide (bc_num_cmp num1 zero ≠ 0) && decide (bc_num_cmp num2 zero ≠ 0))
  else if inst = .OP_BOOL_OR then
    some (decide (bc_num_cmp num1 zero ≠ 0) || decide (bc_num_cmp num2 zero ≠ 0))
  else
    match inst with
    | .OP_REL_EQUAL => some (decide (bc_num_cmp num1 num2 = 0))
    | .OP_REL_LESS_EQ => some (decide (bc_num_cmp num1 num2 ≤ 0))
    | .OP_REL_GREATER_EQ => some (decide (bc_num_cmp num1 num2 ≥ 0))
    | .OP_REL_NOT_EQ => some (decide (bc_num_cmp num1 num2 ≠ 0))
    | .OP_REL_LESS => some (decide (bc_num_cmp num1 num2 < 0))
    | .OP_REL_GREATER => some (decide (bc_num_cmp num1 num2 > 0))
    | _ => none

/-- The routine `bc_program_logical`. -/
def bc_program_logical (p : BcProgram) (inst : BcInst) : BcRet Unit :=
  match bc_program_binaryOpPrep p with
  | .abort => .abort
  | .fail s q => .fail s q
  | .ok p1 o =>
    match readNum p1 o.lval, readNum p1 o.rval with
    | some num1, some num2 =>
      match bc_program_logical_cond inst num1 num2 p1.zero with
      | none => .abort
      | some cond =>
        bc_program_binaryOpRetire p1
          ⟨.INTERMEDIATE, .num (if cond then bc_num_one else bc_num_zero)⟩ .INTERMEDIATE
    | _, _ => .abort

/-! ## Return: `bc_program_return` -/

/-- Largest value of the C type `size_t`, taken to be 64 bits wide. -/
def SIZE_MAX : Nat := 2 ^ 64 - 1

/-- Subtraction of two `size_t` values: it wraps around. -/
def size_sub (a b : Nat) : Nat := (a + (SIZE_MAX + 1) - b % (SIZE_MAX + 1)) % (SIZE_MAX + 1)

/-- Modelled from the spec: `bc_vec_npop` removes the top `n` items of a vector
("the engine discards everything from `base - nparams` to `results.len - 1`");
asked for more items than the vector holds, it returns a non-success status
(`none` here). -/
def bc_vec_npop {α : Type} (v : List α) (n : Nat) : Option (List α) :=
  if n ≤ v.length then some (v.take (v.length - n)) else none

/-- Modelled from the spec: the macro `BC_PROGRAM_CHECK_RESULTS(p, l)` of
`program.h` ("`results.len` immediately before dispatch ≥ its declared arity"):
the result stack holds at least `l` entries. -/
def BC_PROGRAM_CHECK_RESULTS (p : BcProgram) (l : Nat) : Bool := decide (l ≤ p.results.length)

/-- Modelled from the spec: the macro `BC_PROGRAM_CHECK_STACK(p)` of `program.h`.
The frame stack is "seeded with" the frame of `main`, and a return is to "tear"
the frame of a call: there is a frame above the seeded one. -/
def BC_PROGRAM_CHECK_STACK (p : BcProgram) : Bool := decide (1 < p.stack.length)

/-- The routine `bc_program_return`.  `num` gives the byte value of each opcode
(`instructions.h`); it is needed for the assertion of line 967 only, whose
argument `ip->len + inst == BC_INST_RETURN` is the truth value of the comparison
of the sum with the opcode.  The frame and the function are read before the
operand is materialised; materialisation changes neither. -/
def bc_program_return (num : BcInst → Nat) (p : BcProgram) (inst : BcInst) : BcRet Unit :=
  match (if BC_PROGRAM_CHECK_STACK p then p.stack.getLast? else none) with
  | none => .abort
  | some ip =>
    if BC_PROGRAM_CHECK_RESULTS p
        (if (ip.len + num inst) % (SIZE_MAX + 1) = num .RETURN then 1 else 0) = false then .abort
    else
      match p.funcs[ip.func]? with
      | none => .abort
      | some func =>
        match (if inst = .RETURN then
                 match bc_vec_item_rev p.results 0 with
                 | none => .abort
                 | some _ =>
                   match bc_program_num p (p.results.length - 1) false with
                   | .abort => .abort
                   | .fail s q => .fail s q
                   | .ok p1 n =>
                     match readNum p1 n with
                     | none => .abort
                     | some v => .ok p1 (bc_num_copy v)
               else BcRet.ok p bc_num_zero) with
        | .abort => .abort
        | .fail s q => .fail s q
        | .ok p1 v =>
          match bc_vec_npop p1.results
              (size_sub p1.results.length (size_sub ip.len func.nparams)) with
          | none => .fail .VEC_OUT_OF_BOUNDS p1
          | some rs =>
            match bc_vec_pop p1.stack with
            | none =>
              .fail .VEC_OUT_OF_BOUNDS { p1 with results := rs ++ [⟨.INTERMEDIATE, .num v⟩] }
            | some st =>
              .ok { p1 with
                    results := rs ++ [⟨.INTERMEDIATE, .num v⟩],
                    stack := st } ()

/-! ## Names and references: `bc_program_name` and `bc_program_push` -/

/-- Loop of `bc_program_name` (lines 415-421): the bytes up to the first NUL
or `':'` (58) are copied; the characters copied so far are `s`.  At most `fuel`
bytes are read; a read outside the buffer is not defined. -/
def bc_program_name_loop (code : List Nat) : Nat → Nat → List Char → Option (String × Nat)
  | 0, _, _ => none
  | fuel + 1, start, s =>
    match code[start]? with
    | none => none
    | some byte =>
      if byte ≠ 0 ∧ byte ≠ 58 then
        bc_program_name_loop code fuel (start + 1) (s ++ [Char.ofNat byte])
      else some (String.mk s, start + 1)

/-- The routine `bc_program_name`: the decoded name and the advanced offset.
The loop reads one byte per round and every byte read lies inside the buffer,
so `code.length - start` rounds are all it can make. -/
def bc_program_name (code : List Nat) (start : Nat) : Option (String × Nat) :=
  bc_program_name_loop code (code.length - start) start []

/-- The function `strchr` of the C library on the bytes of `code` from offset
`pos` on, `k` bytes into the string: the offset in the string of the first byte
`c`, `some none` (a null pointer) when a NUL byte comes before any; `none` when
the scan leaves the buffer within `fuel` bytes. -/
def c_strchr (code : List Nat) (c : Nat) : Nat → Nat → Nat → Option (Option Nat)
  | 0, _, _ => none
  | fuel + 1, pos, k =>
    match code[pos]? with
    | none => none
    | some byte =>
      if byte = c then some (some k)
      else if byte = 0 then some none
      else c_strchr code c fuel (pos + 1) (k + 1)

/-- The function `strlen` of the C library on the bytes of `code` from offset
`pos` on, `k` bytes into the string. -/
def c_strlen (code : List Nat) : Nat → Nat → Nat → Option Nat
  | 0, _, _ => none
  | fuel + 1, pos, k =>
    match code[pos]? with
    | none => none
    | some byte => if byte = 0 then some k else c_strlen code fuel (pos + 1) (k + 1)

/-- The size of the buffer `bc_program_name` allocates (lines 407-413):
`len + 1`, where `len` is the offset of the first `':'` of the string at
`code + start`, or the length of that string when it holds none. -/
def bc_program_name_alloc (code : List Nat) (start : Nat) : Option Nat :=
  match c_strchr code 58 (code.length - start) start 0 with
  | none => none
  | some (some len) => some (len + 1)
  | some none => (c_strlen code (code.length - start) start 0).map (· + 1)

/-- The number of bytes `bc_program_name` writes into its buffer (lines
415-423): the `i` bytes of the name, one per round of the loop, and the NUL
that ends it. -/
def bc_program_name_written (name : String) : Nat := name.length + 1

/-- The routine `bc_program_push`.  As for `bc_program_call`, the offset it
decodes from is the field `idx` of the frame on top of the frame stack.  In the
scalar case the code leaves the field `idx` of the reference unwritten; `junk`
is the value found there. -/
def bc_program_push (p : BcProgram) (code : List Nat) (var : Bool) (junk : Nat) : BcRet Unit :=
  match p.stack.getLast? with
  | none => .abort
  | some ip0 =>
    match bc_program_name code ip0.idx with
    | none => .abort
    | some (name, idx1) =>
      if var then
        .ok { p with
              stack := p.stack.dropLast ++ [{ ip0 with idx := idx1 }],
              results := p.results ++ [⟨.VAR, .id name junk⟩] } ()
      else
        match bc_program_unaryOpPrep
            { p with stack := p.stack.dropLast ++ [{ ip0 with idx := idx1 }] } with
        | .abort => .abort
        | .fail s q => .fail s q
        | .ok p1 (_, n) =>
          match readNum p1 n with
          | none => .abort
          | some v =>
            match bc_num_ulong v with
            | .error s => .fail s p1
            | .ok temp =>
              if temp > p1.dim_max then .fail .EXEC_ARRAY_LEN p1
              else bc_program_unaryOpRetire p1 ⟨.ARRAY, .id name temp⟩ .ARRAY

/-! ## Function table: `bc_program_addFunc` -/

/-- Modelled from the spec: `bc_func_init` creates a function ("parameter count
`nparams`; ordered list of autos ...; append-only `code` byte buffer;
`labels`") with nothing in it yet. -/
def bc_func_init : BcFunc := ⟨[], [], 0, []⟩

/-- The routine `bc_program_addFunc`: the index handed back through `idx`.
Removing all the items of a vector does not fail, so the three `bc_vec_npop` of
a redefinition are taken together. -/
def bc_program_addFunc (p : BcProgram) (name : String) : BcRet Nat :=
  match bc_veco_insert p.func_map ⟨name, p.funcs.length⟩ with
  | (status, m, idx) =>
    if status ≠ .SUCCESS ∧ status ≠ .VEC_ITEM_EXISTS then .fail status p
    else
      match m[idx]? with
      | none => .abort
      | some entry_ptr =>
        if status = .VEC_ITEM_EXISTS then
          match p.funcs[entry_ptr.idx]? with
          | none => .abort
          | some func =>
            match bc_vec_npop func.autos func.autos.length,
                  bc_vec_npop func.code func.code.length,
                  bc_vec_npop func.labels func.labels.length with
            | some autos, some code, some labels =>
              .ok { p with
                    func_map := m,
                    funcs := p.funcs.set entry_ptr.idx
                      { func with nparams := 0, autos := autos, code := code, labels := labels } }
                entry_ptr.idx
            | _, _, _ => .fail .VEC_OUT_OF_BOUNDS p
        else .ok { p with func_map := m, funcs := p.funcs ++ [bc_func_init] } entry_ptr.idx

/-! ## Negation and the builtins -/

/-- The routine `bc_program_negate`: the copy of the operand with its sign flag
flipped replaces the operand.  The flag is flipped whatever the number is (line
605), so the copy of a zero carries the flag the zero did not. -/
def bc_program_negate (p : BcProgram) : BcRet Unit :=
  match bc_program_unaryOpPrep p with
  | .abort => .abort
  | .fail s q => .fail s q
  | .ok p1 (_, n) =>
    match readNum p1 n with
    | none => .abort
    | some v =>
      bc_program_unaryOpRetire p1
        ⟨.INTERMEDIATE,
         .num ⟨-(bc_num_copy v).val, (bc_num_copy v).rdx, !(bc_num_copy v).zneg⟩⟩
        .INTERMEDIATE

/-- The routine `bc_program_scale`. -/
def bc_program_scale (n : BcNum) : Nat := n.rdx

/-- Loop of `bc_program_length` (line 1016) on a number of `nlen` digits `num`:
`i` and `len` are the loop variables; `none` when `fuel` rounds do not end it
or a digit is read outside `num`. -/
def bc_program_length_loop (num : List Nat) (nlen : Nat) : Nat → Nat → Nat → Option Nat
  | 0, _, _ => none
  | fuel + 1, i, len =>
    if i < nlen then
      match num[i]? with
      | none => none
      | some d =>
        if d = 0 then bc_program_length_loop num nlen fuel (size_sub i 1) (size_sub len 1)
        else some len
    else some len

/-- The routine `bc_program_length`, on the fields `len`, `rdx` and `num` of
its argument.  Every round but the last lowers `i`, which starts below `nlen`,
so `nlen + 1` rounds are all the loop can make. -/
def bc_program_length (nlen rdx : Nat) (num : List Nat) : Option Nat :=
  if rdx = nlen then bc_program_length_loop num nlen (nlen + 1) (size_sub nlen 1) nlen
  else some nlen

/-- Modelled from the spec: `bc_num_sqrt` ("`sqrt` yields `scale` fractional
digits (fails on negative input)"): the square root truncated to `scale`
digits. -/
def bc_num_sqrt (a : BcNum) (scale : Nat) : Except BcStatus BcNum :=
  if a.val < 0 then .error .MATH_NEGATIVE
  else .ok ⟨(Nat.sqrt (a.val.toNat * 10 ^ (2 * scale) / 10 ^ a.rdx) : Nat), scale, false⟩

/-- The routine `bc_program_builtin`. -/
def bc_program_builtin (p : BcProgram) (inst : BcInst) : BcRet Unit :=
  match bc_program_unaryOpPrep p with
  | .abort => .abort
  | .fail s q => .fail s q
  | .ok p1 (_, n) =>
    match readNum p1 n with
    | none => .abort
    | some num1 =>
      if inst = .SQRT then
        match bc_num_sqrt num1 p1.scale with
        | .error status => .fail status p1
        | .ok r => bc_program_unaryOpRetire p1 ⟨.INTERMEDIATE, .num r⟩ .INTERMEDIATE
      else
        match (if inst = .LENGTH then bc_program_length num1.len num1.rdx num1.num
               else some (bc_program_scale num1)) with
        | none => .abort
        | some ans =>
          bc_program_unaryOpRetire p1 ⟨.INTERMEDIATE, .num (bc_num_ulong2num ans)⟩ .INTERMEDIATE

/-- The routine `bc_program_pushScale`. -/
def bc_program_pushScale (p : BcProgram) : BcRet Unit :=
  .ok { p with results := p.results ++ [⟨.SCALE, .num (bc_num_ulong2num p.scale)⟩] } ()

/-! ## Strings: `bc_program_printString` -/

/-- The `switch (c2)` of `bc_program_printString` (lines 485-542): the
character written for the escape letter `c2`, if one is. -/
def bc_program_printString_escape (c2 : Char) : Option Char :=
  if c2 = 'a' then some (Char.ofNat 7)
  else if c2 = 'b' then some (Char.ofNat 8)
  else if c2 = 'e' then some '\\'
  else if c2 = 'f' then some (Char.ofNat 12)
  else if c2 = 'n' then some '\n'
  else if c2 = 'r' then some '\r'
  else if c2 = 'q' then some '"'
  else if c2 = 't' then some '\t'
  else none

/-- Loop of `bc_program_printString` (lines 474-546) over the characters not
yet visited.  `putchar out c` tells whether writing `c` after the output `out`
succeeds.  The outcome is the status, the column counter and the output; `none`
is the failed `assert(i < len)` of a backslash that ends the string. -/
def bc_program_printString_loop (putchar : List Char → Char → Bool) :
    List Char → Nat → List Char → Option (BcStatus × Nat × List Char)
  | [], nchars, out => some (.SUCCESS, nchars, out)
  | c :: rest, nchars, out =>
    if c ≠ '\\' then
      if putchar out c then
        bc_program_printString_loop putchar rest ((nchars + 1) % (SIZE_MAX + 1)) (out ++ [c])
      else some (.IO_ERR, nchars, out)
    else
      match rest with
      | [] => none
      | c2 :: rest2 =>
        match bc_program_printString_escape c2 with
        | none =>
          bc_program_printString_loop putchar rest2 ((nchars + 1) % (SIZE_MAX + 1)) out
        | some e =>
          if putchar out e then
            bc_program_printString_loop putchar rest2
              (((if c2 = 'n' then SIZE_MAX else nchars) + 1) % (SIZE_MAX + 1)) (out ++ [e])
          else some (.IO_ERR, if c2 = 'n' then SIZE_MAX else nchars, out)

/-- The routine `bc_program_printString`. -/
def bc_program_printString (putchar : List Char → Char → Bool) (str : String) (nchars : Nat)
    (out : List Char) : Option (BcStatus × Nat × List Char) :=
  bc_program_printString_loop putchar str.toList nchars out

/-- Loop of the case `BC_INST_STR` (lines 1538-1543). -/
def bc_program_exec_STR_loop (putchar : List Char → Char → Bool) :
    List Char → Nat → List Char → BcStatus × Nat × List Char
  | [], nchars, out => (.SUCCESS, nchars, out)
  | c :: rest, nchars, out =>
    if putchar out c then
      bc_program_exec_STR_loop putchar rest
        (((if c = '\n' then SIZE_MAX else nchars) + 1) % (SIZE_MAX + 1)) (out ++ [c])
    else (.IO_ERR, nchars, out)

/-! ## The execution loop: `bc_program_exec` -/

/-- What `bc_program_exec` touches outside the program image: how many times
the flag `bcg.sig_int` has been read, how many lines have been taken from the
standard input, and the characters written to the standard output. -/
structure BcWorld where
  polls : Nat
  reads : Nat
  out : List Char
  deriving DecidableEq, Repr

/-- The collaborators of `bc_program_exec` whose code is not among the sources,
as parameters.

* `sig_int k` is the value the read number `k` of the flag `bcg.sig_int` finds
  (the flag is set by a signal handler).
* `inst` gives the byte value of each opcode (`instructions.h`).
* `junk` is the value found in a field the code reads or copies without having
  written it.
* `putchar out c` tells whether writing `c` after the output `out` succeeds.
* `num_print n obase obase_t newline nchars out` is `bc_num_print`: its status,
  the column counter and the output it leaves.
* `read_expr k p` stands for lines 346-359 of `bc_program_read` on line `k` of
  the input (`getline`, `bc_parse_init`, `bc_lex_text`, `bc_parse_expr`): a
  status that ends the routine at once, or the status of `bc_parse_expr`,
  whether the token left is a newline, and the program with the code parsed
  into the function `read`. -/
structure BcEnv where
  sig_int : Nat → Bool
  inst : BcInst → Nat
  junk : Nat
  putchar : List Char → Char → Bool
  num_print : BcNum → BcNum → Nat → Bool → Nat → List Char → BcStatus × Nat × List Char
  read_expr : Nat → BcProgram → Except BcStatus (BcStatus × Bool × BcProgram)

/-- The opcodes in the order of the case labels of the `switch` of
`bc_program_exec`. -/
def BcInst.caseLabels : List BcInst :=
  [.CALL, .RETURN, .RETURN_ZERO, .READ, .JUMP_ZERO, .JUMP, .PUSH_VAR, .PUSH_ARRAY, .PUSH_LAST,
   .PUSH_SCALE, .PUSH_IBASE, .PUSH_OBASE, .SCALE_FUNC, .LENGTH, .SQRT, .PUSH_NUM, .POP,
   .INC_DUP, .DEC_DUP, .INC, .DEC, .HALT, .PRINT, .PRINT_EXPR, .STR, .PRINT_STR,
   .OP_POWER, .OP_MULTIPLY, .OP_DIVIDE, .OP_MODULUS, .OP_PLUS, .OP_MINUS,
   .OP_REL_EQUAL, .OP_REL_LESS_EQ, .OP_REL_GREATER_EQ, .OP_REL_NOT_EQ, .OP_REL_LESS,
   .OP_REL_GREATER, .OP_BOOL_NOT, .OP_BOOL_OR, .OP_BOOL_AND, .OP_NEGATE,
   .OP_ASSIGN_POWER, .OP_ASSIGN_MULTIPLY, .OP_ASSIGN_DIVIDE, .OP_ASSIGN_MODULUS,
   .OP_ASSIGN_PLUS, .OP_ASSIGN_MINUS, .OP_ASSIGN]

/-- The case of the `switch (inst)` a byte selects; `none` is the default
case. -/
def decodeInst (num : BcInst → Nat) (byte : Nat) : Option BcInst :=
  BcInst.caseLabels.find? (fun i => num i == byte)

/-- The call `bc_program_index(code, &ip->idx)` of `bc_program_exec`: the
immediate, and the program with the counter of the top frame moved past it. -/
def bc_program_exec_index (func : BcFunc) (p : BcProgram) : Option (Nat × BcProgram) :=
  match p.stack.getLast? with
  | none => none
  | some ip =>
    match bc_program_index func.code ip.idx with
    | none => none
    | some (v, start) =>
      some (v, { p with stack := p.stack.dropLast ++ [{ ip with idx := start }] })

/-- The case `BC_INST_JUMP` of `bc_program_exec` (lines 1419-1432), which the
case `BC_INST_JUMP_ZERO` falls into; `taken` is `inst == BC_INST_JUMP || cond`. -/
def bc_program_exec_JUMP (func : BcFunc) (p : BcProgram) (taken : Bool) : BcRet Unit :=
  match p.stack.getLast? with
  | none => .abort
  | some ip =>
    match bc_program_index func.code ip.idx with
    | none => .abort
    | some (idx, start) =>
      match func.labels[idx]? with
      | none => .abort
      | some addr =>
        .ok { p with
              stack := p.stack.dropLast ++ [{ ip with idx := if taken then addr else start }] }
          ()

/-- The case `BC_INST_JUMP_ZERO` of `bc_program_exec` (lines 1409-1432). -/
def bc_program_exec_JUMP_ZERO (func : BcFunc) (p : BcProgram) : BcRet Unit :=
  match bc_program_unaryOpPrep p with
  | .abort => .abort
  | .fail s q => .fail s q
  | .ok p1 (_, n) =>
    match readNum p1 n with
    | none => .abort
    | some v =>
      match bc_vec_pop p1.results with
      | none =>
        match bc_program_exec_JUMP func p1 (decide (bc_num_cmp v p1.zero = 0)) with
        | .ok q _ => .fail .VEC_OUT_OF_BOUNDS q
        | r => r
      | some rs =>
        bc_program_exec_JUMP func { p1 with results := rs } (decide (bc_num_cmp v p1.zero = 0))

/-- The cases `BC_INST_PRINT` and `BC_INST_PRINT_EXPR` of `bc_program_exec`
(lines 1505-1523). -/
def bc_program_exec_PRINT (env : BcEnv) (inst : BcInst) (p : BcProgram) (w : BcWorld) :
    BcRet Unit × BcWorld :=
  match bc_program_unaryOpPrep p with
  | .abort => (.abort, w)
  | .fail s q => (.fail s q, w)
  | .ok p1 (_, n) =>
    match readNum p1 n with
    | none => (.abort, w)
    | some v =>
      match env.num_print v p1.obase p1.obase_t (decide (inst = .PRINT)) p1.nchars w.out with
      | (status, nchars, out) =>
        if status ≠ .SUCCESS then
          (.fail status { p1 with nchars := nchars }, { w with out := out })
        else
          match bc_vec_pop p1.results with
          | none =>
            (.fail .VEC_OUT_OF_BOUNDS { p1 with nchars := nchars, last := bc_num_copy v },
             { w with out := out })
          | some rs =>
            (.ok { p1 with nchars := nchars, last := bc_num_copy v, results := rs } (),
             { w with out := out })

/-- The case `BC_INST_STR` of `bc_program_exec` (lines 1525-1546). -/
def bc_program_exec_STR (env : BcEnv) (func : BcFunc) (p : BcProgram) (w : BcWorld) :
    BcRet Unit × BcWorld :=
  match bc_program_exec_index func p with
  | none => (.abort, w)
  | some (idx, p1) =>
    match p1.strings[idx]? with
    | none => (.abort, w)
    | some s =>
      match bc_program_exec_STR_loop env.putchar s.toList p1.nchars w.out with
      | (status, nchars, out) =>
        if status ≠ .SUCCESS then
          (.fail status { p1 with nchars := nchars }, { w with out := out })
        else (.ok { p1 with nchars := nchars } (), { w with out := out })

/-- The case `BC_INST_PRINT_STR` of `bc_program_exec` (lines 1548-1560). -/
def bc_program_exec_PRINT_STR (env : BcEnv) (func : BcFunc) (p : BcProgram) (w : BcWorld) :
    BcRet Unit × BcWorld :=
  match bc_program_exec_index func p with
  | none => (.abort, w)
  | some (idx, p1) =>
    match p1.strings[idx]? with
    | none => (.abort, w)
    | some s =>
      match bc_program_printString env.putchar s p1.nchars w.out with
      | none => (.abort, w)
      | some (status, nchars, out) =>
        if status ≠ .SUCCESS then
          (.fail status { p1 with nchars := nchars }, { w with out := out })
        else (.ok { p1 with nchars := nchars } (), { w with out := out })

/-- The routine `bc_program_read`; `exec` is `bc_program_exec`, which it
calls on the expression read. -/
def bc_program_read (env : BcEnv)
    (exec : BcProgram → BcWorld → Option (BcRet Unit × BcWorld))
    (p : BcProgram) (w : BcWorld) : Option (BcRet Unit × BcWorld) :=
  match p.funcs[BC_PROGRAM_READ]? with
  | none => some (.abort, w)
  | some func =>
    match env.read_expr w.reads
        { p with funcs := p.funcs.set BC_PROGRAM_READ { func with code := [] } } with
    | .error status =>
      some (.fail status
              { p with funcs := p.funcs.set BC_PROGRAM_READ { func with code := [] } },
            { w with reads := w.reads + 1 })
    | .ok (status, newline, p1) =>
      if status ≠ .LEX_EOF ∧ newline = false then
        some (.fail (if status ≠ .SUCCESS then status else .EXEC_BAD_READ_EXPR) p1,
              { w with reads := w.reads + 1 })
      else
        match exec { p1 with stack := p1.stack ++ [⟨BC_PROGRAM_READ, 0, p1.results.length⟩] }
            { w with reads := w.reads + 1 } with
        | none => none
        | some (.abort, w2) => some (.abort, w2)
        | some (.fail s q, w2) => some (.fail s q, w2)
        | some (.ok q _, w2) =>
          match bc_vec_pop q.stack with
          | none => some (.fail .VEC_OUT_OF_BOUNDS q, w2)
          | some st => some (.ok { q with stack := st } (), w2)

/-- The `switch (inst)` of `bc_program_exec` (lines 1388-1634) on the opcode
`inst` fetched from the code of `func`, the function of the top frame, whose
counter already stands past the opcode.  `exec` is `bc_program_exec` itself,
for `BC_INST_READ`. -/
def bc_program_exec_inst (env : BcEnv)
    (exec : BcProgram → BcWorld → Option (BcRet Unit × BcWorld))
    (func : BcFunc) (inst : BcInst) (p : BcProgram) (w : BcWorld) :
    Option (BcRet Unit × BcWorld) :=
  match inst with
  | .CALL => some (bc_program_call p func.code, w)
  | .RETURN | .RETURN_ZERO => some (bc_program_return env.inst p inst, w)
  | .READ => bc_program_read env exec p w
  | .JUMP_ZERO => some (bc_program_exec_JUMP_ZERO func p, w)
  | .JUMP => some (bc_program_exec_JUMP func p true, w)
  | .PUSH_VAR | .PUSH_ARRAY =>
    some (bc_program_push p func.code (decide (inst = .PUSH_VAR)) env.junk, w)
  | .PUSH_LAST => some (.ok { p with results := p.results ++ [⟨.LAST, .uninit⟩] } (), w)
  | .PUSH_SCALE => some (bc_program_pushScale p, w)
  | .PUSH_IBASE => some (.ok { p with results := p.results ++ [⟨.IBASE, .uninit⟩] } (), w)
  | .PUSH_OBASE => some (.ok { p with results := p.results ++ [⟨.OBASE, .uninit⟩] } (), w)
  | .SCALE_FUNC | .LENGTH | .SQRT => some (bc_program_builtin p inst, w)
  | .PUSH_NUM =>
    match bc_program_exec_index func p with
    | none => some (.abort, w)
    | some (idx, p1) =>
      some (.ok { p1 with results := p1.results ++ [⟨.CONSTANT, .id "" idx⟩] } (), w)
  | .POP =>
    match bc_vec_pop p.results with
    | none => some (.fail .VEC_OUT_OF_BOUNDS p, w)
    | some rs => some (.ok { p with results := rs } (), w)
  | .INC_DUP | .DEC_DUP | .INC | .DEC => some (bc_program_incdec p inst, w)
  | .HALT => some (.fail .QUIT p, w)
  | .PRINT | .PRINT_EXPR => some (bc_program_exec_PRINT env inst p w)
  | .STR => some (bc_program_exec_STR env func p w)
  | .PRINT_STR => some (bc_program_exec_PRINT_STR env func p w)
  | .OP_POWER | .OP_MULTIPLY | .OP_DIVIDE | .OP_MODULUS | .OP_PLUS | .OP_MINUS =>
    some (bc_program_op p inst, w)
  | .OP_REL_EQUAL | .OP_REL_LESS_EQ | .OP_REL_GREATER_EQ | .OP_REL_NOT_EQ | .OP_REL_LESS
  | .OP_REL_GREATER => some (bc_program_logical p inst, w)
  | .OP_BOOL_NOT => some (bc_program_exec_OP_BOOL_NOT p, w)
  | .OP_BOOL_OR | .OP_BOOL_AND => some (bc_program_logical p inst, w)
  | .OP_NEGATE => some (bc_program_negate p, w)
  | .OP_ASSIGN_POWER | .OP_ASSIGN_MULTIPLY | .OP_ASSIGN_DIVIDE | .OP_ASSIGN_MODULUS
  | .OP_ASSIGN_PLUS | .OP_ASSIGN_MINUS | .OP_ASSIGN => some (bc_program_assign p inst, w)

/-- The routine `bc_program_exec`.  Each round of its loop reads the flag
`bcg.sig_int` once, fetches one opcode of the function of the top frame and
dispatches it; a round that ends with `BC_STATUS_SUCCESS` is followed by the
next one, on the frame then on top.  `none` when `fuel` rounds do not end the
loop; `some` of the status and program the routine returns with, and of the
world it leaves. -/
def bc_program_exec (env : BcEnv) : Nat → BcProgram → BcWorld → Option (BcRet Unit × BcWorld)
  | 0, _, _ => none
  | fuel + 1, p, w =>
    match p.stack.getLast? with
    | none => some (.abort, w)
    | some ip =>
      match p.funcs[ip.func]? with
      | none => some (.abort, w)
      | some func =>
        if env.sig_int w.polls = false ∧ ip.idx < func.code.length then
          match (func.code[ip.idx]?).bind (decodeInst env.inst) with
          | none => some (.abort, { w with polls := w.polls + 1 })
          | some inst =>
            match bc_program_exec_inst env (bc_program_exec env fuel) func inst
                { p with stack := p.stack.dropLast ++ [{ ip with idx := ip.idx + 1 }] }
                { w with polls := w.polls + 1 } with
            | none => none
            | some (.ok q _, w1) => bc_program_exec env fuel q w1
            | some (r, w1) => some (r, w1)
        else some (.ok p (), { w with polls := w.polls + 1 })

/-- One round of the loop of `bc_program_exec` (lines 1384-1640) started on `p`
and `w`: with the loop condition true, the outcome of the dispatch of the opcode
fetched, the nested execution of `BC_INST_READ` having `fuel` rounds.  `none`
when no opcode is dispatched (the loop condition is false, or the fetch is not
defined) or the nested execution runs out of rounds. -/
def bc_program_exec_round (env : BcEnv) (fuel : Nat) (p : BcProgram) (w : BcWorld) :
    Option (BcRet Unit × BcWorld) :=
  match p.stack.getLast? with
  | none => none
  | some ip =>
    match p.funcs[ip.func]? with
    | none => none
    | some func =>
      if env.sig_int w.polls = false ∧ ip.idx < func.code.length then
        match (func.code[ip.idx]?).bind (decodeInst env.inst) with
        | none => none
        | some inst =>
          bc_program_exec_inst env (bc_program_exec env fuel) func inst
            { p with stack := p.stack.dropLast ++ [{ ip with idx := ip.idx + 1 }] }
            { w with polls := w.polls + 1 }
      else none

/-- The first `k` rounds of the loop of `bc_program_exec` started on `p` and `w`
with `fuel` rounds to go, when each of them ends with `BC_STATUS_SUCCESS`: the
program and the world they leave.  `none` when one of them does not. -/
def bc_program_exec_rounds (env : BcEnv) :
    Nat → Nat → BcProgram → BcWorld → Option (BcProgram × BcWorld)
  | _, 0, p, w => some (p, w)
  | 0, _ + 1, _, _ => none
  | fuel + 1, k + 1, p, w =>
    match bc_program_exec_round env fuel p w with
    | some (.ok q _, w1) => bc_program_exec_rounds env fuel k q w1
    | _ => none

/-! ## Initialisation: `bc_program_init` -/

/-- Modelled from the spec: `BC_BASE_MAX_DEF`, declared in `program.h`
("`base_max = 99`"). -/
def BC_BASE_MAX_DEF : Nat := 99

/-- Modelled from the spec: `BC_DIM_MAX_DEF` ("`dim_max = 65535`"). -/
def BC_DIM_MAX_DEF : Nat := 65535

/-- Modelled from the spec: `BC_SCALE_MAX_DEF` ("`scale_max = 65535`"). -/
def BC_SCALE_MAX_DEF : Nat := 65535

/-- Modelled from the spec: `BC_STRING_MAX_DEF` ("`string_max = 65535`"). -/
def BC_STRING_MAX_DEF : Nat := 65535

/-- Modelled from the spec: the name `bc_lang_func_main` of the first reserved
function ("id 0 = `main`"). -/
def bc_lang_func_main : String := "main"

/-- Modelled from the spec: the name `bc_lang_func_read` of the second reserved
function ("id 1 = `read`"). -/
def bc_lang_func_read : String := "read"

/-- What the platform reports for the four limits, through the macros
`_POSIX_BC_*_MAX` or `_BC_*_MAX` or through `sysconf`. -/
structure BcLimits where
  base_max : Int
  dim_max : Int
  scale_max : Int
  string_max : Int
  deriving DecidableEq, Repr

/-- The routine `bc_program_init` on the memory `p`.  The two exits taken when
`bc_program_addFunc` hands back an unexpected index return the status held,
which is success, after `bc_veco_free` and `bc_vec_free` of the function map and
table, which are left holding nothing. -/
def bc_program_init (plat : BcLimits) (p : BcProgram) : BcRet Unit :=
  if ¬ (plat.base_max ≤ BC_BASE_MAX_DEF ∧ plat.dim_max ≤ BC_DIM_MAX_DEF ∧
        plat.scale_max ≤ BC_SCALE_MAX_DEF ∧ plat.string_max ≤ BC_STRING_MAX_DEF) then .abort
  else
    match bc_program_addFunc
        { p with
          nchars := 0,
          base_max := BC_BASE_MAX_DEF,
          dim_max := BC_DIM_MAX_DEF,
          scale_max := BC_SCALE_MAX_DEF,
          string_max := BC_STRING_MAX_DEF,
          scale := 0,
          ibase := bc_num_ten,
          ibase_t := 10,
          obase := bc_num_ten,
          obase_t := 10,
          last := bc_num_zero,
          zero := bc_num_zero,
          one := bc_num_one,
          funcs := [],
          func_map := [] } bc_lang_func_main with
    | .abort => .abort
    | .fail s q => .fail s { q with func_map := [], funcs := [] }
    | .ok p1 idx =>
      if idx ≠ BC_PROGRAM_MAIN then .ok { p1 with func_map := [], funcs := [] } ()
      else
        match bc_program_addFunc p1 bc_lang_func_read with
        | .abort => .abort
        | .fail s q => .fail s { q with func_map := [], funcs := [] }
        | .ok p2 idx2 =>
          if idx2 ≠ BC_PROGRAM_READ then .ok { p2 with func_map := [], funcs := [] } ()
          else
            .ok { p2 with
                  vars := [],
                  var_map := [],
                  arrays := [],
                  array_map := [],
                  strings := [],
                  constants := [],
                  results := [],
                  stack := [⟨0, 0, 0⟩] } ()

/-! ## The compound assignment law, after the spec -/

/-- Binary opcode of a compound assignment opcode: the `op` of `op=`. -/
def binaryOfAssign : BcInst → Option BcInst
  | .OP_ASSIGN_POWER => some .OP_POWER
  | .OP_ASSIGN_MULTIPLY => some .OP_MULTIPLY
  | .OP_ASSIGN_DIVIDE => some .OP_DIVIDE
  | .OP_ASSIGN_MODULUS => some .OP_MODULUS
  | .OP_ASSIGN_PLUS => some .OP_PLUS
  | .OP_ASSIGN_MINUS => some .OP_MINUS
  | _ => none

/-- Following the spec ("Assignment `x op= y` is equivalent to `x = x op y`"):
the execution of `x = x op y` on the two operands `x` and `y` of the compound
assignment.  The binary opcode computes `x op y` from them (`bc_program_op`, at
the current scale); then the reference to `x` is put under the result and the
plain assignment `BC_INST_OP_ASSIGN` is executed. -/
def assignByBinaryOp (p : BcProgram) (inst : BcInst) : BcRet Unit :=
  match bc_vec_item_rev p.results 1, binaryOfAssign inst with
  | some x, some op =>
    match bc_program_op p op with
    | .abort => .abort
    | .fail s q => .fail s q
    | .ok q _ =>
      match q.results.getLast? with
      | none => .abort
      | some r =>
        bc_program_assign { q with results := q.results.dropLast ++ [x, r] } .OP_ASSIGN
  | _, _ => .abort

/-! ## Predicates used in the statements -/

/-- Entry a name is bound to in an ordered map. -/
def entryOf (name : String) (m : List BcEntry) : Option BcEntry :=
  (entryPos name m).bind (fun i => m[i]?)

/-- The frames `bc_program_search` visits: all but the bottom one, innermost
first. -/
def searchFrames (p : BcProgram) : List BcInstPtr :=
  p.stack.reverse.take (p.stack.length - 1)

/-- The scalar name `x` resolves to the storage `loc` without any change of the
program: either an auto of a visited frame has the name and `loc` is its slot,
or no visited frame has such an auto and the global table binds `x` to the
variable `loc`. -/
def Resolves (p : BcProgram) (x : String) (loc : BcLoc) : Prop :=
  p.stack ≠ [] ∧
  ((∀ r, bc_program_search_frames p x r ⟨true, false⟩ (searchFrames p) = some (.ok p loc)) ∨
   ((∀ r, bc_program_search_frames p x r ⟨true, false⟩ (searchFrames p) = none) ∧
     ∃ e, entryOf x p.var_map = some e ∧ e.idx < p.vars.length ∧ loc = .var e.idx))

/-- What operand materialisation leaves alone: `q` has the registers, limits,
functions, frames and pools of `p`, a result stack of the same length whose
slots keep their tags (but for a `Constant` turned `Intermediate`), every
number that `p` holds (at the same place), and every binding of the global
scalar table of `p`. -/
structure Extends (p q : BcProgram) : Prop where
  ibase : q.ibase = p.ibase
  ibase_t : q.ibase_t = p.ibase_t
  obase : q.obase = p.obase
  obase_t : q.obase_t = p.obase_t
  scale : q.scale = p.scale
  base_max : q.base_max = p.base_max
  dim_max : q.dim_max = p.dim_max
  scale_max : q.scale_max = p.scale_max
  string_max : q.string_max = p.string_max
  last : q.last = p.last
  zero : q.zero = p.zero
  one : q.one = p.one
  funcs : q.funcs = p.funcs
  func_map : q.func_map = p.func_map
  strings : q.strings = p.strings
  constants : q.constants = p.constants
  stack : q.stack = p.stack
  nchars : q.nchars = p.nchars
  rlen : q.results.length = p.results.length
  vlen : p.vars.length ≤ q.vars.length
  reads : ∀ loc v, readNum p loc = some v → readNum q loc = some v
  entries : ∀ x e, entryOf x p.var_map = some e → entryOf x q.var_map = some e
  types : ∀ (j : Nat) (l : BcResult), p.results[j]? = some l →
    ∃ l2, q.results[j]? = some l2 ∧
      (l2.type = l.type ∨ (l.type = .CONSTANT ∧ l2.type = .INTERMEDIATE))

/-- Storage of a scalar under a given height of the result stack: an auto slot
below that height, or a global variable. -/
def ScalarLoc (p : BcProgram) (h : Nat) (loc : BcLoc) : Prop :=
  (∃ j, loc = .result j ∧ j < h ∧ h ≤ p.results.length) ∨
  (∃ i, loc = .var i ∧ i < p.vars.length)

/-- Position and descriptor of the first auto of a list that has a given
name. -/
def findAuto (name : String) : List BcAuto → Option (Nat × BcAuto)
  | [] => none
  | a :: rest =>
    if a.name = name then some (0, a)
    else (findAuto name rest).map (fun r => (r.1 + 1, r.2))

/-- Following the spec ("walking the call stack from innermost to outermost
frame, skipping the reserved `main` and `read` frames": "For each frame, scan
its function's autos in order"): the first frame of `frames` (innermost first)
whose function has an auto named `name`, with the position and the descriptor of
the first such auto. -/
def scopeWalk (funcs : List BcFunc) (name : String) :
    List BcInstPtr → Option (BcInstPtr × Nat × BcAuto)
  | [] => none
  | ip :: rest =>
    if ip.func = BC_PROGRAM_MAIN ∨ ip.func = BC_PROGRAM_READ then scopeWalk funcs name rest
    else
      match (funcs[ip.func]?).bind (fun f => findAuto name f.autos) with
      | some found => some (ip, found.1, found.2)
      | none => scopeWalk funcs name rest

/-- Following the spec: the auto a reference to `name` denotes, if any: the
scope walk over all the frames of the frame stack, the top one first. -/
def firstAuto (p : BcProgram) (name : String) : Option (BcInstPtr × Nat × BcAuto) :=
  scopeWalk p.funcs name p.stack.reverse

/-- Following the spec ("three-way compare, produce 0 or 1"; "truth-value of a
number is nonzero"): what a relational or boolean opcode asserts of the
values `l` and `r` of its operands. -/
def logicalHolds : BcInst → BcNum → BcNum → Prop
  | .OP_REL_EQUAL, l, r => bc_num_cmp l r = 0
  | .OP_REL_LESS_EQ, l, r => bc_num_cmp l r ≤ 0
  | .OP_REL_GREATER_EQ, l, r => bc_num_cmp l r ≥ 0
  | .OP_REL_NOT_EQ, l, r => bc_num_cmp l r ≠ 0
  | .OP_REL_LESS, l, r => bc_num_cmp l r < 0
  | .OP_REL_GREATER, l, r => bc_num_cmp l r > 0
  | .OP_BOOL_AND, l, r => l.val ≠ 0 ∧ r.val ≠ 0
  | .OP_BOOL_OR, l, r => l.val ≠ 0 ∨ r.val ≠ 0
  | _, _, _ => False

/-- The frame stack as the engine keeps it: the bottom frame is a frame of
`main` (or of `read`), and every frame names a function of the table. -/
def FramesOk (p : BcProgram) : Prop :=
  (∃ ip0 rest, p.stack = ip0 :: rest ∧
    (ip0.func = BC_PROGRAM_MAIN ∨ ip0.func = BC_PROGRAM_READ)) ∧
  ∀ ip ∈ p.stack, ip.func < p.funcs.length

/-- A place that is not on the result stack at height `h` or above: a global
variable, an element of a global array, a register, or a slot below `h` (an
auto) or an element of the array in such a slot. -/
def Below (h : Nat) : BcLoc → Prop
  | .result j => j < h
  | .resultElem j _ => j < h
  | _ => True

/-- Following the spec ("`\n`,`\t`,`\a`,`\b`,`\e`→`\\`,`\f`,`\r`,`\q`→`"`"): the
escape letters and the character each stands for: BEL, backspace, backslash,
form feed, newline, carriage return, double quote, tab. -/
def escapeTable : List (Char × Char) :=
  [('a', Char.ofNat 7), ('b', Char.ofNat 8), ('e', Char.ofNat 92), ('f', Char.ofNat 12),
   ('n', Char.ofNat 10), ('r', Char.ofNat 13), ('q', Char.ofNat 34), ('t', Char.ofNat 9)]

/-- Following the spec ("unknown escape = emit nothing"): what is emitted for
a backslash followed by `c2`. -/
def escapeChars (c2 : Char) : List Char :=
  match escapeTable.find? (fun e => e.1 == c2) with
  | some e => [e.2]
  | none => []

/-- Following the spec: the text emitted for a string: every character that is
not a backslash is emitted as it is, and every backslash together with the
character after it is replaced by what the escape stands for. -/
def unescape : List Char → List Char
  | [] => []
  | c :: rest =>
    if c = '\\' then
      match rest with
      | [] => []
      | c2 :: rest2 => escapeChars c2 ++ unescape rest2
    else c :: unescape rest

/-- Following the spec ("ignoring trailing-fraction zeros"): the number of
consecutive zero digits of a digit list counted from its highest index
downward. -/
def zerosFromTop (num : List Nat) : Nat := (num.reverse.takeWhile (fun d => d == 0)).length

/-- The program `s` part of the way through the copying of the `nparams`
arguments of a call made in `p`, with `i` of them copied: `i` entries lie above
the result stack of `p`; under them `s` has everything `p` has (the registers,
the frames, the tags and the numbers: see `Extends`); and every slot of `p` that
holds no array, but for the arguments copied already, is what it was in `p`. -/
def CopyStep (p : BcProgram) (nparams : Nat) (s : BcProgram) (i : Nat) : Prop :=
  s.results.length = p.results.length + i ∧
  Extends p { s with results := s.results.take p.results.length } ∧
  ∀ (j : Nat) (l : BcResult),
    (j < p.results.length - nparams ∨ p.results.length - nparams + i ≤ j) →
    p.results[j]? = some l → (∀ a, l.data ≠ .array a) → s.results[j]? = some l

/-! ## Program images used in the examples -/

/-- A program image with the registers and limits as initialisation leaves
them, the two reserved functions, the single frame of `main`, and nothing
else. -/
def startImage : BcProgram :=
  { ibase := bc_num_ten, ibase_t := 10, obase := bc_num_ten, obase_t := 10, scale := 0,
    base_max := 99, dim_max := 65535, scale_max := 65535, string_max := 65535,
    last := bc_num_zero, zero := bc_num_zero, one := bc_num_one,
    funcs := [⟨[], [], 0, []⟩, ⟨[], [], 0, []⟩],
    func_map := [⟨"main", 0⟩, ⟨"read", 1⟩],
    vars := [], var_map := [], arrays := [], array_map := [],
    strings := [], constants := [], results := [], stack := [⟨0, 0, 0⟩], nchars := 0 }

/-- The image in which the global `x` holds 5 and a reference to `x` is on top
of the result stack: the operand of `x++` and of `++x`. -/
def incState : BcProgram :=
  { startImage with vars := [⟨5, 0, false⟩], var_map := [⟨"x", 0⟩], results := [⟨.VAR, .id "x" 0⟩] }

/-- The image with the single number `n` on the result stack. -/
def numState (n : BcNum) : BcProgram :=
  { startImage with results := [⟨.INTERMEDIATE, .num n⟩] }

/-- The image at the call `g(a[])` of a function `g` (index 2) whose only
parameter is the array `a`: the argument is the reference `arg`, the frame of
`main` is about to decode the two immediates `1` (argument count) and `2`
(function index) of `callCode`. -/
def arrayCallState (arg : BcResult) : BcProgram :=
  { startImage with
    funcs := startImage.funcs ++ [⟨[82], [], 1, [⟨"a", false⟩]⟩],
    func_map := startImage.func_map ++ [⟨"g", 2⟩],
    results := [arg] }

/-- Immediates of a call with one argument to the function of index 2. -/
def callCode : List Nat := [1, 1, 1, 2]

/-- The image at the assignment `ibase = 1`: the register handle below the
literal `1` of the constants pool. -/
def ibaseOneState : BcProgram :=
  { startImage with
    constants := ["1"],
    results := [⟨.IBASE, .uninit⟩, ⟨.CONSTANT, .id "" 0⟩] }

/-- The image at an assignment whose left operand is `left` and whose right
operand is the number `y`. -/
def assignState (left : BcResult) (y : BcNum) : BcProgram :=
  { startImage with results := [left, ⟨.INTERMEDIATE, .num y⟩] }

/-- The image inside a call of a function `f` (index 2) whose only auto is the
array `a`, at an assignment whose left operand is the number 1 and whose right
operand is the scalar reference `a`. -/
def mismatchState : BcProgram :=
  { startImage with
    funcs := startImage.funcs ++ [⟨[82], [], 0, [⟨"a", false⟩]⟩],
    func_map := startImage.func_map ++ [⟨"f", 2⟩],
    stack := [⟨0, 0, 0⟩, ⟨2, 0, 0⟩],
    results := [⟨.ARRAY_AUTO, .array []⟩, ⟨.INTERMEDIATE, .num ⟨1, 0, false⟩⟩, ⟨.VAR, .id "a" 0⟩] }

/-- The image in which the global `x` holds 5, at an assignment to `x` whose
right operand is the number `y`. -/
def xAssignState (y : BcNum) : BcProgram :=
  { assignState ⟨.VAR, .id "x" 0⟩ y with vars := [⟨5, 0, false⟩], var_map := [⟨"x", 0⟩] }

/-- The image inside a call of `g` made from inside a call of `f`: `f` (index 2)
has the autos `x` (scalar) and `a` (array), `g` (index 3) has the auto `x`, and
the global table binds `x` as well. -/
def scopeState : BcProgram :=
  { startImage with
    funcs := startImage.funcs ++
      [⟨[82], [], 0, [⟨"x", true⟩, ⟨"a", false⟩]⟩, ⟨[82], [], 0, [⟨"x", true⟩]⟩],
    func_map := startImage.func_map ++ [⟨"f", 2⟩, ⟨"g", 3⟩],
    vars := [⟨9, 0, false⟩],
    var_map := [⟨"x", 0⟩],
    stack := [⟨0, 0, 0⟩, ⟨2, 0, 0⟩, ⟨3, 0, 2⟩],
    results := [⟨.VAR_AUTO, .num ⟨1, 0, false⟩⟩, ⟨.ARRAY_AUTO, .array []⟩, ⟨.VAR_AUTO, .num ⟨7, 0, false⟩⟩] }

/-- A numbering of the opcodes for the examples: the position in the
enumeration. -/
def instOrdinal (i : BcInst) : Nat := i.toCtorIdx

/-- The image inside a call of `f` (index 3, no autos) made from inside a call
of `g` (index 2), whose only auto is the array `a` in slot 0: `f` is about to
return the element `a[5]`. -/
def returnElemState : BcProgram :=
  { startImage with
    funcs := startImage.funcs ++ [⟨[82], [], 0, [⟨"a", false⟩]⟩, ⟨[82], [], 0, []⟩],
    func_map := startImage.func_map ++ [⟨"g", 2⟩, ⟨"f", 3⟩],
    stack := [⟨0, 0, 0⟩, ⟨2, 0, 0⟩, ⟨3, 0, 1⟩],
    results := [⟨.ARRAY_AUTO, .array []⟩, ⟨.ARRAY, .id "a" 5⟩] }

/-- The image inside a call of `f` (index 2, one scalar parameter `x`) made
with the argument 4 above a number 9 of the caller: the function is about to
return the number 7. -/
def returnState : BcProgram :=
  { startImage with
    funcs := startImage.funcs ++ [⟨[82], [], 1, [⟨"x", true⟩]⟩],
    func_map := startImage.func_map ++ [⟨"f", 2⟩],
    stack := [⟨0, 0, 0⟩, ⟨2, 0, 2⟩],
    results := [⟨.INTERMEDIATE, .num ⟨9, 0, false⟩⟩, ⟨.INTERMEDIATE, .num ⟨4, 0, false⟩⟩,
                ⟨.VAR_AUTO, .num ⟨4, 0, false⟩⟩, ⟨.INTERMEDIATE, .num ⟨7, 0, false⟩⟩] }

/-- The image at `BC_INST_PUSH_ARRAY` with the index operand `top` on the
result stack; the constants pool holds the literal `65536`. -/
def indexState (top : BcResult) : BcProgram :=
  { startImage with constants := ["65536"], results := [top] }

/-- The name `a` as the code stream holds it: the character and the colon that
ends it. -/
def nameCode : List Nat := [97, 58]

/-- Collaborators for the examples: the flag `bcg.sig_int` has the value `sig`
at every read, the opcodes are numbered by `instOrdinal`, every write succeeds,
number printing writes nothing, and the standard input is at its end. -/
def exampleEnv (sig : Bool) : BcEnv :=
  { sig_int := fun _ => sig,
    inst := instOrdinal,
    junk := 0,
    putchar := fun _ _ => true,
    num_print := fun _ _ _ _ nchars out => (.SUCCESS, nchars, out),
    read_expr := fun _ _ => .error .IO_ERR }

/-- The world before anything has happened. -/
def startWorld : BcWorld := ⟨0, 0, []⟩

/-- The initial image with the code `1 + 2` followed by `BC_INST_HALT` in
`main`: two `BC_INST_PUSH_NUM` with the one-byte immediates 0 and 1,
`BC_INST_OP_PLUS`, `BC_INST_HALT`. -/
def haltImage : BcProgram :=
  { startImage with
    funcs := [⟨[15, 1, 0, 15, 1, 1, 30, 21], [], 0, []⟩, ⟨[], [], 0, []⟩],
    constants := ["1", "2"] }

/-- The initial image with the code `BC_INST_JUMP` to label 0, which is the
offset 4, and two `BC_INST_HALT` in `main`. -/
def jumpImage : BcProgram :=
  { startImage with funcs := [⟨[5, 1, 0, 21, 21], [4], 0, []⟩, ⟨[], [], 0, []⟩] }

/-- Collaborators for the examples, with the flag `bcg.sig_int` clear at the
first `k` reads and set from then on. -/
def interruptEnv (k : Nat) : BcEnv :=
  { exampleEnv false with sig_int := fun n => decide (k ≤ n) }

/-- The image at the call `f()` of a function `f` (index 2) without parameters
whose autos are the scalar `x` and the array `a`, in the order of declaration
(`auto x, a[]`): the frame of `main` is about to decode the two immediates `0`
(argument count) and `2` (function index) of `localsCode`. -/
def localsState : BcProgram :=
  { startImage with
    funcs := startImage.funcs ++ [⟨[82], [], 0, [⟨"x", true⟩, ⟨"a", false⟩]⟩],
    func_map := startImage.func_map ++ [⟨"f", 2⟩] }

/-- Immediates of a call without arguments to the function of index 2. -/
def localsCode : List Nat := [1, 0, 1, 2]

/-- The image at the call `f(1, x)` of a function `f` (index 2) with the scalar
parameters `a` and `b` and the local `c`: the arguments are the literal `1` of
the constants pool and a reference to the global `x`, which holds 7, above a
number 9 of the caller; the frame of `main` is about to decode the two
immediates `2` (argument count) and `2` (function index) of `paramsCode`. -/
def paramsState : BcProgram :=
  { startImage with
    funcs := startImage.funcs ++ [⟨[82], [], 2, [⟨"a", true⟩, ⟨"b", true⟩, ⟨"c", true⟩]⟩],
    func_map := startImage.func_map ++ [⟨"f", 2⟩],
    vars := [⟨7, 0, false⟩],
    var_map := [⟨"x", 0⟩],
    constants := ["1"],
    results := [⟨.INTERMEDIATE, .num ⟨9, 0, false⟩⟩, ⟨.CONSTANT, .id "" 0⟩, ⟨.VAR, .id "x" 0⟩] }

/-- Immediates of a call with two arguments to the function of index 2. -/
def paramsCode : List Nat := [1, 2, 1, 2]

/-- The image at `a[0] = a[40]` (or `a[0] < a[40]`) with the global array `a`
holding the single element 7: the two array element references are on the
result stack. -/
def elemGrowState : BcProgram :=
  { startImage with
    arrays := [[⟨7, 0, false⟩]],
    array_map := [⟨"a", 0⟩],
    results := [⟨.ARRAY, .id "a" 0⟩, ⟨.ARRAY, .id "a" 40⟩] }

/-- The image inside a call of a function `f` (index 2) whose only auto is the
array `a`, at `a /= 0` with `a` written as a scalar: the scalar reference `a`
and the number 0 are on the result stack above the slot of the auto. -/
def divideMismatchState : BcProgram :=
  { startImage with
    funcs := startImage.funcs ++ [⟨[82], [], 0, [⟨"a", false⟩]⟩],
    func_map := startImage.func_map ++ [⟨"f", 2⟩],
    stack := [⟨0, 0, 0⟩, ⟨2, 0, 0⟩],
    results := [⟨.ARRAY_AUTO, .array []⟩, ⟨.VAR, .id "a" 0⟩,
                ⟨.INTERMEDIATE, .num ⟨0, 0, false⟩⟩] }

/-! # Theorems -/

/-! ## Lemmas: ordered maps -/
theorem entryOf_nil (name : String) : entryOf name [] = none := rfl

theorem entryOf_cons (name : String) (e : BcEntry) (es : List BcEntry) :
    entryOf name (e :: es) = if e.name = name then some e else entryOf name es := by
  unfold entryOf
  simp only [entryPos]
  by_cases h : e.name = name
  · simp [h]
  · simp only [h, if_false]
    cases entryPos name es <;> simp

theorem entryOf_eq_none {name : String} {m : List BcEntry} :
    entryOf name m = none ↔ entryPos name m = none := by
  induction m with
  | nil => simp [entryOf, entryPos]
  | cons e es ih =>
    rw [entryOf_cons]
    simp only [entryPos]
    by_cases h : e.name = name
    · simp [h]
    · simp [h, ih]

theorem entryOf_insertSorted_self (e : BcEntry) (m : List BcEntry) :
    entryOf e.name m = none → entryOf e.name (insertSorted e m).1 = some e := by
  induction m with
  | nil => intro _; simp [insertSorted, entryOf_cons]
  | cons x xs ih =>
    intro h
    rw [entryOf_cons] at h
    by_cases hx : x.name = e.name
    · simp [hx] at h
    · simp only [hx, if_false] at h
      simp only [insertSorted]
      split
      · simp only [entryOf_cons, hx, if_false]; exact ih h
      · simp [entryOf_cons]

theorem entryOf_insertSorted_other (x : String) (e : BcEntry) (m : List BcEntry)
    (hne : e.name ≠ x) : entryOf x (insertSorted e m).1 = entryOf x m := by
  induction m with
  | nil => simp [insertSorted, entryOf_cons, hne, entryOf_nil]
  | cons y ys ih =>
    simp only [insertSorted]
    split
    · simp only [entryOf_cons, ih]
    · simp [entryOf_cons, hne]

theorem insertSorted_get (e : BcEntry) (m : List BcEntry) :
    (insertSorted e m).1[(insertSorted e m).2]? = some e := by
  induction m with
  | nil => simp [insertSorted]
  | cons y ys ih =>
    simp only [insertSorted]
    split
    · simpa using ih
    · simp

/-! ## Lemmas: what materialisation preserves -/

theorem Extends.refl (p : BcProgram) : Extends p p :=
  { ibase := rfl, ibase_t := rfl, obase := rfl, obase_t := rfl, scale := rfl, base_max := rfl,
    dim_max := rfl, scale_max := rfl, string_max := rfl, last := rfl, zero := rfl, one := rfl,
    funcs := rfl, func_map := rfl, strings := rfl, constants := rfl, stack := rfl,
    nchars := rfl, rlen := rfl, vlen := Nat.le_refl _, reads := fun _ _ h => h,
    entries := fun _ _ h => h, types := fun _ l h => ⟨l, h, Or.inl rfl⟩ }

theorem Extends.trans {p q r : BcProgram} (h1 : Extends p q) (h2 : Extends q r) :
    Extends p r := by
  constructor
  · rw [h2.ibase, h1.ibase]
  · rw [h2.ibase_t, h1.ibase_t]
  · rw [h2.obase, h1.obase]
  · rw [h2.obase_t, h1.obase_t]
  · rw [h2.scale, h1.scale]
  · rw [h2.base_max, h1.base_max]
  · rw [h2.dim_max, h1.dim_max]
  · rw [h2.scale_max, h1.scale_max]
  · rw [h2.string_max, h1.string_max]
  · rw [h2.last, h1.last]
  · rw [h2.zero, h1.zero]
  · rw [h2.one, h1.one]
  · rw [h2.funcs, h1.funcs]
  · rw [h2.func_map, h1.func_map]
  · rw [h2.strings, h1.strings]
  · rw [h2.constants, h1.constants]
  · rw [h2.stack, h1.stack]
  · rw [h2.nchars, h1.nchars]
  · rw [h2.rlen, h1.rlen]
  · exact Nat.le_trans h1.vlen h2.vlen
  · intro loc v h; exact h2.reads loc v (h1.reads loc v h)
  · intro x e h; exact h2.entries x e (h1.entries x e h)
  · intro j l h
    obtain ⟨l2, hl2, ht2⟩ := h1.types j l h
    obtain ⟨l3, hl3, ht3⟩ := h2.types j l2 hl2
    refine ⟨l3, hl3, ?_⟩
    rcases ht2 with ht2 | ⟨hc, hi⟩
    · rcases ht3 with ht3 | ⟨hc3, hi3⟩
      · exact Or.inl (ht3.trans ht2)
      · exact Or.inr ⟨ht2 ▸ hc3, hi3⟩
    · rcases ht3 with ht3 | ⟨hc3, _⟩
      · exact Or.inr ⟨hc, ht3.trans hi⟩
      · rw [hi] at hc3; cases hc3

theorem getElem?_expand {a : List BcNum} {k n : Nat} {v : BcNum} (h : a[k]? = some v) :
    (bc_array_expand a n)[k]? = some v := by
  unfold bc_array_expand
  have hk : k < a.length := by
    rcases Nat.lt_or_ge k a.length with hlt | hge
    · exact hlt
    · rw [List.getElem?_eq_none hge] at h; cases h
  rw [List.getElem?_append_left hk]; exact h

/-- A change of the result stack that keeps its length and the numbers it
holds preserves everything else. -/
theorem extends_results (p : BcProgram) (rs : List BcResult)
    (hl : rs.length = p.results.length)
    (hr : ∀ loc v, readNum p loc = some v → readNum { p with results := rs } loc = some v)
    (ht : ∀ (j : Nat) (l : BcResult), p.results[j]? = some l →
      ∃ l2, rs[j]? = some l2 ∧
        (l2.type = l.type ∨ (l.type = .CONSTANT ∧ l2.type = .INTERMEDIATE))) :
    Extends p { p with results := rs } :=
  { ibase := rfl, ibase_t := rfl, obase := rfl, obase_t := rfl, scale := rfl, base_max := rfl,
    dim_max := rfl, scale_max := rfl, string_max := rfl, last := rfl, zero := rfl, one := rfl,
    funcs := rfl, func_map := rfl, strings := rfl, constants := rfl, stack := rfl,
    nchars := rfl, rlen := hl, vlen := Nat.le_refl _, reads := hr,
    entries := fun _ _ h => h, types := ht }

theorem getElem?_lt {α : Type} {l : List α} {i : Nat} {a : α} (h : l[i]? = some a) :
    i < l.length := by
  rcases Nat.lt_or_ge i l.length with hlt | hge
  · exact hlt
  · rw [List.getElem?_eq_none hge] at h; cases h

/-- Growing the array held by a result slot preserves everything else. -/
theorem extends_set_array (p : BcProgram) (i n : Nat) (r : BcResult) (arr : List BcNum)
    (hi : p.results[i]? = some r) (hd : r.data = .array arr) :
    Extends p { p with results := p.results.set i ⟨r.type, .array (bc_array_expand arr n)⟩ } := by
  apply extends_results
  · simp
  · intro loc v h
    rcases r with ⟨t, d⟩
    simp only at hd
    subst hd
    cases loc with
    | result j =>
      simp only [readNum] at h ⊢
      by_cases hj : i = j
      · subst hj
        rw [hi] at h
        simp at h
      · rw [List.getElem?_set_ne hj]; exact h
    | resultElem j k =>
      simp only [readNum] at h ⊢
      by_cases hj : i = j
      · subst hj
        rw [hi] at h
        simp only at h
        rw [List.getElem?_set_self (getElem?_lt hi)]
        simp only
        exact getElem?_expand h
      · rw [List.getElem?_set_ne hj]; exact h
    | var j => exact h
    | array j => exact h
    | arrayElem j k => exact h
    | last => exact h
    | ibase => exact h
    | obase => exact h
    | one => exact h
    | dangling => exact h
  · intro j l hj
    by_cases hij : i = j
    · subst hij
      rw [hi] at hj
      simp only [Option.some.injEq] at hj
      subst hj
      exact ⟨_, List.getElem?_set_self (getElem?_lt hi), Or.inl rfl⟩
    · exact ⟨l, by rw [List.getElem?_set_ne hij]; exact hj, Or.inl rfl⟩

/-- Overwriting a result slot that holds a reference (no number) preserves
everything else. -/
theorem extends_set_id (p : BcProgram) (i : Nat) (r r2 : BcResult) (name : String) (k : Nat)
    (hi : p.results[i]? = some r) (hd : r.data = .id name k)
    (ht : r2.type = r.type ∨ (r.type = .CONSTANT ∧ r2.type = .INTERMEDIATE)) :
    Extends p { p with results := p.results.set i r2 } := by
  apply extends_results
  · simp
  · intro loc v h
    rcases r with ⟨t, d⟩
    simp only at hd
    subst hd
    cases loc with
    | result j =>
      simp only [readNum] at h ⊢
      by_cases hj : i = j
      · subst hj
        rw [hi] at h
        simp at h
      · rw [List.getElem?_set_ne hj]; exact h
    | resultElem j k =>
      simp only [readNum] at h ⊢
      by_cases hj : i = j
      · subst hj
        rw [hi] at h
        simp at h
      · rw [List.getElem?_set_ne hj]; exact h
    | var j => exact h
    | array j => exact h
    | arrayElem j k => exact h
    | last => exact h
    | ibase => exact h
    | obase => exact h
    | one => exact h
    | dangling => exact h
  · intro j l hj
    by_cases hij : i = j
    · subst hij
      rw [hi] at hj
      simp only [Option.some.injEq] at hj
      subst hj
      exact ⟨_, List.getElem?_set_self (getElem?_lt hi), ht⟩
    · exact ⟨l, by rw [List.getElem?_set_ne hij]; exact hj, Or.inl rfl⟩

/-! ## Lemmas: `bc_program_search` -/

theorem search_autos_none {p : BcProgram} {ip : BcInstPtr} {x : String} {r : Nat}
    {flags : BcSearchFlags} (p2 : BcProgram) (r2 : Nat) (flags2 : BcSearchFlags) :
    ∀ (autos : List BcAuto) (idx : Nat),
      bc_program_search_autos p ip x r flags autos idx = none →
      bc_program_search_autos p2 ip x r2 flags2 autos idx = none := by
  intro autos
  induction autos with
  | nil => intro idx _; rfl
  | cons a rest ih =>
    intro idx h
    unfold bc_program_search_autos at h ⊢
    by_cases hn : a.name = x
    · simp only [hn, if_true] at h
      split at h
      · cases h
      · split at h
        · cases h
        · split at h
          · cases h
          · split at h <;> cases h
    · simp only [hn, if_false] at h ⊢
      exact ih _ h

theorem search_autos_var_ok {p : BcProgram} {ip : BcInstPtr} {x : String} {r : Nat} :
    ∀ (autos : List BcAuto) (idx : Nat) (q : BcProgram) (loc : BcLoc),
      bc_program_search_autos p ip x r ⟨true, false⟩ autos idx = some (.ok q loc) →
      q = p ∧ ∀ (p2 : BcProgram) (r2 : Nat), p.results.length ≤ p2.results.length →
        bc_program_search_autos p2 ip x r2 ⟨true, false⟩ autos idx = some (.ok p2 loc) := by
  intro autos
  induction autos with
  | nil => intro idx q loc h; simp [bc_program_search_autos] at h
  | cons a rest ih =>
    intro idx q loc h
    unfold bc_program_search_autos at h
    by_cases hn : a.name = x
    · simp only [hn, if_true] at h
      split at h
      · cases h
      · rename_i hv
        split at h
        · cases h
        · rename_i rr hr
          simp only [Bool.true_or, if_true, Option.some.injEq, BcRet.ok.injEq] at h
          obtain ⟨h1, h2⟩ := h
          refine ⟨h1.symm, ?_⟩
          intro p2 r2 hlen
          unfold bc_program_search_autos
          simp only [hn, if_true, hv]
          have hlt : ip.len + idx < p2.results.length :=
            Nat.lt_of_lt_of_le (getElem?_lt hr) hlen
          rw [List.getElem?_eq_getElem hlt]
          simp [h2]
    · simp only [hn, if_false] at h
      obtain ⟨h1, h2⟩ := ih _ _ _ h
      refine ⟨h1, ?_⟩
      intro p2 r2 hlen
      unfold bc_program_search_autos
      simp only [hn, if_false]
      exact h2 p2 r2 hlen

theorem search_autos_outcome {p : BcProgram} {ip : BcInstPtr} {x : String} {r : Nat}
    {flags : BcSearchFlags} :
    ∀ (autos : List BcAuto) (idx : Nat),
      (∀ q loc, bc_program_search_autos p ip x r flags autos idx = some (.ok q loc) →
        Extends p q) ∧
      (∀ s q, bc_program_search_autos p ip x r flags autos idx = some (.fail s q) → q = p) := by
  intro autos
  induction autos with
  | nil => intro idx; constructor <;> intros <;> simp [bc_program_search_autos] at *
  | cons a rest ih =>
    intro idx
    unfold bc_program_search_autos
    by_cases hn : a.name = x
    · simp only [hn, if_true]
      constructor
      · intro q loc h
        split at h
        · cases h
        · split at h
          · cases h
          · rename_i rr hr
            split at h
            · simp only [Option.some.injEq, BcRet.ok.injEq] at h
              rw [← h.1]; exact Extends.refl p
            · split at h
              · rename_i arr hd
                simp only [Option.some.injEq, BcRet.ok.injEq] at h
                rw [← h.1]
                exact extends_set_array p _ _ rr arr hr hd
              · cases h
      · intro s q h
        split at h
        · simp only [Option.some.injEq, BcRet.fail.injEq] at h; exact h.2.symm
        · split at h
          · cases h
          · split at h
            · cases h
            · split at h <;> cases h
    · simp only [hn, if_false]
      exact ih _

theorem search_frames_none {p : BcProgram} {x : String} {r : Nat} {flags : BcSearchFlags}
    (p2 : BcProgram) (r2 : Nat) (flags2 : BcSearchFlags) (hf : p2.funcs = p.funcs) :
    ∀ (fs : List BcInstPtr),
      bc_program_search_frames p x r flags fs = none →
      bc_program_search_frames p2 x r2 flags2 fs = none := by
  intro fs
  induction fs with
  | nil => intro _; rfl
  | cons ip rest ih =>
    intro h
    unfold bc_program_search_frames at h ⊢
    split
    · rename_i hc
      simp only [hc, if_true] at h
      exact ih h
    · rename_i hc
      simp only [hc, if_false] at h
      rw [hf]
      split at h
      · cases h
      · rename_i func hfn
        split at h
        · cases h
        · rename_i hnone
          rw [search_autos_none p2 r2 flags2 _ _ hnone]
          exact ih h

theorem search_frames_var_ok {p : BcProgram} {x : String} {r : Nat} :
    ∀ (fs : List BcInstPtr) (q : BcProgram) (loc : BcLoc),
      bc_program_search_frames p x r ⟨true, false⟩ fs = some (.ok q loc) →
      q = p ∧ ∀ (p2 : BcProgram) (r2 : Nat), p2.funcs = p.funcs →
        p.results.length ≤ p2.results.length →
        bc_program_search_frames p2 x r2 ⟨true, false⟩ fs = some (.ok p2 loc) := by
  intro fs
  induction fs with
  | nil => intro q loc h; simp [bc_program_search_frames] at h
  | cons ip rest ih =>
    intro q loc h
    unfold bc_program_search_frames at h
    split at h
    · rename_i hc
      obtain ⟨h1, h2⟩ := ih _ _ h
      refine ⟨h1, ?_⟩
      intro p2 r2 hf hlen
      unfold bc_program_search_frames
      simp only [hc, if_true]
      exact h2 p2 r2 hf hlen
    · rename_i hc
      split at h
      · cases h
      · rename_i func hfn
        split at h
        · rename_i ret hret
          simp only [Option.some.injEq] at h
          subst h
          obtain ⟨h1, h2⟩ := search_autos_var_ok _ _ _ _ hret
          refine ⟨h1, ?_⟩
          intro p2 r2 hf hlen
          unfold bc_program_search_frames
          simp only [hc, if_false, hf, hfn]
          rw [h2 p2 r2 hlen]
        · rename_i hnone
          obtain ⟨h1, h2⟩ := ih _ _ h
          refine ⟨h1, ?_⟩
          intro p2 r2 hf hlen
          unfold bc_program_search_frames
          simp only [hc, if_false, hf, hfn]
          rw [search_autos_none p2 r2 ⟨true, false⟩ _ _ hnone]
          exact h2 p2 r2 hf hlen

theorem search_frames_outcome {p : BcProgram} {x : String} {r : Nat} {flags : BcSearchFlags} :
    ∀ (fs : List BcInstPtr),
      (∀ q loc, bc_program_search_frames p x r flags fs = some (.ok q loc) → Extends p q) ∧
      (∀ s q, bc_program_search_frames p x r flags fs = some (.fail s q) → q = p) := by
  intro fs
  induction fs with
  | nil => constructor <;> intros <;> simp [bc_program_search_frames] at *
  | cons ip rest ih =>
    unfold bc_program_search_frames
    split
    · exact ih
    · split
      · constructor <;> intros <;> simp at *
      · rename_i func hfn
        split
        · rename_i ret hret
          constructor
          · intro q loc h
            simp only [Option.some.injEq] at h
            subst h
            exact (search_autos_outcome _ _).1 q loc hret
          · intro s q h
            simp only [Option.some.injEq] at h
            subst h
            exact (search_autos_outcome _ _).2 s q hret
        · exact ih

theorem entryPos_lt {name : String} : ∀ {m : List BcEntry} {i : Nat},
    entryPos name m = some i → i < m.length := by
  intro m
  induction m with
  | nil => intro i h; simp [entryPos] at h
  | cons e es ih =>
    intro i h
    simp only [entryPos] at h
    by_cases hn : e.name = name
    · simp only [hn, if_true, Option.some.injEq] at h
      subst h; simp
    · simp only [hn, if_false] at h
      cases hp : entryPos name es with
      | none => rw [hp] at h; simp at h
      | some j =>
        rw [hp] at h
        simp only [Option.map_some', Option.some.injEq] at h
        subst h
        have := ih hp
        simp only [List.length_cons]
        omega

/-- A change of the global arrays that keeps the numbers they hold preserves
everything else. -/
theorem extends_arrays (p : BcProgram) (arrs : List (List BcNum)) (m : List BcEntry)
    (hr : ∀ (i : Nat) (a : List BcNum), p.arrays[i]? = some a → ∃ b, arrs[i]? = some b ∧
      ∀ (k : Nat) (v : BcNum), a[k]? = some v → b[k]? = some v) :
    Extends p { p with array_map := m, arrays := arrs } :=
  { ibase := rfl, ibase_t := rfl, obase := rfl, obase_t := rfl, scale := rfl, base_max := rfl,
    dim_max := rfl, scale_max := rfl, string_max := rfl, last := rfl, zero := rfl, one := rfl,
    funcs := rfl, func_map := rfl, strings := rfl, constants := rfl, stack := rfl,
    nchars := rfl, rlen := rfl, vlen := Nat.le_refl _,
    reads := by
      intro loc v h
      cases loc with
      | arrayElem i k =>
        simp only [readNum] at h ⊢
        cases ha : p.arrays[i]? with
        | none => rw [ha] at h; cases h
        | some a =>
          rw [ha] at h
          obtain ⟨b, hb, hk⟩ := hr i a ha
          rw [hb]
          exact hk k v h
      | result j => exact h
      | resultElem j k => exact h
      | var j => exact h
      | array j => exact h
      | last => exact h
      | ibase => exact h
      | obase => exact h
      | one => exact h
      | dangling => exact h,
    entries := fun _ _ h => h, types := fun _ l h => ⟨l, h, Or.inl rfl⟩ }

/-- Binding a new global scalar preserves everything else. -/
theorem extends_var_insert (p : BcProgram) (x : String) (z : BcNum)
    (hx : entryOf x p.var_map = none) :
    Extends p { p with var_map := (insertSorted ⟨x, p.vars.length⟩ p.var_map).1,
                       vars := p.vars ++ [z] } :=
  { ibase := rfl, ibase_t := rfl, obase := rfl, obase_t := rfl, scale := rfl, base_max := rfl,
    dim_max := rfl, scale_max := rfl, string_max := rfl, last := rfl, zero := rfl, one := rfl,
    funcs := rfl, func_map := rfl, strings := rfl, constants := rfl, stack := rfl,
    nchars := rfl, rlen := rfl, vlen := by simp,
    reads := by
      intro loc v h
      cases loc with
      | var j =>
        simp only [readNum] at h ⊢
        rw [List.getElem?_append_left (getElem?_lt h)]; exact h
      | result j => exact h
      | resultElem j k => exact h
      | arrayElem i k => exact h
      | array j => exact h
      | last => exact h
      | ibase => exact h
      | obase => exact h
      | one => exact h
      | dangling => exact h,
    entries := by
      intro y e h
      by_cases hy : x = y
      · subst hy; rw [hx] at h; cases h
      · simp only
        rw [entryOf_insertSorted_other y ⟨x, p.vars.length⟩ p.var_map hy]; exact h,
    types := fun _ l h => ⟨l, h, Or.inl rfl⟩ }

/-- The global part of the lookup of a scalar: an existing binding is returned
unchanged, a missing one is created with a fresh variable. -/
theorem search_global_var (p : BcProgram) (x : String) (r : Nat) :
    bc_program_search_global p x r ⟨true, false⟩ =
      match entryOf x p.var_map with
      | some e => if e.idx < p.vars.length then .ok p (.var e.idx) else .abort
      | none =>
        .ok { p with var_map := (insertSorted ⟨x, p.vars.length⟩ p.var_map).1,
                     vars := p.vars ++ [bc_num_init BC_NUM_DEF_SIZE] } (.var p.vars.length) := by
  unfold bc_program_search_global bc_veco_insert
  simp only [if_true]
  cases hp : entryPos x p.var_map with
  | none =>
    have hn : entryOf x p.var_map = none := entryOf_eq_none.mpr hp
    rw [hn]
    simp [insertSorted_get]
  | some i =>
    have hlt := entryPos_lt hp
    have he : entryOf x p.var_map = p.var_map[i]? := by simp [entryOf, hp]
    rw [he, List.getElem?_eq_getElem hlt]
    simp [List.getElem?_eq_getElem hlt]

theorem search_global_outcome (p : BcProgram) (x : String) (r : Nat) (flags : BcSearchFlags) :
    (∀ q loc, bc_program_search_global p x r flags = .ok q loc → Extends p q) ∧
    (∀ s q, bc_program_search_global p x r flags = .fail s q → q = p) := by
  cases hv : flags.var with
  | true =>
    have hfl : bc_program_search_global p x r flags =
        bc_program_search_global p x r ⟨true, flags.array⟩ := by
      rcases flags with ⟨v, a⟩; simp only at hv; subst hv; rfl
    have hfl2 : bc_program_search_global p x r ⟨true, flags.array⟩ =
        bc_program_search_global p x r ⟨true, false⟩ := by
      unfold bc_program_search_global; simp
    rw [hfl, hfl2, search_global_var]
    cases he : entryOf x p.var_map with
    | none =>
      constructor
      · intro q loc h
        simp only [BcRet.ok.injEq] at h
        rw [← h.1]
        exact extends_var_insert p x _ he
      · intro s q h; cases h
    | some e =>
      constructor
      · intro q loc h
        simp only at h
        split at h
        · simp only [BcRet.ok.injEq] at h; rw [← h.1]; exact Extends.refl p
        · cases h
      · intro s q h
        simp only at h
        split at h <;> cases h
  | false =>
    have hpush : Extends p { p with
        array_map := (insertSorted ⟨x, p.arrays.length⟩ p.array_map).1,
        arrays := p.arrays ++ [[]] } :=
      extends_arrays p (p.arrays ++ [[]]) _ (by
        intro i a hia
        exact ⟨a, by rw [List.getElem?_append_left (getElem?_lt hia)]; exact hia,
          fun _ _ hk => hk⟩)
    have hset : ∀ (p1 : BcProgram) (j : Nat) (aptr : List BcNum), p1.arrays[j]? = some aptr →
        Extends p1 { p1 with arrays := p1.arrays.set j (bc_array_expand aptr (r + 1)) } := by
      intro p1 j aptr ha
      exact extends_arrays p1 (p1.arrays.set j (bc_array_expand aptr (r + 1))) p1.array_map (by
        intro i a hia
        by_cases hi : j = i
        · subst hi
          rw [ha] at hia
          simp only [Option.some.injEq] at hia
          subst hia
          exact ⟨_, List.getElem?_set_self (getElem?_lt ha), fun k v hk => getElem?_expand hk⟩
        · exact ⟨a, by rw [List.getElem?_set_ne hi]; exact hia, fun _ _ hk => hk⟩)
    unfold bc_program_search_global bc_veco_insert
    simp only [hv, Bool.false_eq_true, if_false]
    cases hp : entryPos x p.array_map with
    | none =>
      simp only [ne_eq, reduceCtorEq, not_false_eq_true, if_true, insertSorted_get]
      constructor
      · intro q loc h
        split at h
        · cases h
        · rename_i aptr ha
          split at h
          · simp only [BcRet.ok.injEq] at h; rw [← h.1]; exact hpush
          · simp only [BcRet.ok.injEq] at h
            rw [← h.1]
            exact Extends.trans hpush (hset _ _ aptr ha)
      · intro s q h
        split at h
        · cases h
        · split at h <;> cases h
    | some i =>
      simp only [ne_eq, not_true_eq_false, if_false]
      constructor
      · intro q loc h
        split at h
        · cases h
        · rename_i entry he
          split at h
          · cases h
          · rename_i aptr ha
            split at h
            · simp only [BcRet.ok.injEq] at h; rw [← h.1]; exact Extends.refl p
            · simp only [BcRet.ok.injEq] at h
              rw [← h.1]
              exact hset p _ aptr ha
      · intro s q h
        split at h
        · cases h
        · split at h
          · cases h
          · split at h <;> cases h

theorem search_autos_var_loc {p : BcProgram} {ip : BcInstPtr} {x : String} {r : Nat} :
    ∀ (autos : List BcAuto) (idx : Nat) (q : BcProgram) (loc : BcLoc),
      bc_program_search_autos p ip x r ⟨true, false⟩ autos idx = some (.ok q loc) →
      ∃ j, loc = .result j ∧ j < p.results.length := by
  intro autos
  induction autos with
  | nil => intro idx q loc h; simp [bc_program_search_autos] at h
  | cons a rest ih =>
    intro idx q loc h
    unfold bc_program_search_autos at h
    by_cases hn : a.name = x
    · simp only [hn, if_true] at h
      split at h
      · cases h
      · split at h
        · cases h
        · rename_i rr hr
          simp only [Bool.true_or, if_true, Option.some.injEq, BcRet.ok.injEq] at h
          exact ⟨_, h.2.symm, getElem?_lt hr⟩
    · simp only [hn, if_false] at h
      exact ih _ _ _ h

theorem search_frames_var_loc {p : BcProgram} {x : String} {r : Nat} :
    ∀ (fs : List BcInstPtr) (q : BcProgram) (loc : BcLoc),
      bc_program_search_frames p x r ⟨true, false⟩ fs = some (.ok q loc) →
      ∃ j, loc = .result j ∧ j < p.results.length := by
  intro fs
  induction fs with
  | nil => intro q loc h; simp [bc_program_search_frames] at h
  | cons ip rest ih =>
    intro q loc h
    unfold bc_program_search_frames at h
    split at h
    · exact ih _ _ h
    · split at h
      · cases h
      · split at h
        · rename_i ret hret
          simp only [Option.some.injEq] at h
          subst h
          exact search_autos_var_loc _ _ _ _ hret
        · exact ih _ _ h

/-- Whatever `bc_program_search` returns, the program it leaves extends the one
it started from; on a failure the program is untouched. -/
theorem search_outcome (p : BcProgram) (x : String) (r : Nat) (flags : BcSearchFlags) :
    (∀ q loc, bc_program_search p x r flags = .ok q loc → Extends p q) ∧
    (∀ s q, bc_program_search p x r flags = .fail s q → q = p) := by
  unfold bc_program_search
  split
  · constructor <;> intros <;> simp at *
  · split
    · rename_i ret hret
      constructor
      · intro q loc h; subst h
        exact (search_frames_outcome _).1 q loc hret
      · intro s q h; subst h
        exact (search_frames_outcome _).2 s q hret
    · exact search_global_outcome p x r flags

/-- A successful lookup of a scalar leaves the result stack alone and makes the
name resolve, from then on, to the storage it returned. -/
theorem search_var_resolves {p q : BcProgram} {x : String} {r : Nat} {loc : BcLoc}
    (h : bc_program_search p x r ⟨true, false⟩ = .ok q loc) :
    Resolves q x loc ∧ Extends p q ∧ q.results = p.results := by
  have hext := (search_outcome p x r ⟨true, false⟩).1 q loc h
  refine ⟨?_, hext, ?_⟩
  · unfold bc_program_search at h
    split at h
    · cases h
    · rename_i hs
      have hqs : q.stack ≠ [] := by rw [hext.stack]; exact hs
      have hfr : searchFrames q = searchFrames p := by
        unfold searchFrames; rw [hext.stack]
      refine ⟨hqs, ?_⟩
      split at h
      · rename_i ret hret
        subst h
        obtain ⟨h1, h2⟩ := search_frames_var_ok _ _ _ hret
        left
        intro r2
        rw [hfr]
        have := h2 q r2 hext.funcs (Nat.le_of_eq hext.rlen.symm)
        exact this
      · rename_i hnone
        right
        constructor
        · intro r2
          rw [hfr]
          exact search_frames_none q r2 ⟨true, false⟩ hext.funcs _ hnone
        · rw [search_global_var] at h
          cases he : entryOf x p.var_map with
          | none =>
            rw [he] at h
            simp only [BcRet.ok.injEq] at h
            obtain ⟨h1, h2⟩ := h
            subst h1
            refine ⟨⟨x, p.vars.length⟩, ?_, ?_, h2.symm⟩
            · exact entryOf_insertSorted_self ⟨x, p.vars.length⟩ p.var_map he
            · simp
          | some e =>
            rw [he] at h
            simp only at h
            split at h
            · rename_i hlt
              simp only [BcRet.ok.injEq] at h
              obtain ⟨h1, h2⟩ := h
              subst h1
              exact ⟨e, he, hlt, h2.symm⟩
            · cases h
  · unfold bc_program_search at h
    split at h
    · cases h
    · split at h
      · rename_i ret hret
        subst h
        rw [(search_frames_var_ok _ _ _ hret).1]
      · rw [search_global_var] at h
        split at h
        · split at h
          · simp only [BcRet.ok.injEq] at h; rw [← h.1]
          · cases h
        · simp only [BcRet.ok.injEq] at h; rw [← h.1]

/-- A name that resolves is found by `bc_program_search` without any change. -/
theorem resolves_search {p : BcProgram} {x : String} {loc : BcLoc} (h : Resolves p x loc)
    (r : Nat) : bc_program_search p x r ⟨true, false⟩ = .ok p loc := by
  obtain ⟨hs, h | ⟨hn, e, he, hlt, hloc⟩⟩ := h
  · unfold bc_program_search
    simp only [hs, if_false]
    have := h r
    unfold searchFrames at this
    rw [this]
  · unfold bc_program_search
    simp only [hs, if_false]
    have := hn r
    unfold searchFrames at this
    rw [this]
    simp only
    rw [search_global_var, he]
    simp [hlt, hloc]

/-- Resolution survives every change that keeps the frames, the functions and
the binding of the name and does not shrink the result stack or the variables. -/
theorem resolves_mono {p p2 : BcProgram} {x : String} {loc : BcLoc} (h : Resolves p x loc)
    (hst : p2.stack = p.stack) (hf : p2.funcs = p.funcs)
    (hr : p.results.length ≤ p2.results.length) (hv : p.vars.length ≤ p2.vars.length)
    (he : ∀ e, entryOf x p.var_map = some e → entryOf x p2.var_map = some e) :
    Resolves p2 x loc := by
  obtain ⟨hs, h | ⟨hn, e, hee, hlt, hloc⟩⟩ := h
  · refine ⟨by rw [hst]; exact hs, Or.inl ?_⟩
    intro r
    have hfr : searchFrames p2 = searchFrames p := by unfold searchFrames; rw [hst]
    rw [hfr]
    exact (search_frames_var_ok _ _ _ (h r)).2 p2 r hf hr
  · refine ⟨by rw [hst]; exact hs, Or.inr ⟨?_, e, he e hee, Nat.lt_of_lt_of_le hlt hv, hloc⟩⟩
    intro r
    have hfr : searchFrames p2 = searchFrames p := by unfold searchFrames; rw [hst]
    rw [hfr]
    exact search_frames_none p2 r ⟨true, false⟩ hf _ (hn r)

/-- Storage of a resolved scalar: a slot of the result stack (an auto) or a
global variable. -/
theorem resolves_loc {p : BcProgram} {x : String} {loc : BcLoc} (h : Resolves p x loc) :
    (∃ j, loc = .result j ∧ j < p.results.length) ∨ (∃ i, loc = .var i ∧ i < p.vars.length) := by
  obtain ⟨_, h | ⟨_, e, _, hlt, hloc⟩⟩ := h
  · exact Or.inl (search_frames_var_loc _ _ _ (h 0))
  · exact Or.inr ⟨e.idx, hloc, hlt⟩

theorem resolves_extends {p q : BcProgram} {x : String} {loc : BcLoc} (h : Resolves p x loc)
    (he : Extends p q) : Resolves q x loc :=
  resolves_mono h he.stack he.funcs (Nat.le_of_eq he.rlen.symm) he.vlen (he.entries x)

/-! ## Lemmas: materialisation -/

/-- Whatever `bc_program_num` returns, the program it leaves extends the one it
started from. -/
theorem num_outcome (p : BcProgram) (ri : Nat) (hex : Bool) :
    (∀ q loc, bc_program_num p ri hex = .ok q loc → Extends p q) ∧
    (∀ s q, bc_program_num p ri hex = .fail s q → Extends p q) := by
  constructor
  · intro q loc h
    unfold bc_program_num at h
    repeat' split at h
    all_goals first
      | exact (search_outcome _ _ _ _).1 q loc h
      | (cases h
         first
           | done
           | exact Extends.refl p
           | (refine extends_set_id p ri _ _ _ _ ‹_› ‹_› ?_
              exact Or.inr ⟨‹_›, rfl⟩))
  · intro s q h
    unfold bc_program_num at h
    repeat' split at h
    all_goals first
      | (rw [(search_outcome _ _ _ _).2 s q h]; exact Extends.refl p)
      | (cases h
         first
           | done
           | (refine extends_set_id p ri _ _ _ _ ‹_› ‹_› ?_
              exact Or.inl rfl))

theorem item_rev_zero {α : Type} (v : List α) (a : α) :
    bc_vec_item_rev (v ++ [a]) 0 = some a := by
  simp [bc_vec_item_rev]

theorem item_rev_some {α : Type} {v : List α} {i : Nat} {a : α}
    (h : bc_vec_item_rev v i = some a) : i < v.length ∧ v[v.length - i - 1]? = some a := by
  unfold bc_vec_item_rev at h
  split at h
  · rename_i hlt; exact ⟨hlt, h⟩
  · cases h

/-- Outcome of `bc_program_binaryOpPrep`: there are two operands, the left one
second from the top, and the program left behind extends the initial one. -/
theorem binaryOpPrep_outcome (p : BcProgram) :
    (∀ q o, bc_program_binaryOpPrep p = .ok q o →
      Extends p q ∧ 2 ≤ p.results.length ∧ o.left = p.results.length - 2 ∧
        o.right = p.results.length - 1) ∧
    (∀ s q, bc_program_binaryOpPrep p = .fail s q → Extends p q) := by
  unfold bc_program_binaryOpPrep
  split
  · rename_i r l hr hl
    have h2 : 2 ≤ p.results.length := by
      have := (item_rev_some hl).1; omega
    split
    · constructor <;> intros <;> simp at *
    · rename_i s1 q1 h1
      constructor
      · intro q o h; cases h
      · intro s q h
        simp only [BcRet.fail.injEq] at h
        rw [← h.2]; exact (num_outcome _ _ _).2 _ _ h1
    · rename_i p1 lval h1
      have e1 := (num_outcome _ _ _).1 _ _ h1
      split
      · constructor <;> intros <;> simp at *
      · rename_i s2 q2 h2'
        constructor
        · intro q o h; cases h
        · intro s q h
          simp only [BcRet.fail.injEq] at h
          rw [← h.2]; exact e1.trans ((num_outcome _ _ _).2 _ _ h2')
      · rename_i p2 rval h2'
        constructor
        · intro q o h
          simp only [BcRet.ok.injEq] at h
          rw [← h.1, ← h.2]
          exact ⟨e1.trans ((num_outcome _ _ _).1 _ _ h2'), h2, rfl, rfl⟩
        · intro s q h; cases h
  · constructor <;> intros <;> simp at *

/-- A pointer that is not dangling refers to its target as long as the program
is the same. -/
theorem ptrKept_self (p : BcProgram) {loc : BcLoc} (h : loc ≠ .dangling) :
    ptrKept p p loc = true := by
  cases loc <;> simp [ptrKept] at h ⊢

/-- A pointer to a result slot is kept as long as the result stack keeps its
length. -/
theorem ptrKept_result {p q : BcProgram} (j : Nat) (h : q.results.length = p.results.length) :
    ptrKept p q (.result j) = true := by
  simp [ptrKept, h]

/-- The two number reads of `bc_program_binaryOpPrep`, one after the other, and
the pointer to the left number handed back. -/
theorem binaryOpPrep_reads {p p1 : BcProgram} {o : BcOperands} {l : BcResult}
    (hprep : bc_program_binaryOpPrep p = .ok p1 o)
    (hl : bc_vec_item_rev p.results 1 = some l) :
    ∃ pa lv, bc_program_num p (p.results.length - 2) false = .ok pa lv ∧
      bc_program_num pa (p.results.length - 1)
        (decide (l.type = .IBASE) || decide (l.type = .OBASE)) = .ok p1 o.rval ∧
      o.lval = (if ptrKept pa p1 lv then lv else .dangling) ∧
      o.left = p.results.length - 2 ∧ o.right = p.results.length - 1 := by
  unfold bc_program_binaryOpPrep at hprep
  rw [hl] at hprep
  split at hprep
  · rename_i r0 l0 hr0 hl0
    simp only [Option.some.injEq] at hl0
    subst hl0
    split at hprep
    · cases hprep
    · cases hprep
    · rename_i pa lval hpa
      split at hprep
      · cases hprep
      · cases hprep
      · rename_i p2 rval hp2
        simp only [BcRet.ok.injEq] at hprep
        obtain ⟨h1, h2⟩ := hprep
        subst h1
        subst h2
        exact ⟨pa, lval, hpa, hp2, rfl, rfl, rfl⟩
  · cases hprep

/-- A pointer to the left number that is not dangling is the one the read of the
left operand gave. -/
theorem binaryOpPrep_split {p p1 : BcProgram} {o : BcOperands} {l : BcResult}
    (hprep : bc_program_binaryOpPrep p = .ok p1 o)
    (hl : bc_vec_item_rev p.results 1 = some l) (hlive : o.lval ≠ .dangling) :
    ∃ pa, bc_program_num p (p.results.length - 2) false = .ok pa o.lval ∧
      bc_program_num pa (p.results.length - 1)
        (decide (l.type = .IBASE) || decide (l.type = .OBASE)) = .ok p1 o.rval ∧
      ptrKept pa p1 o.lval = true ∧
      o.left = p.results.length - 2 ∧ o.right = p.results.length - 1 := by
  obtain ⟨pa, lv, hL, hR, hlv, hleft, hright⟩ := binaryOpPrep_reads hprep hl
  by_cases hk : ptrKept pa p1 lv = true
  · rw [if_pos hk] at hlv
    rw [hlv]
    exact ⟨pa, hL, hR, hk, hleft, hright⟩
  · rw [if_neg hk] at hlv
    exact absurd hlv hlive

/-- The storage a scalar name resolves to is not a dangling pointer. -/
theorem resolves_live {p : BcProgram} {x : String} {loc : BcLoc} (h : Resolves p x loc) :
    loc ≠ .dangling := by
  rcases resolves_loc h with ⟨j, hj, _⟩ | ⟨i, hi, _⟩ <;> rw [‹loc = _›] <;> simp

/-- A pointer through which a number is read is not dangling. -/
theorem read_live {p : BcProgram} {loc : BcLoc} {v : BcNum} (h : readNum p loc = some v) :
    loc ≠ .dangling := by
  intro e; rw [e] at h; cases h

/-! ## Evaluations -/

/-- C1 (post-increment): at `x = 5`, `bc_program_incdec` with `BC_INST_INC_DUP`
succeeds, leaves `x` holding 6 and the result stack one slot long, but the slot
on top is the number that `bc_num_init` created (zero), not the pre-value 5: the
duplicate is allocated and never filled. -/
theorem incdec_post_loses_value :
    bc_program_incdec incState .INC_DUP =
      .ok { incState with vars := [⟨6, 0, false⟩],
                          results := [⟨.INTERMEDIATE, .num (bc_num_init 1)⟩] } () ∧
    bc_num_init 1 ≠ (⟨5, 0, false⟩ : BcNum) := by
  decide

/-- C2 (logical NOT): the `BC_INST_OP_BOOL_NOT` case turns the number 0 into 0
and the number 5 into 1: it pushes the truth value of its operand, not the
negation. -/
theorem bool_not_is_not_negation :
    bc_program_exec_OP_BOOL_NOT (numState ⟨0, 0, false⟩) = .ok (numState ⟨0, 0, false⟩) () ∧
    bc_program_exec_OP_BOOL_NOT (numState ⟨5, 0, false⟩) = .ok (numState ⟨1, 0, false⟩) () := by
  decide

/-- C3 (arrays pass by value): a call of a function whose parameter is an array
fails with `EXEC_BAD_TYPE` whether the argument is a scalar reference or an
array reference; nothing is pushed. -/
theorem call_array_param_rejected :
    (bc_program_call (arrayCallState ⟨.ARRAY, .id "a" 0⟩) callCode).status
      = some .EXEC_BAD_TYPE ∧
    (bc_program_call (arrayCallState ⟨.VAR, .id "a" 0⟩) callCode).status
      = some .EXEC_BAD_TYPE ∧
    ((bc_program_call (arrayCallState ⟨.ARRAY, .id "a" 0⟩) callCode).prog.map
      (fun q => q.results)) = some [⟨.ARRAY, .id "a" 0⟩] := by
  decide

/-- C6 (register invariant): the rejected assignment `ibase = 1` returns
`EXEC_BAD_IBASE` and keeps the working base at 10, but the register that
`PUSH_IBASE` reads through `bc_program_num` holds 1 afterwards, below the
minimum 2. -/
theorem rejected_ibase_is_stored :
    (bc_program_assign ibaseOneState .OP_ASSIGN).status = some .EXEC_BAD_IBASE ∧
    (bc_program_assign ibaseOneState .OP_ASSIGN).prog.map (fun q => q.ibase_t) = some 10 ∧
    ((bc_program_assign ibaseOneState .OP_ASSIGN).prog.map (fun q =>
      (bc_program_num { q with results := q.results ++ [⟨.IBASE, .uninit⟩] }
        q.results.length false).prog.bind (fun q2 => readNum q2 .ibase)))
      = some (some ⟨1, 0, false⟩) ∧
    bc_num_cmp ⟨1, 0, false⟩ (bc_num_ulong2num BC_NUM_MIN_BASE) < 0 := by
  decide

/-! ## Assignment -/

/-- Left operand after materialisation: the slot second from the top keeps its
tag, but for a `Constant`, which has become an `Intermediate`. -/
theorem binaryOpPrep_left {p p1 : BcProgram} {o : BcOperands} {l : BcResult}
    (hprep : bc_program_binaryOpPrep p = .ok p1 o)
    (hl : bc_vec_item_rev p.results 1 = some l) :
    ∃ l2, p1.results[o.left]? = some l2 ∧
      (l2.type = l.type ∨ (l.type = .CONSTANT ∧ l2.type = .INTERMEDIATE)) := by
  obtain ⟨hext, _, hleft, _⟩ := (binaryOpPrep_outcome p).1 p1 o hprep
  have h1 := (item_rev_some hl).2
  have h2 : p.results.length - 1 - 1 = p.results.length - 2 := by omega
  rw [h2] at h1
  rw [hleft]
  exact hext.types _ l h1

/-- With a `Constant` or an `Intermediate` on the left and both operands
materialised, `bc_program_assign` returns `PARSE_BAD_ASSIGN` and leaves the
program as materialisation produced it. -/
theorem assign_bad_assign {p p1 : BcProgram} {o : BcOperands} (inst : BcInst) {l : BcResult}
    (hl : bc_vec_item_rev p.results 1 = some l)
    (ht : l.type = .CONSTANT ∨ l.type = .INTERMEDIATE)
    (hprep : bc_program_binaryOpPrep p = .ok p1 o) :
    bc_program_assign p inst = .fail .PARSE_BAD_ASSIGN p1 := by
  obtain ⟨l2, hl2, ht2⟩ := binaryOpPrep_left hprep hl
  have hty : l2.type = .CONSTANT ∨ l2.type = .INTERMEDIATE := by
    rcases ht2 with h | ⟨_, h⟩
    · rw [h]; exact ht
    · exact Or.inr h
  unfold bc_program_assign
  rw [hprep]
  simp only [hl2, hty, if_true]

/-- C7, amended (assignment to a non-lvalue): when the left operand is a
`Constant` or an `Intermediate` and both operands materialise
(`bc_program_binaryOpPrep` succeeds), `bc_program_assign` returns
`PARSE_BAD_ASSIGN` for every opcode; the program it leaves has a result stack
of the same length and every register, limit and existing number of the
initial one. -/
theorem assign_non_lvalue (p p1 : BcProgram) (o : BcOperands) (inst : BcInst) (l : BcResult)
    (hl : bc_vec_item_rev p.results 1 = some l)
    (ht : l.type = .CONSTANT ∨ l.type = .INTERMEDIATE)
    (hprep : bc_program_binaryOpPrep p = .ok p1 o) :
    bc_program_assign p inst = .fail .PARSE_BAD_ASSIGN p1 ∧
    p1.results.length = p.results.length ∧
    (∀ loc v, readNum p loc = some v → readNum p1 loc = some v) ∧
    p1.ibase_t = p.ibase_t ∧ p1.obase_t = p.obase_t ∧ p1.scale = p.scale := by
  obtain ⟨hext, _, _, _⟩ := (binaryOpPrep_outcome p).1 p1 o hprep
  exact ⟨assign_bad_assign inst hl ht hprep, hext.rlen, hext.reads, hext.ibase_t,
    hext.obase_t, hext.scale⟩

/-- C7, the claim as stated fails: with the number 1 on the left and, on the
right, a scalar reference to a name that the current function declares as an
array, `bc_program_assign` returns `EXEC_BAD_TYPE`, not `PARSE_BAD_ASSIGN`. -/
theorem assign_non_lvalue_bad_type :
    (bc_vec_item_rev mismatchState.results 1).map (fun l => l.type) = some .INTERMEDIATE ∧
    bc_program_assign mismatchState .OP_ASSIGN = .fail .EXEC_BAD_TYPE mismatchState := by
  decide

/-- C7, an instance of the amended claim: `1 = 7` on the initial image. -/
theorem assign_non_lvalue_witness :
    bc_program_assign (assignState ⟨.INTERMEDIATE, .num ⟨1, 0, false⟩⟩ ⟨7, 0, false⟩) .OP_ASSIGN =
      .fail .PARSE_BAD_ASSIGN (assignState ⟨.INTERMEDIATE, .num ⟨1, 0, false⟩⟩ ⟨7, 0, false⟩) :=
  (assign_non_lvalue (assignState ⟨.INTERMEDIATE, .num ⟨1, 0, false⟩⟩ ⟨7, 0, false⟩)
    (assignState ⟨.INTERMEDIATE, .num ⟨1, 0, false⟩⟩ ⟨7, 0, false⟩) ⟨0, .result 0, 1, .result 1⟩ .OP_ASSIGN
    ⟨.INTERMEDIATE, .num ⟨1, 0, false⟩⟩ (by decide) (by decide) (by decide)).1

/-- Comparison with zero: a number compares equal to zero exactly when it has
no nonzero digit. -/
theorem cmp_zero (n : BcNum) : bc_num_cmp n bc_num_zero = 0 ↔ n.val = 0 := by
  unfold bc_num_cmp bc_num_zero
  simp [Int.sign_eq_zero_iff_zero]

/-- C4, amended (compound division by zero): when both operands materialise,
the left one is neither a `Constant` nor an `Intermediate`, and the right one
compares equal to the register `zero`, `bc_program_assign` with
`BC_INST_OP_ASSIGN_DIVIDE` returns `MATH_DIVIDE_BY_ZERO`; the program it leaves
is the one materialisation produced: same result-stack length, same registers
and working values, and every existing number (the left-hand variable
included) unchanged. -/
theorem assign_divide_by_zero (p p1 : BcProgram) (o : BcOperands) (l : BcResult) (rv : BcNum)
    (hl : bc_vec_item_rev p.results 1 = some l)
    (ht : l.type ≠ .CONSTANT ∧ l.type ≠ .INTERMEDIATE)
    (hprep : bc_program_binaryOpPrep p = .ok p1 o)
    (hr : readNum p1 o.rval = some rv)
    (hz : bc_num_cmp rv p.zero = 0) :
    bc_program_assign p .OP_ASSIGN_DIVIDE = .fail .MATH_DIVIDE_BY_ZERO p1 ∧
    p1.results.length = p.results.length ∧
    (∀ loc v, readNum p loc = some v → readNum p1 loc = some v) ∧
    p1.ibase_t = p.ibase_t ∧ p1.obase_t = p.obase_t ∧ p1.scale = p.scale := by
  obtain ⟨hext, _, _, _⟩ := (binaryOpPrep_outcome p).1 p1 o hprep
  obtain ⟨l2, hl2, ht2⟩ := binaryOpPrep_left hprep hl
  have hty : ¬ (l2.type = .CONSTANT ∨ l2.type = .INTERMEDIATE) := by
    rcases ht2 with h | ⟨h, _⟩
    · rw [h]; intro hc; rcases hc with hc | hc
      · exact ht.1 hc
      · exact ht.2 hc
    · exact absurd h ht.1
  refine ⟨?_, hext.rlen, hext.reads, hext.ibase_t, hext.obase_t, hext.scale⟩
  unfold bc_program_assign
  rw [hprep]
  simp only [hl2, hty, if_false, hr, hext.zero, hz, BC_EXPR_ASSIGN_DIVIDE, and_self, if_true]

/-- C4, the claim as stated fails: with the number 1 on the left, the number 0
on the right and the divide-assign opcode, `bc_program_assign` returns
`PARSE_BAD_ASSIGN`; and with the scalar reference `a` on the left, where `a` is
an array auto of the function running, the left operand does not materialise
and the status is `EXEC_BAD_TYPE`. -/
theorem assign_divide_non_lvalue :
    bc_program_assign (assignState ⟨.INTERMEDIATE, .num ⟨1, 0, false⟩⟩ ⟨0, 0, false⟩)
        .OP_ASSIGN_DIVIDE =
      .fail .PARSE_BAD_ASSIGN (assignState ⟨.INTERMEDIATE, .num ⟨1, 0, false⟩⟩ ⟨0, 0, false⟩) ∧
    bc_num_cmp ⟨0, 0, false⟩
      (assignState ⟨.INTERMEDIATE, .num ⟨1, 0, false⟩⟩ ⟨0, 0, false⟩).zero = 0 ∧
    bc_program_assign divideMismatchState .OP_ASSIGN_DIVIDE =
      .fail .EXEC_BAD_TYPE divideMismatchState ∧
    divideMismatchState.results[2]? = some ⟨.INTERMEDIATE, .num ⟨0, 0, false⟩⟩ := by
  decide

/-- C4, an instance of the amended claim: `x /= 0` with `x = 5`. -/
theorem assign_divide_by_zero_witness :
    bc_program_assign (xAssignState ⟨0, 0, false⟩) .OP_ASSIGN_DIVIDE =
      .fail .MATH_DIVIDE_BY_ZERO (xAssignState ⟨0, 0, false⟩) ∧
    readNum (xAssignState ⟨0, 0, false⟩) (.var 0) = some ⟨5, 0, false⟩ :=
  ⟨(assign_divide_by_zero (xAssignState ⟨0, 0, false⟩) (xAssignState ⟨0, 0, false⟩)
      ⟨0, .var 0, 1, .result 1⟩ ⟨.VAR, .id "x" 0⟩ ⟨0, 0, false⟩
      (by decide) (by decide) (by decide) (by decide) (by decide)).1, by decide⟩

theorem getElem?_append_two_left {α : Type} (base : List α) (a b : α) :
    (base ++ [a, b])[base.length]? = some a := by
  rw [List.getElem?_append_right (Nat.le_refl _)]; simp

theorem getElem?_append_two_right {α : Type} (base : List α) (a b : α) :
    (base ++ [a, b])[base.length + 1]? = some b := by
  rw [List.getElem?_append_right (Nat.le_add_right _ _)]; simp

theorem getElem?_append_one {α : Type} (base : List α) (a : α) :
    (base ++ [a])[base.length]? = some a := by
  rw [List.getElem?_append_right (Nat.le_refl _)]; simp

theorem vec_pop_append {α : Type} (v : List α) (a : α) : bc_vec_pop (v ++ [a]) = some v := by
  unfold bc_vec_pop
  split
  · rename_i h; simp at h
  · simp

theorem vec_pop_append_two {α : Type} (v : List α) (a b : α) :
    bc_vec_pop (v ++ [a, b]) = some (v ++ [a]) := by
  have : v ++ [a, b] = (v ++ [a]) ++ [b] := by simp
  rw [this, vec_pop_append]

theorem binaryOpPrep_auto_abort {p : BcProgram} {l : BcResult}
    (hl : bc_vec_item_rev p.results 1 = some l)
    (ht : l.type = .ARRAY_AUTO) : bc_program_binaryOpPrep p = .abort := by
  have h1 := (item_rev_some hl).2
  have h2 : p.results.length - 1 - 1 = p.results.length - 2 := by omega
  rw [h2] at h1
  unfold bc_program_binaryOpPrep
  rw [hl]
  split
  · simp only [bc_program_num, h1, ht]
  · rfl

/-- C8, amended (permitted assignment targets): `bc_program_assign` returns
success only when its left operand is a `NamedVar`, `NamedArrayElem`,
`AutoVar`, `Scale`, `IBase`, `OBase`, `Last` or `One`; and `Last` is a target it
accepts: a plain assignment of the number `y` to `Last` succeeds, stores `y` in
the register `last` and pushes `y` in place of the two operands. -/
theorem assign_targets :
    (∀ (p : BcProgram) (inst : BcInst) (q : BcProgram),
      bc_program_assign p inst = .ok q () →
      ∃ l, bc_vec_item_rev p.results 1 = some l ∧
        (l.type = .VAR ∨ l.type = .ARRAY ∨ l.type = .VAR_AUTO ∨ l.type = .SCALE ∨
          l.type = .IBASE ∨ l.type = .OBASE ∨ l.type = .LAST ∨ l.type = .ONE)) ∧
    (∀ (p : BcProgram) (base : List BcResult) (d : BcData) (y : BcNum),
      p.results = base ++ [⟨.LAST, d⟩, ⟨.INTERMEDIATE, .num y⟩] →
      bc_program_assign p .OP_ASSIGN =
        .ok { p with last := y, results := base ++ [⟨.INTERMEDIATE, .num y⟩] } ()) := by
  constructor
  · intro p inst q h
    cases hprep : bc_program_binaryOpPrep p with
    | abort => unfold bc_program_assign at h; rw [hprep] at h; cases h
    | fail s q2 => unfold bc_program_assign at h; rw [hprep] at h; cases h
    | ok p1 o =>
      obtain ⟨_, hlen, _, _⟩ := (binaryOpPrep_outcome p).1 p1 o hprep
      have hlt : p.results.length - 1 - 1 < p.results.length := by omega
      have hl : bc_vec_item_rev p.results 1 = some (p.results[p.results.length - 1 - 1]) := by
        unfold bc_vec_item_rev
        have h1 : 1 < p.results.length := by omega
        simp only [h1, if_true]
        exact List.getElem?_eq_getElem hlt
      refine ⟨_, hl, ?_⟩
      generalize p.results[p.results.length - 1 - 1] = l at hl
      cases hty : l.type with
      | INTERMEDIATE =>
        have := assign_bad_assign inst hl (Or.inr hty) hprep
        rw [this] at h; cases h
      | CONSTANT =>
        have := assign_bad_assign inst hl (Or.inl hty) hprep
        rw [this] at h; cases h
      | ARRAY_AUTO =>
        rw [binaryOpPrep_auto_abort hl hty] at hprep; cases hprep
      | VAR => simp
      | ARRAY => simp
      | VAR_AUTO => simp
      | SCALE => simp
      | LAST => simp
      | IBASE => simp
      | OBASE => simp
      | ONE => simp
  · intro p base d y hres
    have hlen : p.results.length = base.length + 2 := by rw [hres]; simp
    have h0 : p.results[base.length]? = some ⟨.LAST, d⟩ := by
      rw [hres]; exact getElem?_append_two_left _ _ _
    have h1 : p.results[base.length + 1]? = some ⟨.INTERMEDIATE, .num y⟩ := by
      rw [hres]; exact getElem?_append_two_right _ _ _
    have hprep : bc_program_binaryOpPrep p =
        .ok p ⟨base.length, .last, base.length + 1, .result (base.length + 1)⟩ := by
      unfold bc_program_binaryOpPrep bc_vec_item_rev
      simp [hlen, h0, h1, bc_program_num, ptrKept]
    unfold bc_program_assign
    rw [hprep]
    simp only [h0, h1, readNum, BC_EXPR_ASSIGN_DIVIDE, bc_program_assign_switch, writeNum,
      bc_program_assign_finish, bc_program_binaryOpRetire, bc_num_copy]
    simp [hres, vec_pop_append_two, vec_pop_append]

/-- C8, the claim as stated fails: the plain assignment of 7 to the `Last`
register returns success and changes the register from 0 to 7. -/
theorem assign_to_last_succeeds :
    (bc_vec_item_rev (assignState ⟨.LAST, .uninit⟩ ⟨7, 0, false⟩).results 1).map (fun l => l.type)
      = some .LAST ∧
    bc_program_assign (assignState ⟨.LAST, .uninit⟩ ⟨7, 0, false⟩) .OP_ASSIGN =
      .ok { startImage with last := ⟨7, 0, false⟩, results := [⟨.INTERMEDIATE, .num ⟨7, 0, false⟩⟩] } () ∧
    (assignState ⟨.LAST, .uninit⟩ ⟨7, 0, false⟩).last ≠ ⟨7, 0, false⟩ := by
  decide

/-- C8, an instance of the amended claim: `last = 3` on the initial image. -/
theorem assign_targets_witness :
    bc_program_assign (assignState ⟨.LAST, .uninit⟩ ⟨3, 0, false⟩) .OP_ASSIGN =
      .ok { assignState ⟨.LAST, .uninit⟩ ⟨3, 0, false⟩ with
            last := ⟨3, 0, false⟩, results := [] ++ [⟨.INTERMEDIATE, .num ⟨3, 0, false⟩⟩] } () :=
  assign_targets.2 (assignState ⟨.LAST, .uninit⟩ ⟨3, 0, false⟩) [] .uninit ⟨3, 0, false⟩ rfl

theorem read_write_result {p : BcProgram} {i : Nat} {r : BcResult} (v : BcNum)
    (h : p.results[i]? = some r) : readNum (writeNum p (.result i) v) (.result i) = some v := by
  simp only [writeNum, h, readNum]
  rw [List.getElem?_set_self (getElem?_lt h)]

theorem write_result_length (p : BcProgram) (loc : BcLoc) (v : BcNum) :
    (writeNum p loc v).results.length = p.results.length := by
  cases loc <;> simp only [writeNum] <;> repeat' split <;> simp

theorem vec_pop_two {α : Type} {v : List α} (h : 2 ≤ v.length) :
    ∃ r1, bc_vec_pop v = some r1 ∧ bc_vec_pop r1 = some v.dropLast.dropLast := by
  have key : ∀ (w : List α), 1 ≤ w.length → bc_vec_pop w = some w.dropLast := by
    intro w hw
    unfold bc_vec_pop
    split
    · simp at hw
    · rfl
  refine ⟨v.dropLast, key v (by omega), ?_⟩
  exact key _ (by simp; omega)

/-- With two operands on the stack, `bc_program_binaryOpRetire` replaces them by
the retagged result. -/
theorem binaryOpRetire_eq (q : BcProgram) (r : BcResult) (t : BcResultType)
    (h : 2 ≤ q.results.length) :
    bc_program_binaryOpRetire q r t =
      .ok { q with results := q.results.dropLast.dropLast ++ [{ r with type := t }] } () := by
  obtain ⟨r1, h1, h2⟩ := vec_pop_two h
  unfold bc_program_binaryOpRetire
  simp only [h1, h2]

theorem assign_finish_eq (q : BcProgram) (loc : BcLoc) (lv : BcNum)
    (hr : readNum q loc = some lv) (h : 2 ≤ q.results.length) :
    bc_program_assign_finish q loc =
      .ok { q with results := q.results.dropLast.dropLast ++ [⟨.INTERMEDIATE, .num lv⟩] } () := by
  unfold bc_program_assign_finish
  rw [hr]
  simp only [bc_num_copy]
  rw [binaryOpRetire_eq q _ _ h]

/-- A division that produced a value had a divisor that does not compare equal
to zero: the guard of `bc_program_assign` did not fire. -/
theorem switch_guard {inst : BcInst} {lv : Option BcNum} {rv nv : BcNum} {scale : Nat}
    {z : BcNum} (hz : z = bc_num_zero)
    (hsw : bc_program_assign_switch inst lv rv scale = some (.ok nv)) :
    ¬ (inst = BC_EXPR_ASSIGN_DIVIDE ∧ bc_num_cmp rv z = 0) := by
  rintro ⟨hi, hc⟩
  subst hz
  rw [cmp_zero] at hc
  rw [hi] at hsw
  simp only [BC_EXPR_ASSIGN_DIVIDE, bc_program_assign_switch, bc_program_assignOp] at hsw
  cases lv with
  | none => simp at hsw
  | some l => simp [bc_num_div, hc] at hsw

/-- Pointer of a register operand on the left: `IBase` and `OBase` point at the
register number, `Scale` at the number of the slot itself. -/
theorem binaryOpPrep_lval {p p1 : BcProgram} {o : BcOperands} {l : BcResult}
    (hprep : bc_program_binaryOpPrep p = .ok p1 o)
    (hl : bc_vec_item_rev p.results 1 = some l) :
    (l.type = .IBASE → o.lval = .ibase) ∧ (l.type = .OBASE → o.lval = .obase) ∧
    (l.type = .SCALE → o.lval = .result o.left) ∧ (l.type = .LAST → o.lval = .last) := by
  have h1 := (item_rev_some hl).2
  have h2 : p.results.length - 1 - 1 = p.results.length - 2 := by omega
  rw [h2] at h1
  obtain ⟨pa, lv, hL, hR, hlv, hleft, hright⟩ := binaryOpPrep_reads hprep hl
  have hlen := ((num_outcome _ _ _).1 _ _ hR).rlen
  refine ⟨?_, ?_, ?_, ?_⟩ <;> intro ht <;>
    simp only [bc_program_num, h1, ht, BcRet.ok.injEq] at hL <;>
    rw [hlv, ← hL.2] <;> simp [ptrKept, hlen, hleft]

/-- C5 (register range checks), amended: let the operands of an assignment
materialise and let the update compute the number `nv`.  If `nv` converts to the
unsigned integer `v`: with `IBase` on the left the assignment fails with
`EXEC_BAD_IBASE` exactly when `v < 2` or `v > 16`; with `OBase` it fails with
`EXEC_BAD_OBASE` exactly when `v < 2` or `v > base_max`; with `Scale` it fails
with `EXEC_BAD_SCALE` exactly when `v > scale_max`; in range it succeeds and
the working value (`ibase_t`, `obase_t`, `scale`) becomes `v`; out of range the
working value is the previous one.  If `nv` does not convert, the assignment to
any of the three fails with the status of the conversion and the three working
values are the previous ones. -/
theorem assign_register_range (p p1 : BcProgram) (o : BcOperands) (inst : BcInst)
    (l : BcResult) (rv nv : BcNum)
    (hzero : p.zero = bc_num_zero)
    (hl : bc_vec_item_rev p.results 1 = some l)
    (hprep : bc_program_binaryOpPrep p = .ok p1 o)
    (hr : readNum p1 o.rval = some rv)
    (hsw : bc_program_assign_switch inst (readNum p1 o.lval) rv p1.scale = some (.ok nv)) :
    (∀ v, bc_num_ulong nv = .ok v →
      (l.type = .IBASE →
        ((bc_program_assign p inst).status = some .EXEC_BAD_IBASE ↔ (v < 2 ∨ 16 < v)) ∧
        (¬ (v < 2 ∨ 16 < v) → (bc_program_assign p inst).status = some .SUCCESS ∧
          (bc_program_assign p inst).prog.map (fun q => q.ibase_t) = some v) ∧
        ((v < 2 ∨ 16 < v) →
          (bc_program_assign p inst).prog.map (fun q => q.ibase_t) = some p.ibase_t)) ∧
      (l.type = .OBASE →
        ((bc_program_assign p inst).status = some .EXEC_BAD_OBASE ↔
          (v < 2 ∨ p.base_max < v)) ∧
        (¬ (v < 2 ∨ p.base_max < v) → (bc_program_assign p inst).status = some .SUCCESS ∧
          (bc_program_assign p inst).prog.map (fun q => q.obase_t) = some v) ∧
        ((v < 2 ∨ p.base_max < v) →
          (bc_program_assign p inst).prog.map (fun q => q.obase_t) = some p.obase_t)) ∧
      (l.type = .SCALE →
        ((bc_program_assign p inst).status = some .EXEC_BAD_SCALE ↔ p.scale_max < v) ∧
        (¬ (p.scale_max < v) → (bc_program_assign p inst).status = some .SUCCESS ∧
          (bc_program_assign p inst).prog.map (fun q => q.scale) = some v) ∧
        (p.scale_max < v →
          (bc_program_assign p inst).prog.map (fun q => q.scale) = some p.scale))) ∧
    (∀ s, bc_num_ulong nv = .error s →
      (l.type = .IBASE ∨ l.type = .OBASE ∨ l.type = .SCALE) →
      (bc_program_assign p inst).status = some s ∧
      (bc_program_assign p inst).prog.map (fun q => (q.ibase_t, q.obase_t, q.scale)) =
        some (p.ibase_t, p.obase_t, p.scale)) := by
  obtain ⟨hext, hlen, hleft, _⟩ := (binaryOpPrep_outcome p).1 p1 o hprep
  obtain ⟨l2, hl2, ht2⟩ := binaryOpPrep_left hprep hl
  have hg := switch_guard (hext.zero.trans hzero) hsw
  have hlen1 : 2 ≤ p1.results.length := by rw [hext.rlen]; exact hlen
  obtain ⟨hib, hob, hsc, _⟩ := binaryOpPrep_lval hprep hl
  constructor
  · intro v hv
    refine ⟨?_, ?_, ?_⟩
    · intro ht
      have hty : l2.type = .IBASE := by
        rcases ht2 with h | ⟨h, _⟩
        · rw [h, ht]
        · rw [ht] at h; cases h
      have hlv := hib ht
      rw [hlv] at hsw
      have hassign : bc_program_assign p inst =
          if v < 2 ∨ 16 < v then .fail .EXEC_BAD_IBASE (writeNum p1 .ibase nv)
          else bc_program_assign_finish { writeNum p1 .ibase nv with ibase_t := v } .ibase := by
        unfold bc_program_assign
        rw [hprep]
        have hrw : readNum (writeNum p1 .ibase nv) .ibase = some nv := rfl
        simp only [hl2, hty, hr, hg, hlv, hsw, hrw, hv, BC_NUM_MIN_BASE, BC_NUM_MAX_INPUT_BASE]
        simp
      rw [hassign]
      by_cases hrange : v < 2 ∨ 16 < v
      · simp [hrange, BcRet.status, BcRet.prog, writeNum, hext.ibase_t]
      · rw [if_neg hrange,
          assign_finish_eq { writeNum p1 .ibase nv with ibase_t := v } .ibase nv rfl hlen1]
        simp [hrange, BcRet.status, BcRet.prog]
    · intro ht
      have hty : l2.type = .OBASE := by
        rcases ht2 with h | ⟨h, _⟩
        · rw [h, ht]
        · rw [ht] at h; cases h
      have hlv := hob ht
      rw [hlv] at hsw
      have hassign : bc_program_assign p inst =
          if v < 2 ∨ p.base_max < v then .fail .EXEC_BAD_OBASE (writeNum p1 .obase nv)
          else bc_program_assign_finish { writeNum p1 .obase nv with obase_t := v } .obase := by
        unfold bc_program_assign
        rw [hprep]
        have hrw : readNum (writeNum p1 .obase nv) .obase = some nv := rfl
        simp only [hl2, hty, hr, hg, hlv, hsw, hrw, hv, BC_NUM_MIN_BASE, hext.base_max]
        simp
      rw [hassign]
      by_cases hrange : v < 2 ∨ p.base_max < v
      · simp [hrange, BcRet.status, BcRet.prog, writeNum, hext.obase_t]
      · rw [if_neg hrange,
          assign_finish_eq { writeNum p1 .obase nv with obase_t := v } .obase nv rfl hlen1]
        simp [hrange, BcRet.status, BcRet.prog]
    · intro ht
      have hty : l2.type = .SCALE := by
        rcases ht2 with h | ⟨h, _⟩
        · rw [h, ht]
        · rw [ht] at h; cases h
      have hlv := hsc ht
      rw [hlv] at hsw
      have hrw : readNum (writeNum p1 (.result o.left) nv) (.result o.left) = some nv :=
        read_write_result nv hl2
      have hwl : 2 ≤ (writeNum p1 (.result o.left) nv).results.length := by
        rw [write_result_length]; exact hlen1
      have hassign : bc_program_assign p inst =
          if p.scale_max < v then .fail .EXEC_BAD_SCALE (writeNum p1 (.result o.left) nv)
          else bc_program_assign_finish
            { writeNum p1 (.result o.left) nv with scale := v } (.result o.left) := by
        unfold bc_program_assign
        rw [hprep]
        simp only [hl2, hty, hr, hg, hlv, bc_program_assignScale, hsw, hrw, hv, hext.scale_max]
        by_cases hc : p.scale_max < v <;> simp [hc]
      rw [hassign]
      by_cases hrange : p.scale_max < v
      · simp only [hrange, if_true, BcRet.status, BcRet.prog, Option.map_some', true_iff,
          not_true_eq_false, false_imp_iff, true_and, true_imp_iff, Option.some.injEq]
        simp only [writeNum, hl2]
        exact hext.scale
      · rw [if_neg hrange,
          assign_finish_eq { writeNum p1 (.result o.left) nv with scale := v } (.result o.left) nv
            hrw hwl]
        simp [hrange, BcRet.status, BcRet.prog]
  · intro s hs hty3
    rcases hty3 with ht | ht | ht
    · have hty : l2.type = .IBASE := by
        rcases ht2 with h | ⟨h, _⟩
        · rw [h, ht]
        · rw [ht] at h; cases h
      have hlv := hib ht
      rw [hlv] at hsw
      have hassign : bc_program_assign p inst = .fail s (writeNum p1 .ibase nv) := by
        unfold bc_program_assign
        rw [hprep]
        have hrw : readNum (writeNum p1 .ibase nv) .ibase = some nv := rfl
        simp only [hl2, hty, hr, hg, hlv, hsw, hrw, hs]
        simp
      rw [hassign]
      simp [BcRet.status, BcRet.prog, writeNum, hext.ibase_t, hext.obase_t, hext.scale]
    · have hty : l2.type = .OBASE := by
        rcases ht2 with h | ⟨h, _⟩
        · rw [h, ht]
        · rw [ht] at h; cases h
      have hlv := hob ht
      rw [hlv] at hsw
      have hassign : bc_program_assign p inst = .fail s (writeNum p1 .obase nv) := by
        unfold bc_program_assign
        rw [hprep]
        have hrw : readNum (writeNum p1 .obase nv) .obase = some nv := rfl
        simp only [hl2, hty, hr, hg, hlv, hsw, hrw, hs]
        simp
      rw [hassign]
      simp [BcRet.status, BcRet.prog, writeNum, hext.ibase_t, hext.obase_t, hext.scale]
    · have hty : l2.type = .SCALE := by
        rcases ht2 with h | ⟨h, _⟩
        · rw [h, ht]
        · rw [ht] at h; cases h
      have hlv := hsc ht
      rw [hlv] at hsw
      have hrw : readNum (writeNum p1 (.result o.left) nv) (.result o.left) = some nv :=
        read_write_result nv hl2
      have hassign : bc_program_assign p inst =
          .fail s (writeNum p1 (.result o.left) nv) := by
        unfold bc_program_assign
        rw [hprep]
        simp only [hl2, hty, hr, hg, hlv, bc_program_assignScale, hsw, hrw, hs]
        simp
      rw [hassign]
      simp only [BcRet.status, BcRet.prog, Option.map_some', writeNum, hl2, true_and,
        Option.some.injEq, Prod.mk.injEq]
      exact ⟨hext.ibase_t, hext.obase_t, hext.scale⟩

/-- C5, the claim as stated fails: `ibase = 2 ^ 64` assigns a non-negative
integer above 16, but the status is that of the failed conversion,
`MATH_OVERFLOW`, not `EXEC_BAD_IBASE`; so it is for `obase` and for `scale`. -/
theorem assign_register_overflow :
    (bc_program_assign (assignState ⟨.IBASE, .uninit⟩ ⟨2 ^ 64, 0, false⟩) .OP_ASSIGN).status =
      some .MATH_OVERFLOW ∧
    (bc_program_assign (assignState ⟨.OBASE, .uninit⟩ ⟨2 ^ 64, 0, false⟩) .OP_ASSIGN).status =
      some .MATH_OVERFLOW ∧
    (bc_program_assign (assignState ⟨.SCALE, .num ⟨0, 0, false⟩⟩ ⟨2 ^ 64, 0, false⟩)
        .OP_ASSIGN).status = some .MATH_OVERFLOW ∧
    bc_num_ulong ⟨2 ^ 64, 0, false⟩ = .error .MATH_OVERFLOW := by
  refine ⟨by decide, by decide, by decide, rfl⟩

/-- C5, an instance of the amended claim: `ibase = 8` is in range; it succeeds
and the working input base becomes 8. -/
theorem assign_register_range_witness :
    (bc_program_assign (assignState ⟨.IBASE, .uninit⟩ ⟨8, 0, false⟩) .OP_ASSIGN).status
      = some .SUCCESS ∧
    (bc_program_assign (assignState ⟨.IBASE, .uninit⟩ ⟨8, 0, false⟩) .OP_ASSIGN).prog.map
      (fun q => q.ibase_t) = some 8 :=
  (((assign_register_range (assignState ⟨.IBASE, .uninit⟩ ⟨8, 0, false⟩)
    (assignState ⟨.IBASE, .uninit⟩ ⟨8, 0, false⟩) ⟨0, .ibase, 1, .result 1⟩ .OP_ASSIGN
    ⟨.IBASE, .uninit⟩ ⟨8, 0, false⟩ ⟨8, 0, false⟩
    (by decide) (by decide) (by decide) (by decide) rfl).1 8 rfl).1 rfl).2.1
    (by decide)

/-! ## Increment and decrement -/

theorem add_one (v : BcNum) (scale : Nat) :
    bc_num_add v bc_num_one scale = .ok ⟨v.val + 10 ^ v.rdx, v.rdx, false⟩ := by
  simp [bc_num_add, bc_num_one]

theorem sub_one (v : BcNum) (scale : Nat) :
    bc_num_sub v bc_num_one scale = .ok ⟨v.val - 10 ^ v.rdx, v.rdx, false⟩ := by
  simp [bc_num_sub, bc_num_one]

theorem read_write_scalar {p : BcProgram} {h : Nat} {loc : BcLoc} (v : BcNum)
    (hloc : ScalarLoc p h loc) : readNum (writeNum p loc v) loc = some v := by
  rcases hloc with ⟨j, rfl, hj, hh⟩ | ⟨i, rfl, hi⟩
  · have hlt : j < p.results.length := Nat.lt_of_lt_of_le hj hh
    exact read_write_result v (List.getElem?_eq_getElem hlt)
  · simp only [writeNum, readNum]
    rw [List.getElem?_set_self hi]

/-- A store to a scalar leaves the slots at and above the height alone. -/
theorem write_scalar_results {p : BcProgram} {h : Nat} {loc : BcLoc} (v : BcNum)
    (hloc : ScalarLoc p h loc) :
    (writeNum p loc v).results.drop h = p.results.drop h ∧
    (writeNum p loc v).results.length = p.results.length := by
  refine ⟨?_, write_result_length p loc v⟩
  rcases hloc with ⟨j, rfl, hj, hh⟩ | ⟨i, rfl, hi⟩
  · have hlt : j < p.results.length := Nat.lt_of_lt_of_le hj hh
    simp only [writeNum, List.getElem?_eq_getElem hlt]
    exact List.drop_set_of_lt _ _ hj
  · rfl

theorem dropLast_two_eq_take {α : Type} (w : List α) (h : Nat) (hl : w.length = h + 2) :
    w.dropLast.dropLast = w.take h := by
  rw [List.dropLast_eq_take, List.dropLast_eq_take, List.take_take]
  simp [hl]

/-- End of an assignment to a scalar whose storage lies under the two operands:
the store is read back, the operands are replaced by the new value, and the
scalar holds it. -/
theorem assign_finish_scalar {q : BcProgram} {h : Nat} {loc : BcLoc} (nv : BcNum)
    (hloc : ScalarLoc q h loc) (hlen : q.results.length = h + 2) :
    bc_program_assign_finish (writeNum q loc nv) loc =
      .ok { writeNum q loc nv with
            results := (writeNum q loc nv).results.take h ++ [⟨.INTERMEDIATE, .num nv⟩] } () ∧
    readNum { writeNum q loc nv with
              results := (writeNum q loc nv).results.take h ++ [⟨.INTERMEDIATE, .num nv⟩] } loc
      = some nv := by
  have hrw := read_write_scalar nv hloc
  have hwl : (writeNum q loc nv).results.length = h + 2 := by
    rw [write_result_length]; exact hlen
  constructor
  · rw [assign_finish_eq _ loc nv hrw (by rw [hwl]; omega), dropLast_two_eq_take _ h hwl]
  · rcases hloc with ⟨j, rfl, hj, hh⟩ | ⟨i, rfl, hi⟩
    · simp only [readNum] at hrw ⊢
      have hjl : j < ((writeNum q (.result j) nv).results.take h).length := by
        rw [List.length_take, hwl]; omega
      rw [List.getElem?_append_left hjl, List.getElem?_take_of_lt hj]
      exact hrw
    · exact hrw

/-- The compound assignment that `bc_program_incdec` runs: on a stack
`base ++ [reference to x, One]`, with `x` resolving to a scalar that holds `v`,
`bc_program_assign` stores the updated value in `x` and replaces the two
operands by it. -/
theorem assign_scalar_one {p2 : BcProgram} {base : List BcResult} {x : String} {i0 : Nat}
    {loc : BcLoc} {v nv : BcNum} {inst2 : BcInst} {d : BcData}
    (hres : p2.results = base ++ [⟨.VAR, .id x i0⟩, ⟨.ONE, d⟩])
    (hx : Resolves p2 x loc) (hloc : ScalarLoc p2 base.length loc)
    (hv : readNum p2 loc = some v)
    (hdiv : inst2 ≠ .OP_ASSIGN_DIVIDE)
    (hsw : bc_program_assign_switch inst2 (some v) p2.one p2.scale = some (.ok nv)) :
    bc_program_assign p2 inst2 =
      .ok { writeNum p2 loc nv with
            results := (writeNum p2 loc nv).results.take base.length ++
              [⟨.INTERMEDIATE, .num nv⟩] } () := by
  have hlen : p2.results.length = base.length + 2 := by rw [hres]; simp
  have h0 : p2.results[base.length]? = some ⟨.VAR, .id x i0⟩ := by
    rw [hres]; exact getElem?_append_two_left _ _ _
  have h1 : p2.results[base.length + 1]? = some ⟨.ONE, d⟩ := by
    rw [hres]; exact getElem?_append_two_right _ _ _
  have hprep : bc_program_binaryOpPrep p2 =
      .ok p2 ⟨base.length, loc, base.length + 1, .one⟩ := by
    unfold bc_program_binaryOpPrep bc_vec_item_rev
    simp [hlen, h0, h1, bc_program_num, resolves_search hx, ptrKept_self _ (resolves_live hx)]
  unfold bc_program_assign
  rw [hprep]
  have hro : readNum p2 .one = some p2.one := rfl
  simp only [h0, hv, hro, BC_EXPR_ASSIGN_DIVIDE, hdiv, false_and, if_false, hsw]
  simp only [reduceCtorEq, or_self, if_false, ne_eq, not_false_eq_true, if_true]
  exact (assign_finish_scalar nv hloc hlen).1

/-- Setting of `bc_program_incdec`: a reference to the scalar `x` on top of the
stack, `x` resolving to storage that holds `v`.  After the operand is
materialised and `One` is pushed, `x` still resolves to the same storage, which
lies under the two operands and still holds `v`. -/
theorem incdec_setting {p p1 : BcProgram} {base : List BcResult} {x : String} {i0 : Nat}
    {loc : BcLoc} {v : BcNum}
    (hres : p.results = base ++ [⟨.VAR, .id x i0⟩])
    (hsearch : bc_program_search p x i0 ⟨true, false⟩ = .ok p1 loc)
    (hv : readNum p1 loc = some v) :
    bc_program_unaryOpPrep p = .ok p1 (base.length, loc) ∧
    Extends p p1 ∧
    ({ p1 with results := p1.results ++ [(⟨.ONE, .uninit⟩ : BcResult)] } : BcProgram).results =
      base ++ [⟨.VAR, .id x i0⟩, ⟨.ONE, .uninit⟩] ∧
    Resolves { p1 with results := p1.results ++ [(⟨.ONE, .uninit⟩ : BcResult)] } x loc ∧
    ScalarLoc { p1 with results := p1.results ++ [(⟨.ONE, .uninit⟩ : BcResult)] } base.length loc ∧
    readNum { p1 with results := p1.results ++ [(⟨.ONE, .uninit⟩ : BcResult)] } loc = some v := by
  obtain ⟨hx1, hext, hr1⟩ := search_var_resolves hsearch
  have hp1 : p1.results = base ++ [⟨.VAR, .id x i0⟩] := by rw [hr1, hres]
  have htop : p.results[base.length]? = some ⟨.VAR, .id x i0⟩ := by
    rw [hres]; exact getElem?_append_one _ _
  have hloc : ScalarLoc { p1 with results := p1.results ++ [(⟨.ONE, .uninit⟩ : BcResult)] } base.length loc := by
    rcases resolves_loc hx1 with ⟨j, rfl, hj⟩ | ⟨i, rfl, hi⟩
    · left
      refine ⟨j, rfl, ?_, by simp [hp1]⟩
      rw [hp1] at hj
      simp only [List.length_append, List.length_singleton] at hj
      rcases Nat.lt_or_ge j base.length with hlt | hge
      · exact hlt
      · have hje : j = base.length := by omega
        subst hje
        simp only [readNum, hp1, getElem?_append_one] at hv
        cases hv
    · right; exact ⟨i, rfl, hi⟩
  refine ⟨?_, hext, by simp [hp1], ?_, hloc, ?_⟩
  · unfold bc_program_unaryOpPrep bc_vec_item_rev
    simp [hres, bc_program_num, hsearch]
  · exact resolves_mono hx1 rfl rfl (by simp) (Nat.le_refl _) (fun _ h => h)
  · rcases hloc with ⟨j, rfl, hj, _⟩ | ⟨i, rfl, _⟩
    · simp only [readNum] at hv ⊢
      have hjl : j < p1.results.length := by rw [hp1]; simp; omega
      rw [List.getElem?_append_left hjl]
      exact hv
    · exact hv

/-- C9 (pre-increment and pre-decrement): let the top of the result stack be a
reference to the scalar `x`, let `x` resolve to storage holding `v`, and let the
register `one` hold 1.  Then `bc_program_incdec` with `BC_INST_INC` (resp.
`BC_INST_DEC`) succeeds, leaves `x` holding `v + 1` (resp. `v - 1`), leaves on
top of the result stack an `Intermediate` equal to that new value, and leaves
the length of the result stack unchanged. -/
theorem incdec_pre (p p1 : BcProgram) (base : List BcResult) (x : String) (i0 : Nat)
    (loc : BcLoc) (v : BcNum) (inst : BcInst)
    (hone : p.one = bc_num_one)
    (hres : p.results = base ++ [⟨.VAR, .id x i0⟩])
    (hsearch : bc_program_search p x i0 ⟨true, false⟩ = .ok p1 loc)
    (hv : readNum p1 loc = some v)
    (hinst : inst = .INC ∨ inst = .DEC) :
    ∃ q, bc_program_incdec p inst = .ok q () ∧
      readNum q loc =
        some ⟨if inst = .INC then v.val + 10 ^ v.rdx else v.val - 10 ^ v.rdx, v.rdx, false⟩ ∧
      q.results.getLast? = some ⟨.INTERMEDIATE,
        .num ⟨if inst = .INC then v.val + 10 ^ v.rdx else v.val - 10 ^ v.rdx, v.rdx, false⟩⟩ ∧
      q.results.length = p.results.length := by
  obtain ⟨hprep, hext, hres2, hx2, hloc2, hv2⟩ := incdec_setting hres hsearch hv
  have hincdec : ∀ (i : BcInst), bc_program_incdec p i =
      match (if (decide (i = .INC_DUP ∨ i = .DEC_DUP)) = true then
               (readNum p1 loc).map
                 (fun n => BcResult.mk .INTERMEDIATE (.num (bc_num_init n.len)))
             else some ⟨.INTERMEDIATE, .uninit⟩) with
      | none => .abort
      | some copy =>
        match bc_program_assign
            { p1 with results := p1.results ++ [(⟨.ONE, .uninit⟩ : BcResult)] }
            (if i = .INC ∨ i = .INC_DUP then .OP_ASSIGN_PLUS else .OP_ASSIGN_MINUS) with
        | .abort => .abort
        | .fail s q => .fail s q
        | .ok p3 _ =>
          if (decide (i = .INC_DUP ∨ i = .DEC_DUP)) = true then
            match bc_vec_pop p3.results with
            | none => .fail .VEC_OUT_OF_BOUNDS p3
            | some r => .ok { p3 with results := r ++ [copy] } ()
          else .ok p3 () := by
    intro i
    unfold bc_program_incdec
    rw [hprep]
  have hone2 : ({ p1 with results := p1.results ++ [(⟨.ONE, .uninit⟩ : BcResult)] }
      : BcProgram).one = bc_num_one := hext.one.trans hone
  have hlen2 : ({ p1 with results := p1.results ++ [(⟨.ONE, .uninit⟩ : BcResult)] }
      : BcProgram).results.length = base.length + 2 := by rw [hres2]; simp
  have hplen : p.results.length = base.length + 1 := by rw [hres]; simp
  generalize ({ p1 with results := p1.results ++ [(⟨.ONE, .uninit⟩ : BcResult)] }
      : BcProgram) = p2 at hres2 hx2 hloc2 hv2 hincdec hone2 hlen2
  rcases hinst with rfl | rfl
  · have hsw : bc_program_assign_switch .OP_ASSIGN_PLUS (some v) p2.one p2.scale =
        some (.ok ⟨v.val + 10 ^ v.rdx, v.rdx, false⟩) := by
      simp only [bc_program_assign_switch, bc_program_assignOp, hone2, add_one]
    have hassign := assign_scalar_one hres2 hx2 hloc2 hv2 (by decide) hsw
    have key := assign_finish_scalar ⟨v.val + 10 ^ v.rdx, v.rdx, false⟩ hloc2 hlen2
    refine ⟨_, ?_, key.2, ?_, ?_⟩
    · rw [hincdec]
      simp only [reduceCtorEq, or_self, decide_False, Bool.false_eq_true, if_false, true_or,
        if_true, hassign]
    · simp
    · simp [write_result_length, hlen2, hplen, List.length_take]
  · have hsw : bc_program_assign_switch .OP_ASSIGN_MINUS (some v) p2.one p2.scale =
        some (.ok ⟨v.val - 10 ^ v.rdx, v.rdx, false⟩) := by
      simp only [bc_program_assign_switch, bc_program_assignOp, hone2, sub_one]
    have hassign := assign_scalar_one hres2 hx2 hloc2 hv2 (by decide) hsw
    have key := assign_finish_scalar ⟨v.val - 10 ^ v.rdx, v.rdx, false⟩ hloc2 hlen2
    refine ⟨_, ?_, key.2, ?_, ?_⟩
    · rw [hincdec]
      simp only [reduceCtorEq, or_self, decide_False, Bool.false_eq_true, if_false,
        hassign]
    · simp
    · simp [write_result_length, hlen2, hplen, List.length_take]

/-- C9, an instance: `++x` at `x = 5` leaves `x` holding 6 and 6 on top of a
stack of one slot. -/
theorem incdec_pre_witness :
    ∃ q, bc_program_incdec incState .INC = .ok q () ∧
      readNum q (.var 0) = some ⟨6, 0, false⟩ ∧
      q.results.getLast? = some ⟨.INTERMEDIATE, .num ⟨6, 0, false⟩⟩ ∧
      q.results.length = incState.results.length :=
  incdec_pre incState incState [] "x" 0 (.var 0) ⟨5, 0, false⟩ .INC rfl rfl (by decide) (by decide)
    (Or.inl rfl)

/-! ## The compound assignment law -/

theorem assignOp_eq_binary {inst op : BcInst} (h : binaryOfAssign inst = some op) :
    (if op ≠ .OP_POWER then bc_program_math_ops op else some bc_num_pow) =
      bc_program_assignOp inst ∧
    ∃ f, bc_program_assignOp inst = some f ∧
      ∀ (l rv : BcNum) (scale : Nat),
        bc_program_assign_switch inst (some l) rv scale = some (f l rv scale) := by
  cases inst <;> simp [binaryOfAssign] at h <;> subst h <;>
    simp [bc_program_math_ops, bc_program_assignOp, bc_program_assign_switch]

/-- A plain assignment of the number `r` to the scalar `x`, on a stack
`base ++ [reference to x, r]`: the store, then the end of the assignment. -/
theorem assign_plain_scalar {s : BcProgram} {base : List BcResult} {x : String} {i0 : Nat}
    {loc : BcLoc} {r : BcNum}
    (hres : s.results = base ++ [⟨.VAR, .id x i0⟩, ⟨.INTERMEDIATE, .num r⟩])
    (hx : Resolves s x loc) :
    bc_program_assign s .OP_ASSIGN = bc_program_assign_finish (writeNum s loc r) loc := by
  have hlen : s.results.length = base.length + 2 := by rw [hres]; simp
  have h0 : s.results[base.length]? = some ⟨.VAR, .id x i0⟩ := by
    rw [hres]; exact getElem?_append_two_left _ _ _
  have h1 : s.results[base.length + 1]? = some ⟨.INTERMEDIATE, .num r⟩ := by
    rw [hres]; exact getElem?_append_two_right _ _ _
  have hprep : bc_program_binaryOpPrep s =
      .ok s ⟨base.length, loc, base.length + 1, .result (base.length + 1)⟩ := by
    unfold bc_program_binaryOpPrep bc_vec_item_rev
    simp [hlen, h0, h1, bc_program_num, resolves_search hx, ptrKept_self _ (resolves_live hx)]
  have hrr : readNum s (.result (base.length + 1)) = some r := by
    simp only [readNum, h1]
  unfold bc_program_assign
  rw [hprep]
  simp only [h0, hrr, BC_EXPR_ASSIGN_DIVIDE, bc_program_assign_switch, bc_num_copy]
  simp

theorem take_append_two {α : Type} (l : List α) (h : Nat) (a b : α) (hl : h ≤ l.length) :
    (l.take h ++ [a, b]).take h = l.take h := by
  have : (l.take h).length = h := by rw [List.length_take]; omega
  rw [List.take_append_of_le_length (by omega), List.take_take]
  simp

/-- The end of an assignment to a scalar does not depend on what the two
operand slots hold: a program that differs only in those two slots ends in the
same program. -/
theorem assign_finish_agree {P : BcProgram} {h : Nat} {a b : BcResult} {loc : BcLoc}
    (r : BcNum) (hP : P.results.length = h + 2)
    (hloc : (∃ j, loc = .result j ∧ j < h + 2) ∨ (∃ i, loc = .var i ∧ i < P.vars.length)) :
    bc_program_assign_finish (writeNum P loc r) loc =
      bc_program_assign_finish
        (writeNum { P with results := P.results.take h ++ [a, b] } loc r) loc := by
  have hSlen : ({ P with results := P.results.take h ++ [a, b] } : BcProgram).results.length
      = h + 2 := by simp [List.length_take, hP]
  rcases hloc with ⟨j, rfl, hj⟩ | ⟨i, rfl, hi⟩
  · have hjP : j < P.results.length := by omega
    have hjS : j < ({ P with results := P.results.take h ++ [a, b] } : BcProgram).results.length := by
      rw [hSlen]; exact hj
    have hrP := read_write_result r (List.getElem?_eq_getElem hjP)
    have hrS := read_write_result r (List.getElem?_eq_getElem hjS)
    have hwP : (writeNum P (.result j) r).results.length = h + 2 := by
      rw [write_result_length]; exact hP
    have hwS : (writeNum { P with results := P.results.take h ++ [a, b] } (.result j) r).results.length
        = h + 2 := by
      rw [write_result_length]; exact hSlen
    rw [assign_finish_eq _ _ r hrP (by omega), assign_finish_eq _ _ r hrS (by omega),
      dropLast_two_eq_take _ h hwP, dropLast_two_eq_take _ h hwS]
    simp only [writeNum, List.getElem?_eq_getElem hjP, List.getElem?_eq_getElem hjS,
      List.set_take]
    rw [take_append_two _ _ _ _ (by omega)]
    rcases Nat.lt_or_ge j h with hlt | hge
    · have hjt : j < (P.results.take h).length := by rw [List.length_take]; omega
      have : (List.take h P.results ++ [a, b])[j] = P.results[j] := by
        rw [List.getElem_append_left hjt, List.getElem_take]
      simp only [this]
    · have hle : (P.results.take h).length ≤ j := by rw [List.length_take]; omega
      rw [List.set_eq_of_length_le hle, List.set_eq_of_length_le hle]
  · have hrP : readNum (writeNum P (.var i) r) (.var i) = some r := by
      simp only [writeNum, readNum]; rw [List.getElem?_set_self hi]
    have hrS : readNum (writeNum { P with results := P.results.take h ++ [a, b] } (.var i) r)
        (.var i) = some r := by
      simp only [writeNum, readNum]; rw [List.getElem?_set_self hi]
    rw [assign_finish_eq _ _ r hrP (by rw [write_result_length]; omega),
      assign_finish_eq _ _ r hrS (by rw [write_result_length, hSlen]; omega),
      dropLast_two_eq_take _ h (by rw [write_result_length]; exact hP),
      dropLast_two_eq_take _ h (by rw [write_result_length]; exact hSlen)]
    simp only [writeNum]
    rw [take_append_two _ _ _ _ (by omega)]

/-- The compound assignment law where the pointer to the left number is kept:
let the result stack end with a reference to the scalar `x` and a right operand
`y`, let both materialise, with `x` read as `lv` through the pointer handed back
and `y` being `rv` (for `/=` and `%=`, `rv` not equal to zero).  Then for
each of the six compound opcodes, `bc_program_assign` returns exactly what
`x = x op y` returns (`assignByBinaryOp`): the same status and the same program,
so `x` holds the same value and the same result is pushed.  When the library
operation yields `r`, both succeed with `r` pushed in place of the operands,
and with `x` holding `r` provided the storage of `x` is not the slot of the
right operand. -/
theorem compound_assign_law (p p1 : BcProgram) (base : List BcResult) (x : String) (i0 : Nat)
    (y : BcResult) (o : BcOperands) (inst op : BcInst) (lv rv : BcNum)
    (hres : p.results = base ++ [⟨.VAR, .id x i0⟩, y])
    (hop : binaryOfAssign inst = some op)
    (hprep : bc_program_binaryOpPrep p = .ok p1 o)
    (hlv : readNum p1 o.lval = some lv)
    (hrv : readNum p1 o.rval = some rv)
    (hy : (inst = .OP_ASSIGN_DIVIDE ∨ inst = .OP_ASSIGN_MODULUS) → bc_num_cmp rv p.zero ≠ 0) :
    bc_program_assign p inst = assignByBinaryOp p inst ∧
    ∀ f r, bc_program_assignOp inst = some f → f lv rv p.scale = .ok r →
      ∃ q, bc_program_assign p inst = .ok q () ∧
        q.results.getLast? = some ⟨.INTERMEDIATE, .num r⟩ ∧
        q.results.length + 1 = p.results.length ∧
        ((∀ j, o.lval = .result j → j < base.length) → readNum q o.lval = some r) := by
  have hlen : p.results.length = base.length + 2 := by rw [hres]; simp
  have h0 : p.results[base.length]? = some ⟨.VAR, .id x i0⟩ := by
    rw [hres]; exact getElem?_append_two_left _ _ _
  have hl : bc_vec_item_rev p.results 1 = some ⟨.VAR, .id x i0⟩ := by
    unfold bc_vec_item_rev
    have h1 : 1 < p.results.length := by omega
    have h2 : p.results.length - 1 - 1 = base.length := by omega
    rw [if_pos h1, h2]; exact h0
  obtain ⟨hext, _, hleft, hright⟩ := (binaryOpPrep_outcome p).1 p1 o hprep
  obtain ⟨pa, hnumL, hnumR, _, _, _⟩ := binaryOpPrep_split hprep hl (read_live hlv)
  have hsearch : bc_program_search p x i0 ⟨true, false⟩ = .ok pa o.lval := by
    have : p.results.length - 2 = base.length := by omega
    rw [this] at hnumL
    simpa [bc_program_num, h0] using hnumL
  obtain ⟨hxa, _, _⟩ := search_var_resolves hsearch
  have hx1 : Resolves p1 x o.lval := resolves_extends hxa ((num_outcome _ _ _).1 _ _ hnumR)
  have hp1len : p1.results.length = base.length + 2 := by rw [hext.rlen]; exact hlen
  have hlocw : (∃ j, o.lval = .result j ∧ j < base.length + 2) ∨
      (∃ i, o.lval = .var i ∧ i < p1.vars.length) := by
    rcases resolves_loc hx1 with ⟨j, hj, hjl⟩ | hvar
    · exact Or.inl ⟨j, hj, by omega⟩
    · exact Or.inr hvar
  obtain ⟨l2, hl2, ht2⟩ := binaryOpPrep_left hprep hl
  have hty : l2.type = .VAR := by
    rcases ht2 with h | ⟨h, _⟩
    · exact h
    · cases h
  obtain ⟨hsel, f, hf, hsw⟩ := assignOp_eq_binary hop
  have hg : ¬ (inst = BC_EXPR_ASSIGN_DIVIDE ∧ bc_num_cmp rv p1.zero = 0) := by
    rintro ⟨hi, hc⟩
    rw [hext.zero] at hc
    exact hy (Or.inl hi) hc
  have hL : bc_program_assign p inst =
      match f lv rv p1.scale with
      | .error e => .fail e p1
      | .ok r => bc_program_assign_finish (writeNum p1 o.lval r) o.lval := by
    unfold bc_program_assign
    rw [hprep]
    simp only [hl2, hty, hrv, hlv, hg, hsw]
    simp only [reduceCtorEq, or_self, if_false, ne_eq, not_false_eq_true, if_true]
    cases f lv rv p1.scale <;> rfl
  have hO : bc_program_op p op =
      match f lv rv p1.scale with
      | .error e => .fail e p1
      | .ok r => .ok { p1 with results := p1.results.take base.length ++
                          [⟨.INTERMEDIATE, .num r⟩] } () := by
    unfold bc_program_op
    rw [hprep]
    simp only [hlv, hrv, hsel, hf]
    cases f lv rv p1.scale with
    | error e => rfl
    | ok r =>
      simp only
      rw [binaryOpRetire_eq _ _ _ (by omega), dropLast_two_eq_take _ _ hp1len]
  have hR : assignByBinaryOp p inst =
      match f lv rv p1.scale with
      | .error e => .fail e p1
      | .ok r => bc_program_assign_finish (writeNum p1 o.lval r) o.lval := by
    unfold assignByBinaryOp
    simp only [hl, hop, hO]
    cases f lv rv p1.scale with
    | error e => rfl
    | ok r =>
      simp only [List.getLast?_concat, List.dropLast_concat]
      have hres3 : ({ p1 with results := p1.results.take base.length ++
            [⟨.VAR, .id x i0⟩, ⟨.INTERMEDIATE, .num r⟩] } : BcProgram).results =
          p1.results.take base.length ++ [⟨.VAR, .id x i0⟩, ⟨.INTERMEDIATE, .num r⟩] := rfl
      have hx3 : Resolves { p1 with results := p1.results.take base.length ++
            [⟨.VAR, .id x i0⟩, ⟨.INTERMEDIATE, .num r⟩] } x o.lval :=
        resolves_mono hx1 rfl rfl (by simp [List.length_take, hp1len]) (Nat.le_refl _)
          (fun _ h => h)
      rw [assign_plain_scalar hres3 hx3]
      exact (assign_finish_agree r hp1len hlocw).symm
  refine ⟨hL.trans hR.symm, ?_⟩
  intro f2 r hf2 hfr
  rw [hf] at hf2
  simp only [Option.some.injEq] at hf2
  subst hf2
  rw [← hext.scale] at hfr
  rw [hL, hfr]
  simp only
  have hrw : readNum (writeNum p1 o.lval r) o.lval = some r := by
    rcases hlocw with ⟨j, hj, hjl⟩ | ⟨i, hi, hil⟩
    · rw [hj]; exact read_write_result r (List.getElem?_eq_getElem (by omega))
    · rw [hi]; simp only [writeNum, readNum]; rw [List.getElem?_set_self hil]
  have hwl : (writeNum p1 o.lval r).results.length = base.length + 2 := by
    rw [write_result_length]; exact hp1len
  rw [assign_finish_eq _ _ r hrw (by omega), dropLast_two_eq_take _ _ hwl]
  refine ⟨_, rfl, ?_, ?_, ?_⟩
  · simp
  · simp [List.length_take, hwl, hlen]
  · intro hunder
    have hsl : ScalarLoc p1 base.length o.lval := by
      rcases hlocw with ⟨j, hj, _⟩ | hvar
      · exact Or.inl ⟨j, hj, hunder j hj, by omega⟩
      · exact Or.inr hvar
    exact (assign_finish_scalar r hsl hp1len).2

/-- An instance of the law: `x /= 2` at `x = 5` and scale 0 does what `x = x / 2`
does, and leaves `x` holding 2. -/
theorem compound_assign_law_witness :
    bc_program_assign (xAssignState ⟨2, 0, false⟩) .OP_ASSIGN_DIVIDE =
      assignByBinaryOp (xAssignState ⟨2, 0, false⟩) .OP_ASSIGN_DIVIDE ∧
    (bc_program_assign (xAssignState ⟨2, 0, false⟩) .OP_ASSIGN_DIVIDE).prog.bind
      (fun q => readNum q (.var 0)) = some ⟨2, 0, false⟩ :=
  ⟨(compound_assign_law (xAssignState ⟨2, 0, false⟩) (xAssignState ⟨2, 0, false⟩) [] "x" 0
      ⟨.INTERMEDIATE, .num ⟨2, 0, false⟩⟩ ⟨0, .var 0, 1, .result 1⟩ .OP_ASSIGN_DIVIDE .OP_DIVIDE
      ⟨5, 0, false⟩ ⟨2, 0, false⟩ rfl rfl (by decide) (by decide) (by decide) (by decide)).1,
   by decide⟩

/-! ## Relational and boolean operators -/

theorem dropLast_two_take {α : Type} (w : List α) :
    w.dropLast.dropLast = w.take (w.length - 2) := by
  rw [List.dropLast_eq_take, List.dropLast_eq_take, List.take_take]
  simp only [List.length_take]
  congr 1
  omega

/-- The relational and boolean opcodes where the pointer to the left number is
kept: with the operands materialised and read as the values `l` (second from
top) and `r` (top), `bc_program_logical` replaces the
two operands by one `Intermediate` that is the number 1 or the number 0, and it
is 1 exactly when the opcode's condition holds of `l` and `r`: the three-way
comparison is `== 0`, `<= 0`, `>= 0`, `!= 0`, `< 0`, `> 0` for the six
relational opcodes, both values are nonzero for `BOOL_AND`, one of them is for
`BOOL_OR`. -/
theorem logical_result (p p1 : BcProgram) (o : BcOperands) (inst : BcInst) (l r : BcNum)
    (hz : p.zero = bc_num_zero)
    (hinst : inst ∈ [BcInst.OP_REL_EQUAL, .OP_REL_LESS_EQ, .OP_REL_GREATER_EQ, .OP_REL_NOT_EQ,
      .OP_REL_LESS, .OP_REL_GREATER, .OP_BOOL_AND, .OP_BOOL_OR])
    (hprep : bc_program_binaryOpPrep p = .ok p1 o)
    (hl : readNum p1 o.lval = some l) (hr : readNum p1 o.rval = some r) :
    ∃ v, bc_program_logical p inst =
        .ok { p1 with
              results := p1.results.take (p1.results.length - 2) ++ [⟨.INTERMEDIATE, .num v⟩] }
          () ∧
      p1.results.length = p.results.length ∧ 2 ≤ p.results.length ∧
      (v = bc_num_one ∨ v = bc_num_zero) ∧
      (v = bc_num_one ↔ logicalHolds inst l r) := by
  obtain ⟨hext, h2, -, -⟩ := (binaryOpPrep_outcome p).1 p1 o hprep
  have hz1 : p1.zero = bc_num_zero := by rw [hext.zero, hz]
  have h21 : 2 ≤ p1.results.length := by rw [hext.rlen]; exact h2
  have hne : bc_num_one ≠ bc_num_zero := by decide
  have key : ∀ (c : Bool) (P : Prop), (c = true ↔ P) →
      bc_program_logical_cond inst l r p1.zero = some c →
      ∃ v, bc_program_logical p inst =
        .ok { p1 with
              results := p1.results.take (p1.results.length - 2) ++ [⟨.INTERMEDIATE, .num v⟩] }
          () ∧
      p1.results.length = p.results.length ∧ 2 ≤ p.results.length ∧
      (v = bc_num_one ∨ v = bc_num_zero) ∧ (v = bc_num_one ↔ P) := by
    intro c P hcP hc
    refine ⟨if c then bc_num_one else bc_num_zero, ?_, hext.rlen, h2, ?_, ?_⟩
    · unfold bc_program_logical
      rw [hprep]
      simp only [hl, hr, hc]
      rw [binaryOpRetire_eq p1 _ _ h21, dropLast_two_take]
    · cases c
      · exact Or.inr rfl
      · exact Or.inl rfl
    · cases c
      · have hnP : ¬ P := fun hp => Bool.noConfusion (hcP.mpr hp)
        simp only [Bool.false_eq_true, if_false]
        exact ⟨fun h => absurd h.symm hne, fun h => absurd h hnP⟩
      · have hP : P := hcP.mp rfl
        simp only [if_true]
        exact ⟨fun _ => hP, fun _ => trivial⟩
  simp only [List.mem_cons, List.mem_singleton, List.not_mem_nil, or_false] at hinst
  rcases hinst with h | h | h | h | h | h | h | h <;> subst h
  · exact key (decide (bc_num_cmp l r = 0)) _ (by simp [logicalHolds])
      (by simp [bc_program_logical_cond])
  · exact key (decide (bc_num_cmp l r ≤ 0)) _ (by simp [logicalHolds])
      (by simp [bc_program_logical_cond])
  · exact key (decide (bc_num_cmp l r ≥ 0)) _ (by simp [logicalHolds])
      (by simp [bc_program_logical_cond])
  · exact key (decide (bc_num_cmp l r ≠ 0)) _ (by simp [logicalHolds])
      (by simp [bc_program_logical_cond])
  · exact key (decide (bc_num_cmp l r < 0)) _ (by simp [logicalHolds])
      (by simp [bc_program_logical_cond])
  · exact key (decide (bc_num_cmp l r > 0)) _ (by simp [logicalHolds])
      (by simp [bc_program_logical_cond])
  · refine key (decide (bc_num_cmp l p1.zero ≠ 0) && decide (bc_num_cmp r p1.zero ≠ 0)) _ ?_
      (by simp [bc_program_logical_cond])
    rw [hz1]
    simp [logicalHolds, cmp_zero]
  · refine key (decide (bc_num_cmp l p1.zero ≠ 0) || decide (bc_num_cmp r p1.zero ≠ 0)) _ ?_
      (by simp [bc_program_logical_cond])
    rw [hz1]
    simp [logicalHolds, cmp_zero]

/-- An instance: `3 < 5` on the initial image replaces the two operands by
the number 1. -/
theorem logical_result_witness :
    ∃ v, bc_program_logical (assignState ⟨.INTERMEDIATE, .num ⟨3, 0, false⟩⟩ ⟨5, 0, false⟩) .OP_REL_LESS =
        .ok { assignState ⟨.INTERMEDIATE, .num ⟨3, 0, false⟩⟩ ⟨5, 0, false⟩ with
              results := (assignState ⟨.INTERMEDIATE, .num ⟨3, 0, false⟩⟩ ⟨5, 0, false⟩).results.take
                ((assignState ⟨.INTERMEDIATE, .num ⟨3, 0, false⟩⟩ ⟨5, 0, false⟩).results.length - 2) ++
                  [⟨.INTERMEDIATE, .num v⟩] }
          () ∧
      (assignState ⟨.INTERMEDIATE, .num ⟨3, 0, false⟩⟩ ⟨5, 0, false⟩).results.length =
        (assignState ⟨.INTERMEDIATE, .num ⟨3, 0, false⟩⟩ ⟨5, 0, false⟩).results.length ∧
      2 ≤ (assignState ⟨.INTERMEDIATE, .num ⟨3, 0, false⟩⟩ ⟨5, 0, false⟩).results.length ∧
      (v = bc_num_one ∨ v = bc_num_zero) ∧
      (v = bc_num_one ↔ logicalHolds .OP_REL_LESS ⟨3, 0, false⟩ ⟨5, 0, false⟩) :=
  logical_result (assignState ⟨.INTERMEDIATE, .num ⟨3, 0, false⟩⟩ ⟨5, 0, false⟩)
    (assignState ⟨.INTERMEDIATE, .num ⟨3, 0, false⟩⟩ ⟨5, 0, false⟩) ⟨0, .result 0, 1, .result 1⟩ .OP_REL_LESS
    ⟨3, 0, false⟩ ⟨5, 0, false⟩ rfl (by decide) (by decide) (by decide) (by decide)

/-! ## Scope lookup -/

theorem findAuto_name {name : String} : ∀ {autos : List BcAuto} {i : Nat} {a : BcAuto},
    findAuto name autos = some (i, a) → a.name = name ∧ autos[i]? = some a := by
  intro autos
  induction autos with
  | nil => intro i a h; simp [findAuto] at h
  | cons b rest ih =>
    intro i a h
    simp only [findAuto] at h
    by_cases hb : b.name = name
    · simp only [hb, if_true, Option.some.injEq, Prod.mk.injEq] at h
      obtain ⟨h1, h2⟩ := h
      subst h1; subst h2
      exact ⟨hb, by simp⟩
    · simp only [hb, if_false] at h
      cases hf : findAuto name rest with
      | none => rw [hf] at h; simp at h
      | some r =>
        rw [hf] at h
        simp only [Option.map_some', Option.some.injEq, Prod.mk.injEq] at h
        obtain ⟨h1, h2⟩ := h
        subst h1; subst h2
        have := ih (i := r.1) (a := r.2) (by rw [hf])
        exact ⟨this.1, by simpa using this.2⟩

/-- The inner loop of the lookup stops at the first auto that has the name:
its outcome is the outcome on that auto alone. -/
theorem search_autos_find (p : BcProgram) (ip : BcInstPtr) (name : String) (ridx : Nat)
    (flags : BcSearchFlags) : ∀ (autos : List BcAuto) (idx : Nat),
    bc_program_search_autos p ip name ridx flags autos idx =
      match findAuto name autos with
      | none => none
      | some found => bc_program_search_autos p ip name ridx flags [found.2] (idx + found.1) := by
  intro autos
  induction autos with
  | nil => intro idx; rfl
  | cons b rest ih =>
    intro idx
    by_cases hb : b.name = name
    · simp only [findAuto, hb, if_true, Nat.add_zero]
      unfold bc_program_search_autos
      simp only [hb, if_true]
    · rw [bc_program_search_autos]
      simp only [hb, if_false, findAuto]
      rw [ih (idx + 1)]
      cases hf : findAuto name rest with
      | none => rfl
      | some r =>
        simp only [Option.map_some']
        rw [Nat.add_assoc, Nat.add_comm 1 r.1]

/-- On an auto that has the name the inner loop returns. -/
theorem search_autos_single (p : BcProgram) (ip : BcInstPtr) (name : String) (ridx : Nat)
    (flags : BcSearchFlags) (a : BcAuto) (k : Nat) (ha : a.name = name) :
    ∃ r, bc_program_search_autos p ip name ridx flags [a] k = some r := by
  unfold bc_program_search_autos
  simp only [ha, if_true]
  split
  · exact ⟨_, rfl⟩
  · split
    · exact ⟨_, rfl⟩
    · split
      · exact ⟨_, rfl⟩
      · split <;> exact ⟨_, rfl⟩

/-- The outer loop of the lookup follows the scope walk. -/
theorem search_frames_walk (p : BcProgram) (name : String) (ridx : Nat) (flags : BcSearchFlags) :
    ∀ (fs : List BcInstPtr), (∀ ip ∈ fs, ip.func < p.funcs.length) →
    bc_program_search_frames p name ridx flags fs =
      match scopeWalk p.funcs name fs with
      | none => none
      | some found => bc_program_search_autos p found.1 name ridx flags [found.2.2] found.2.1 := by
  intro fs
  induction fs with
  | nil => intro _; rfl
  | cons ip rest ih =>
    intro hv
    have hrest : ∀ ip2 ∈ rest, ip2.func < p.funcs.length :=
      fun ip2 h2 => hv ip2 (List.mem_cons_of_mem _ h2)
    have hip : ip.func < p.funcs.length := hv ip (List.mem_cons_self _ _)
    unfold bc_program_search_frames scopeWalk
    by_cases hm : ip.func = BC_PROGRAM_READ ∨ ip.func = BC_PROGRAM_MAIN
    · have hm2 : ip.func = BC_PROGRAM_MAIN ∨ ip.func = BC_PROGRAM_READ := hm.symm
      simp only [hm, hm2, if_true]
      exact ih hrest
    · have hm2 : ¬ (ip.func = BC_PROGRAM_MAIN ∨ ip.func = BC_PROGRAM_READ) :=
        fun h => hm h.symm
      simp only [hm, hm2, if_false]
      rw [List.getElem?_eq_getElem hip]
      simp only [Option.some_bind]
      rw [search_autos_find]
      cases hf : findAuto name (p.funcs[ip.func]).autos with
      | none => simp only; exact ih hrest
      | some found =>
        simp only [Nat.zero_add]
        obtain ⟨r, hr⟩ := search_autos_single p ip name ridx flags found.2 found.1
          (findAuto_name (i := found.1) (a := found.2) (by rw [hf])).1
        rw [hr]

theorem scopeWalk_append_skip (funcs : List BcFunc) (name : String) (b : BcInstPtr)
    (hb : b.func = BC_PROGRAM_MAIN ∨ b.func = BC_PROGRAM_READ) :
    ∀ (fs : List BcInstPtr), scopeWalk funcs name (fs ++ [b]) = scopeWalk funcs name fs := by
  intro fs
  induction fs with
  | nil => simp [scopeWalk, hb]
  | cons ip rest ih =>
    have ih2 : scopeWalk funcs name (rest.append [b]) = scopeWalk funcs name rest := ih
    simp only [List.cons_append, scopeWalk, ih2, ih]

/-- With a frame of `main` at the bottom, the frames the lookup visits give the
same scope walk as all the frames. -/
theorem firstAuto_searchFrames {p : BcProgram} (hok : FramesOk p) (name : String) :
    scopeWalk p.funcs name (searchFrames p) = firstAuto p name := by
  obtain ⟨⟨ip0, rest, hs, hb⟩, _⟩ := hok
  unfold firstAuto searchFrames
  rw [hs]
  simp only [List.reverse_cons, List.length_cons, Nat.add_sub_cancel]
  rw [scopeWalk_append_skip _ _ _ hb]
  congr 1
  rw [List.take_append_of_le_length (by simp)]
  simp

theorem scopeWalk_name {funcs : List BcFunc} {name : String} :
    ∀ {fs : List BcInstPtr} {ip : BcInstPtr} {i : Nat} {a : BcAuto},
    scopeWalk funcs name fs = some (ip, i, a) →
      a.name = name ∧ ip ∈ fs ∧ ¬ (ip.func = BC_PROGRAM_MAIN ∨ ip.func = BC_PROGRAM_READ) ∧
      ∃ f, funcs[ip.func]? = some f ∧ f.autos[i]? = some a := by
  intro fs
  induction fs with
  | nil => intro ip i a h; simp [scopeWalk] at h
  | cons ip0 rest ih =>
    intro ip i a h
    unfold scopeWalk at h
    by_cases hm : ip0.func = BC_PROGRAM_MAIN ∨ ip0.func = BC_PROGRAM_READ
    · simp only [hm, if_true] at h
      obtain ⟨h1, h2, h3⟩ := ih h
      exact ⟨h1, List.mem_cons_of_mem _ h2, h3⟩
    · simp only [hm, if_false] at h
      cases hf : (funcs[ip0.func]?).bind (fun f => findAuto name f.autos) with
      | none =>
        rw [hf] at h
        obtain ⟨h1, h2, h3⟩ := ih h
        exact ⟨h1, List.mem_cons_of_mem _ h2, h3⟩
      | some found =>
        rw [hf] at h
        simp only [Option.some.injEq, Prod.mk.injEq] at h
        obtain ⟨h1, h2, h3⟩ := h
        subst h1; subst h2; subst h3
        cases hg : funcs[ip0.func]? with
        | none => rw [hg] at hf; simp at hf
        | some f =>
          rw [hg] at hf
          simp only [Option.some_bind] at hf
          have := findAuto_name (i := found.1) (a := found.2) hf
          exact ⟨this.1, List.mem_cons_self _ _, hm, f, rfl, this.2⟩

theorem findAuto_name_of_walk {p : BcProgram} {name : String} {ip : BcInstPtr} {i : Nat}
    {a : BcAuto} (h : firstAuto p name = some (ip, i, a)) :
    a.name = name ∧ ip ∈ p.stack ∧ ∃ f, p.funcs[ip.func]? = some f ∧ f.autos[i]? = some a := by
  obtain ⟨h1, h2, _, h4⟩ := scopeWalk_name h
  exact ⟨h1, by simpa using h2, h4⟩

/-- No frame has an auto of the name: the lookup goes to the global table. -/
theorem search_of_firstAuto_none {p : BcProgram} (hok : FramesOk p) (name : String) (ridx : Nat)
    (flags : BcSearchFlags) (h : firstAuto p name = none) :
    bc_program_search p name ridx flags = bc_program_search_global p name ridx flags := by
  have hne : p.stack ≠ [] := by
    obtain ⟨⟨ip0, rest, hs, _⟩, _⟩ := hok
    rw [hs]; simp
  have hv : ∀ ip ∈ searchFrames p, ip.func < p.funcs.length := by
    intro ip hip
    exact hok.2 ip (by
      have := List.mem_of_mem_take hip
      simpa using this)
  have hw := search_frames_walk p name ridx flags (searchFrames p) hv
  rw [firstAuto_searchFrames hok, h] at hw
  unfold bc_program_search
  simp only [hne, if_false]
  unfold searchFrames at hw
  rw [hw]

/-- Some frame has an auto of the name: the lookup is decided by the first
one. -/
theorem search_of_firstAuto_some {p : BcProgram} (hok : FramesOk p) (name : String) (ridx : Nat)
    (flags : BcSearchFlags) {ip : BcInstPtr} {i : Nat} {a : BcAuto}
    (h : firstAuto p name = some (ip, i, a)) :
    bc_program_search_autos p ip name ridx flags [a] i =
      some (bc_program_search p name ridx flags) := by
  have hne : p.stack ≠ [] := by
    obtain ⟨⟨ip0, rest, hs, _⟩, _⟩ := hok
    rw [hs]; simp
  have hv : ∀ ip ∈ searchFrames p, ip.func < p.funcs.length := by
    intro ip hip
    exact hok.2 ip (by
      have := List.mem_of_mem_take hip
      simpa using this)
  have hw := search_frames_walk p name ridx flags (searchFrames p) hv
  rw [firstAuto_searchFrames hok, h] at hw
  simp only at hw
  unfold bc_program_search
  simp only [hne, if_false]
  unfold searchFrames at hw
  rw [hw]
  have hn := (findAuto_name_of_walk h).1
  obtain ⟨r, hr⟩ := search_autos_single p ip name ridx flags a i hn
  rw [hr]

/-- C14 (scope lookup): on a frame stack whose bottom frame is `main`,
`bc_program_search` follows the scope walk of the spec (frames from the
innermost to the outermost, `main` and `read` skipped, the first auto with the
name).  When the walk finds the auto `i` of the frame `ip` and the reference is
of its kind, the storage is the result-stack slot `ip.len + i` (its number or
array, or, for an element reference, the element `ridx` of the array grown to
hold it); the global tables are neither consulted nor changed then, whatever
they bind the name to.  When the walk finds nothing, the outcome is that of the
global lookup. -/
theorem search_scope (p : BcProgram) (name : String) (ridx : Nat) (flags : BcSearchFlags)
    (hok : FramesOk p) :
    (∀ ip i a r, firstAuto p name = some (ip, i, a) → a.var = flags.var →
      p.results[ip.len + i]? = some r →
      ((flags.var = true ∨ flags.array = true) →
        bc_program_search p name ridx flags = .ok p (.result (ip.len + i))) ∧
      (flags.var = false → flags.array = false → ∀ arr, r.data = .array arr →
        bc_program_search p name ridx flags =
          .ok { p with
                results := p.results.set (ip.len + i)
                  ⟨r.type, .array (bc_array_expand arr (ridx + 1))⟩ }
            (.resultElem (ip.len + i) ridx))) ∧
    (∀ ip i a q loc, firstAuto p name = some (ip, i, a) →
      bc_program_search p name ridx flags = .ok q loc →
      q.vars = p.vars ∧ q.var_map = p.var_map ∧ q.arrays = p.arrays ∧
        q.array_map = p.array_map ∧
        (loc = .result (ip.len + i) ∨ loc = .resultElem (ip.len + i) ridx)) ∧
    (firstAuto p name = none →
      bc_program_search p name ridx flags = bc_program_search_global p name ridx flags) := by
  refine ⟨?_, ?_, fun h => search_of_firstAuto_none hok name ridx flags h⟩
  · intro ip i a r hfirst hkind hr
    have hs := search_of_firstAuto_some hok name ridx flags hfirst
    have hn := (findAuto_name_of_walk hfirst).1
    unfold bc_program_search_autos at hs
    simp only [hn, if_true, hkind, bne_self_eq_false, Bool.false_eq_true, if_false, hr] at hs
    constructor
    · intro hf
      have hb : (flags.var || flags.array) = true := by
        rcases hf with h | h <;> simp [h]
      simp only [hb, if_true, Option.some.injEq] at hs
      exact hs.symm
    · intro hv ha arr hd
      simp only [hv, ha, Bool.or_self, Bool.false_eq_true, if_false, hd, Option.some.injEq] at hs
      exact hs.symm
  · intro ip i a q loc hfirst hq
    have hs := search_of_firstAuto_some hok name ridx flags hfirst
    have hn := (findAuto_name_of_walk hfirst).1
    rw [hq] at hs
    unfold bc_program_search_autos at hs
    simp only [hn, if_true] at hs
    split at hs
    · simp at hs
    · split at hs
      · simp at hs
      · split at hs
        · simp only [Option.some.injEq, BcRet.ok.injEq] at hs
          obtain ⟨h1, h2⟩ := hs
          subst h1
          exact ⟨rfl, rfl, rfl, rfl, Or.inl h2.symm⟩
        · split at hs
          · simp only [Option.some.injEq, BcRet.ok.injEq] at hs
            obtain ⟨h1, h2⟩ := hs
            rw [← h1]
            exact ⟨rfl, rfl, rfl, rfl, Or.inr h2.symm⟩
          · simp at hs

/-- C14, an instance: inside `g` called from `f`, the scalar `x` is the auto of
`g` in slot 2, not the auto of `f` in slot 0 nor the global `x`. -/
theorem search_scope_witness :
    bc_program_search scopeState "x" 0 ⟨true, false⟩ = .ok scopeState (.result (2 + 0)) :=
  ((search_scope scopeState "x" 0 ⟨true, false⟩
      ⟨⟨_, _, rfl, Or.inl rfl⟩, by decide⟩).1 ⟨3, 0, 2⟩ 0 ⟨"x", true⟩
      ⟨.VAR_AUTO, .num ⟨7, 0, false⟩⟩ (by decide) rfl (by decide)).1 (Or.inl rfl)

/-- C16 (kind mismatch): when the first auto the scope walk finds for the name
is of the other kind than the reference (a scalar for an array or element
reference, an array for a scalar reference), `bc_program_search` returns
`EXEC_BAD_TYPE` and leaves the program as it was, whatever the outer frames and
the global tables hold. -/
theorem search_kind_mismatch (p : BcProgram) (name : String) (ridx : Nat)
    (flags : BcSearchFlags) (ip : BcInstPtr) (i : Nat) (a : BcAuto) (hok : FramesOk p)
    (hfirst : firstAuto p name = some (ip, i, a)) (hkind : a.var ≠ flags.var) :
    bc_program_search p name ridx flags = .fail .EXEC_BAD_TYPE p := by
  have hs := search_of_firstAuto_some hok name ridx flags hfirst
  have hn := (findAuto_name_of_walk hfirst).1
  unfold bc_program_search_autos at hs
  have hb : ((!a.var) != (!flags.var)) = true := by
    cases hav : a.var <;> cases hfv : flags.var <;> simp_all
  simp only [hn, if_true, hb, Option.some.injEq] at hs
  exact hs.symm

/-- C16, an instance: inside `g`, whose auto `x` is a scalar, the element
reference `x[0]` is rejected and the image is left as it was. -/
theorem search_kind_mismatch_witness :
    bc_program_search scopeState "x" 0 ⟨false, false⟩ = .fail .EXEC_BAD_TYPE scopeState :=
  search_kind_mismatch scopeState "x" 0 ⟨false, false⟩ ⟨3, 0, 2⟩ 0 ⟨"x", true⟩
    ⟨⟨_, _, rfl, Or.inl rfl⟩, by decide⟩ (by decide) (by decide)

/-! ## Global auto-creation -/

theorem insertSorted_length (e : BcEntry) (m : List BcEntry) :
    (insertSorted e m).1.length = m.length + 1 := by
  induction m with
  | nil => simp [insertSorted]
  | cons y ys ih =>
    simp only [insertSorted]
    split
    · simp [ih]
    · simp

/-- The global part of the lookup of an array or of an array element: an
existing binding is used, a missing one is created with a fresh empty array;
for an element the array is grown to hold it. -/
theorem search_global_array (p : BcProgram) (x : String) (r : Nat) (arr : Bool) :
    bc_program_search_global p x r ⟨false, arr⟩ =
      match entryOf x p.array_map with
      | some e =>
        match p.arrays[e.idx]? with
        | none => .abort
        | some aptr =>
          if arr then .ok p (.array e.idx)
          else .ok { p with arrays := p.arrays.set e.idx (bc_array_expand aptr (r + 1)) }
                 (.arrayElem e.idx r)
      | none =>
        if arr then
          .ok { p with array_map := (insertSorted ⟨x, p.arrays.length⟩ p.array_map).1,
                       arrays := p.arrays ++ [[]] } (.array p.arrays.length)
        else
          .ok { p with array_map := (insertSorted ⟨x, p.arrays.length⟩ p.array_map).1,
                       arrays := p.arrays ++ [bc_array_expand [] (r + 1)] }
            (.arrayElem p.arrays.length r) := by
  unfold bc_program_search_global bc_veco_insert
  simp only [Bool.false_eq_true, if_false]
  cases hp : entryPos x p.array_map with
  | none =>
    have hn : entryOf x p.array_map = none := entryOf_eq_none.mpr hp
    rw [hn]
    cases arr <;> simp [insertSorted_get]
  | some i =>
    have hlt := entryPos_lt hp
    have he : entryOf x p.array_map = p.array_map[i]? := by simp [entryOf, hp]
    rw [he, List.getElem?_eq_getElem hlt]
    simp [List.getElem?_eq_getElem hlt]

theorem firstAuto_congr {p q : BcProgram} (hs : q.stack = p.stack) (hf : q.funcs = p.funcs)
    (name : String) : firstAuto q name = firstAuto p name := by
  unfold firstAuto; rw [hs, hf]

theorem framesOk_congr {p q : BcProgram} (hs : q.stack = p.stack) (hf : q.funcs = p.funcs)
    (h : FramesOk p) : FramesOk q := by
  unfold FramesOk; rw [hs, hf]; exact h

/-- C15 (global auto-creation and stable resolution): when no frame has an auto
of the name and the global table of the reference's kind does not bind it,
`bc_program_search` appends one zero-initialised variable (resp. one array,
empty, or zero-filled up to the element referred to) to that kind's table,
binds the name to its index, and leaves the other kind's table and map alone;
every binding the map had is kept; resolving the name again yields the same
slot and adds no entry. -/
theorem search_creates_global (p : BcProgram) (name : String) (ridx ridx2 : Nat) (arr : Bool)
    (hok : FramesOk p) (hnone : firstAuto p name = none) :
    (entryOf name p.var_map = none →
      ∃ q, bc_program_search p name ridx ⟨true, false⟩ = .ok q (.var p.vars.length) ∧
        q.vars = p.vars ++ [bc_num_zero] ∧
        q.var_map.length = p.var_map.length + 1 ∧
        q.arrays = p.arrays ∧ q.array_map = p.array_map ∧
        entryOf name q.var_map = some ⟨name, p.vars.length⟩ ∧
        (∀ y e, entryOf y p.var_map = some e → entryOf y q.var_map = some e) ∧
        bc_program_search q name ridx2 ⟨true, false⟩ = .ok q (.var p.vars.length)) ∧
    (entryOf name p.array_map = none →
      ∃ q, bc_program_search p name ridx ⟨false, arr⟩ =
          .ok q (if arr then .array p.arrays.length else .arrayElem p.arrays.length ridx) ∧
        q.arrays = p.arrays ++ [if arr then [] else List.replicate (ridx + 1) bc_num_zero] ∧
        q.array_map.length = p.array_map.length + 1 ∧
        q.vars = p.vars ∧ q.var_map = p.var_map ∧
        entryOf name q.array_map = some ⟨name, p.arrays.length⟩ ∧
        (∀ y e, entryOf y p.array_map = some e → entryOf y q.array_map = some e) ∧
        ∃ q2, bc_program_search q name ridx2 ⟨false, arr⟩ =
            .ok q2 (if arr then .array p.arrays.length else .arrayElem p.arrays.length ridx2) ∧
          q2.array_map = q.array_map ∧ q2.arrays.length = q.arrays.length ∧
          q2.vars = q.vars ∧ q2.var_map = q.var_map) := by
  have hq : ∀ q : BcProgram, q.stack = p.stack → q.funcs = p.funcs → ∀ fl,
      bc_program_search q name ridx2 fl = bc_program_search_global q name ridx2 fl :=
    fun q hs hf fl => search_of_firstAuto_none (framesOk_congr hs hf hok) name ridx2 fl
      ((firstAuto_congr hs hf name).trans hnone)
  constructor
  · intro he
    have h1 : bc_program_search p name ridx ⟨true, false⟩ =
        .ok { p with var_map := (insertSorted ⟨name, p.vars.length⟩ p.var_map).1,
                     vars := p.vars ++ [bc_num_init BC_NUM_DEF_SIZE] } (.var p.vars.length) := by
      rw [search_of_firstAuto_none hok name ridx _ hnone, search_global_var, he]
    have hself := entryOf_insertSorted_self ⟨name, p.vars.length⟩ p.var_map he
    refine ⟨_, h1, rfl, insertSorted_length _ _, rfl, rfl, hself, ?_, ?_⟩
    · intro y e hy
      by_cases hyn : name = y
      · subst hyn; rw [he] at hy; cases hy
      · simp only
        rw [entryOf_insertSorted_other y ⟨name, p.vars.length⟩ p.var_map hyn]; exact hy
    · have hQ := hq { p with var_map := (insertSorted ⟨name, p.vars.length⟩ p.var_map).1,
                             vars := p.vars ++ [bc_num_init BC_NUM_DEF_SIZE] } rfl rfl
        ⟨true, false⟩
      rw [hQ, search_global_var]
      simp only [hself]
      simp
  · intro he
    have hself := entryOf_insertSorted_self ⟨name, p.arrays.length⟩ p.array_map he
    have hkeep : ∀ y e, entryOf y p.array_map = some e →
        entryOf y (insertSorted ⟨name, p.arrays.length⟩ p.array_map).1 = some e := by
      intro y e hy
      by_cases hyn : name = y
      · subst hyn; rw [he] at hy; cases hy
      · rw [entryOf_insertSorted_other y ⟨name, p.arrays.length⟩ p.array_map hyn]; exact hy
    have hexp : ∀ n, bc_array_expand [] n = List.replicate n bc_num_zero := by
      intro n; simp [bc_array_expand, bc_num_init, bc_num_zero]
    cases arr with
    | true =>
      have h1 : bc_program_search p name ridx ⟨false, true⟩ =
          .ok { p with array_map := (insertSorted ⟨name, p.arrays.length⟩ p.array_map).1,
                       arrays := p.arrays ++ [[]] } (.array p.arrays.length) := by
        rw [search_of_firstAuto_none hok name ridx _ hnone, search_global_array, he]
        simp
      refine ⟨_, h1, rfl, insertSorted_length _ _, rfl, rfl, hself, hkeep, ?_⟩
      refine ⟨_, ?_, rfl, rfl, rfl, rfl⟩
      have hQ := hq { p with array_map := (insertSorted ⟨name, p.arrays.length⟩ p.array_map).1,
                             arrays := p.arrays ++ [[]] } rfl rfl ⟨false, true⟩
      rw [hQ, search_global_array]
      simp only [hself]
      simp
    | false =>
      have h1 : bc_program_search p name ridx ⟨false, false⟩ =
          .ok { p with array_map := (insertSorted ⟨name, p.arrays.length⟩ p.array_map).1,
                       arrays := p.arrays ++ [bc_array_expand [] (ridx + 1)] }
            (.arrayElem p.arrays.length ridx) := by
        rw [search_of_firstAuto_none hok name ridx _ hnone, search_global_array, he]
        simp
      refine ⟨_, h1, by simp [hexp], insertSorted_length _ _, rfl, rfl, hself, hkeep, ?_⟩
      refine ⟨{ p with array_map := (insertSorted ⟨name, p.arrays.length⟩ p.array_map).1,
                       arrays := (p.arrays ++ [bc_array_expand [] (ridx + 1)]).set p.arrays.length
                         (bc_array_expand (bc_array_expand [] (ridx + 1)) (ridx2 + 1)) },
        ?_, rfl, by simp, rfl, rfl⟩
      have hQ := hq { p with array_map := (insertSorted ⟨name, p.arrays.length⟩ p.array_map).1,
                             arrays := p.arrays ++ [bc_array_expand [] (ridx + 1)] } rfl rfl
        ⟨false, false⟩
      rw [hQ, search_global_array]
      simp only [hself]
      simp

/-- C15, an instance: on the initial image the first reference to the scalar
`y` creates variable 0, and the second reference finds it again. -/
theorem search_creates_global_witness :
    ∃ q, bc_program_search startImage "y" 0 ⟨true, false⟩ = .ok q (.var startImage.vars.length) ∧
      q.vars = startImage.vars ++ [bc_num_zero] ∧
      q.var_map.length = startImage.var_map.length + 1 ∧
      q.arrays = startImage.arrays ∧ q.array_map = startImage.array_map ∧
      entryOf "y" q.var_map = some ⟨"y", startImage.vars.length⟩ ∧
      (∀ y e, entryOf y startImage.var_map = some e → entryOf y q.var_map = some e) ∧
      bc_program_search q "y" 0 ⟨true, false⟩ = .ok q (.var startImage.vars.length) :=
  (search_creates_global startImage "y" 0 0 false ⟨⟨_, _, rfl, Or.inl rfl⟩, by decide⟩
    (by decide)).1 (by decide)

/-! ## Function redefinition -/

theorem vec_npop_all {α : Type} (v : List α) : bc_vec_npop v v.length = some [] := by
  simp [bc_vec_npop]

/-- C18 (function redefinition): with a name the function map already binds,
`bc_program_addFunc` hands back the index bound to it, keeps the length of the
function table, the map and every other function, and leaves that function
with `nparams = 0` and empty autos, code and labels, so that a call of that
index fails with `EXEC_UNDEFINED_FUNC` as long as the table stays so; with a new
name it appends one empty function, binds the name to the previous length of
the table and hands that index back, keeping every earlier binding. -/
theorem addFunc_redefine (p : BcProgram) (name : String) :
    (∀ e f, entryOf name p.func_map = some e → p.funcs[e.idx]? = some f →
      ∃ q, bc_program_addFunc p name = .ok q e.idx ∧
        q.funcs.length = p.funcs.length ∧
        (∀ j, j ≠ e.idx → q.funcs[j]? = p.funcs[j]?) ∧
        q.funcs[e.idx]? = some ⟨[], [], 0, []⟩ ∧
        q.func_map = p.func_map ∧
        (∀ (s : BcProgram) (code : List Nat) (ip : BcInstPtr) (nparams i1 i2 : Nat),
          s.funcs = q.funcs → s.stack.getLast? = some ip →
          bc_program_index code ip.idx = some (nparams, i1) →
          bc_program_index code i1 = some (e.idx, i2) →
          (bc_program_call s code).status = some .EXEC_UNDEFINED_FUNC)) ∧
    (entryOf name p.func_map = none →
      ∃ q, bc_program_addFunc p name = .ok q p.funcs.length ∧
        q.funcs = p.funcs ++ [⟨[], [], 0, []⟩] ∧
        entryOf name q.func_map = some ⟨name, p.funcs.length⟩ ∧
        ∀ y e, entryOf y p.func_map = some e → entryOf y q.func_map = some e) := by
  constructor
  · intro e f he hf
    have hlt : e.idx < p.funcs.length := getElem?_lt hf
    cases hp : entryPos name p.func_map with
    | none => rw [entryOf_eq_none.mpr hp] at he; cases he
    | some i =>
      have hi : p.func_map[i]? = some e := by
        simp only [entryOf, hp, Option.some_bind] at he; exact he
      have h1 : bc_program_addFunc p name =
          .ok { p with funcs := p.funcs.set e.idx ⟨[], [], 0, []⟩ } e.idx := by
        unfold bc_program_addFunc bc_veco_insert
        simp only [hp, hi, hf, vec_npop_all]
        simp
      refine ⟨_, h1, by simp, ?_, ?_, rfl, ?_⟩
      · intro j hj
        simp only
        rw [List.getElem?_set_ne (fun h => hj h.symm)]
      · simp only
        rw [List.getElem?_set_self hlt]
      · intro s code ip nparams i1 i2 hs hip hn hfi
        unfold bc_program_call
        simp only [hip, hn, hfi, hs]
        rw [List.getElem?_set_self hlt]
        simp [BcRet.status]
  · intro he
    have hp : entryPos name p.func_map = none := entryOf_eq_none.mp he
    have hself := entryOf_insertSorted_self ⟨name, p.funcs.length⟩ p.func_map he
    have h1 : bc_program_addFunc p name =
        .ok { p with func_map := (insertSorted ⟨name, p.funcs.length⟩ p.func_map).1,
                     funcs := p.funcs ++ [bc_func_init] } p.funcs.length := by
      unfold bc_program_addFunc bc_veco_insert
      simp only [hp, insertSorted_get]
      simp
    refine ⟨_, h1, rfl, hself, ?_⟩
    intro y e hy
    by_cases hyn : name = y
    · subst hyn; rw [he] at hy; cases hy
    · simp only
      rw [entryOf_insertSorted_other y ⟨name, p.funcs.length⟩ p.func_map hyn]; exact hy

/-- C18, an instance: redefining the function `g` (index 2, one parameter, a
body) hands back 2 and empties the function. -/
theorem addFunc_redefine_witness :
    ∃ q, bc_program_addFunc (arrayCallState ⟨.VAR, .id "a" 0⟩) "g" = .ok q 2 ∧
      q.funcs.length = (arrayCallState ⟨.VAR, .id "a" 0⟩).funcs.length ∧
      (∀ j, j ≠ 2 → q.funcs[j]? = (arrayCallState ⟨.VAR, .id "a" 0⟩).funcs[j]?) ∧
      q.funcs[2]? = some ⟨[], [], 0, []⟩ ∧
      q.func_map = (arrayCallState ⟨.VAR, .id "a" 0⟩).func_map ∧
      (∀ (s : BcProgram) (code : List Nat) (ip : BcInstPtr) (nparams i1 i2 : Nat),
        s.funcs = q.funcs → s.stack.getLast? = some ip →
        bc_program_index code ip.idx = some (nparams, i1) →
        bc_program_index code i1 = some (2, i2) →
        (bc_program_call s code).status = some .EXEC_UNDEFINED_FUNC) :=
  (addFunc_redefine (arrayCallState ⟨.VAR, .id "a" 0⟩) "g").1 ⟨"g", 2⟩
    ⟨[82], [], 1, [⟨"a", false⟩]⟩ (by decide) (by decide)

/-! ## Plain assignment -/

/-- A number that can be read through a pointer can be written through it. -/
theorem read_write_same {p : BcProgram} {loc : BcLoc} {lv : BcNum} (v : BcNum)
    (hr : readNum p loc = some lv) : readNum (writeNum p loc v) loc = some v := by
  cases loc with
  | result i =>
    simp only [readNum] at hr
    cases hi : p.results[i]? with
    | none => rw [hi] at hr; cases hr
    | some r => exact read_write_result v hi
  | resultElem i k =>
    simp only [readNum] at hr
    cases hi : p.results[i]? with
    | none => rw [hi] at hr; cases hr
    | some r =>
      rcases r with ⟨t, d⟩
      rw [hi] at hr
      cases d with
      | array a =>
        simp only at hr
        simp only [writeNum, hi, readNum]
        rw [List.getElem?_set_self (getElem?_lt hi)]
        simp only
        rw [List.getElem?_set_self (getElem?_lt hr)]
      | num n => simp at hr
      | id n j => simp at hr
      | uninit => simp at hr
  | var i =>
    simp only [readNum] at hr
    simp only [writeNum, readNum]
    rw [List.getElem?_set_self (getElem?_lt hr)]
  | array i => simp [readNum] at hr
  | arrayElem i k =>
    simp only [readNum] at hr
    cases hi : p.arrays[i]? with
    | none => rw [hi] at hr; cases hr
    | some a =>
      rw [hi] at hr
      simp only at hr
      simp only [writeNum, hi, readNum]
      rw [List.getElem?_set_self (getElem?_lt hi)]
      simp only
      rw [List.getElem?_set_self (getElem?_lt hr)]
  | last => rfl
  | ibase => rfl
  | obase => rfl
  | one => rfl
  | dangling => cases hr

/-- Writing through a pointer to a number changes no number at another
place. -/
theorem read_write_other {p : BcProgram} {loc loc2 : BcLoc} {lv : BcNum} (v : BcNum)
    (hr : readNum p loc = some lv) (hne : loc2 ≠ loc) :
    readNum (writeNum p loc v) loc2 = readNum p loc2 := by
  cases loc with
  | result i =>
    simp only [readNum] at hr
    cases hi : p.results[i]? with
    | none => rw [hi] at hr; cases hr
    | some r =>
      rcases r with ⟨t, d⟩
      rw [hi] at hr
      cases d with
      | num n =>
        simp only [writeNum, hi]
        cases loc2 with
        | result j =>
          have hji : i ≠ j := fun h => hne (by rw [h])
          simp only [readNum]
          rw [List.getElem?_set_ne hji]
        | resultElem j k =>
          simp only [readNum]
          by_cases hji : i = j
          · subst hji
            rw [List.getElem?_set_self (getElem?_lt hi), hi]
          · rw [List.getElem?_set_ne hji]
        | var j => rfl
        | array j => rfl
        | arrayElem j k => rfl
        | last => rfl
        | ibase => rfl
        | obase => rfl
        | one => rfl
        | dangling => rfl
      | array a => simp at hr
      | id n j => simp at hr
      | uninit => simp at hr
  | resultElem i k =>
    simp only [readNum] at hr
    cases hi : p.results[i]? with
    | none => rw [hi] at hr; cases hr
    | some r =>
      rcases r with ⟨t, d⟩
      rw [hi] at hr
      cases d with
      | array a =>
        simp only [writeNum, hi]
        cases loc2 with
        | result j =>
          simp only [readNum]
          by_cases hji : i = j
          · subst hji
            rw [List.getElem?_set_self (getElem?_lt hi), hi]
          · rw [List.getElem?_set_ne hji]
        | resultElem j k2 =>
          simp only [readNum]
          by_cases hji : i = j
          · subst hji
            have hk : k ≠ k2 := fun h => hne (by rw [h])
            rw [List.getElem?_set_self (getElem?_lt hi), hi]
            simp only
            rw [List.getElem?_set_ne hk]
          · rw [List.getElem?_set_ne hji]
        | var j => rfl
        | array j => rfl
        | arrayElem j k2 => rfl
        | last => rfl
        | ibase => rfl
        | obase => rfl
        | one => rfl
        | dangling => rfl
      | num n => simp at hr
      | id n j => simp at hr
      | uninit => simp at hr
  | var i =>
    cases loc2 with
    | var j =>
      have hji : i ≠ j := fun h => hne (by rw [h])
      simp only [writeNum, readNum]
      rw [List.getElem?_set_ne hji]
    | result j => rfl
    | resultElem j k => rfl
    | array j => rfl
    | arrayElem j k => rfl
    | last => rfl
    | ibase => rfl
    | obase => rfl
    | one => rfl
    | dangling => rfl
  | array i => simp [readNum] at hr
  | arrayElem i k =>
    simp only [readNum] at hr
    cases hi : p.arrays[i]? with
    | none => rw [hi] at hr; cases hr
    | some a =>
      simp only [writeNum, hi]
      cases loc2 with
      | arrayElem j k2 =>
        simp only [readNum]
        by_cases hji : i = j
        · subst hji
          have hk : k ≠ k2 := fun h => hne (by rw [h])
          rw [List.getElem?_set_self (getElem?_lt hi), hi]
          simp only
          rw [List.getElem?_set_ne hk]
        · rw [List.getElem?_set_ne hji]
      | result j => rfl
      | resultElem j k2 => rfl
      | var j => rfl
      | array j => rfl
      | last => rfl
      | ibase => rfl
      | obase => rfl
      | one => rfl
      | dangling => rfl
  | last => cases loc2 <;> first | rfl | exact absurd rfl hne
  | ibase => cases loc2 <;> first | rfl | exact absurd rfl hne
  | obase => cases loc2 <;> first | rfl | exact absurd rfl hne
  | one => cases loc2 <;> first | rfl | exact absurd rfl hne
  | dangling => cases hr

/-- A place below the height `h` is not affected by what happens to the result
stack from `h` upward. -/
theorem read_take_below {q : BcProgram} {h : Nat} {loc : BcLoc} (extra : List BcResult)
    (hloc : Below h loc) (hh : h ≤ q.results.length) :
    readNum { q with results := q.results.take h ++ extra } loc = readNum q loc := by
  have key : ∀ j, j < h → (q.results.take h ++ extra)[j]? = q.results[j]? := by
    intro j hj
    rw [List.getElem?_append_left (by simp; omega), List.getElem?_take_of_lt hj]
  cases loc with
  | result j => simp only [readNum]; rw [key j hloc]
  | resultElem j k => simp only [readNum]; rw [key j hloc]
  | var j => rfl
  | arrayElem j k => rfl
  | array j => rfl
  | last => rfl
  | ibase => rfl
  | obase => rfl
  | one => rfl
  | dangling => rfl

theorem write_keeps_scale (p : BcProgram) (loc : BcLoc) (v : BcNum) :
    (writeNum p loc v).scale = p.scale := by
  cases loc <;> simp only [writeNum] <;> repeat' split <;> rfl

/-- The plain assignment where the pointer to the left number is kept: with a
named scalar or an array element on the left, whose storage is read through the
pointer `o.lval` handed back and lies below the two operands, and a right
operand of value `y`, `BC_INST_OP_ASSIGN` succeeds; the
storage then holds `y`, the two operands are replaced by the one `Intermediate`
`y` (the stack is one shorter), every number held at another place below the
operands (variables, array elements, autos, registers) is kept, and so is
`scale`. -/
theorem assign_plain (p p1 : BcProgram) (o : BcOperands) (base : List BcResult)
    (l r : BcResult) (y lv : BcNum)
    (hres : p.results = base ++ [l, r])
    (hl : l.type = .VAR ∨ l.type = .ARRAY)
    (hprep : bc_program_binaryOpPrep p = .ok p1 o)
    (hy : readNum p1 o.rval = some y)
    (hlv : readNum p1 o.lval = some lv)
    (hhome : Below base.length o.lval) :
    ∃ q, bc_program_assign p .OP_ASSIGN = .ok q () ∧
      readNum q o.lval = some y ∧
      q.results = (writeNum p1 o.lval y).results.take base.length ++
        [⟨.INTERMEDIATE, .num y⟩] ∧
      q.results.length + 1 = p.results.length ∧
      (∀ loc v, loc ≠ o.lval → Below base.length loc → readNum p loc = some v →
        readNum q loc = some v) ∧
      q.scale = p.scale := by
  obtain ⟨hext, h2, hleft, -⟩ := (binaryOpPrep_outcome p).1 p1 o hprep
  have hlen : p.results.length = base.length + 2 := by rw [hres]; simp
  have hrev : bc_vec_item_rev p.results 1 = some l := by
    rw [hres]
    unfold bc_vec_item_rev
    simp only [List.length_append, List.length_cons, List.length_nil]
    rw [if_pos (by omega)]
    have : base.length + (0 + 1 + 1) - 1 - 1 = base.length := by omega
    rw [this]
    exact getElem?_append_two_left base l r
  obtain ⟨l2, hl2, ht⟩ := binaryOpPrep_left hprep hrev
  have ht2 : l2.type = .VAR ∨ l2.type = .ARRAY := by
    rcases ht with ht | ⟨hc, _⟩
    · rw [ht]; exact hl
    · rcases hl with h | h <;> rw [h] at hc <;> cases hc
  have hw := read_write_same y hlv
  have hwl : (writeNum p1 o.lval y).results.length = base.length + 2 := by
    rw [write_result_length, hext.rlen, hlen]
  have hassign : bc_program_assign p .OP_ASSIGN =
      .ok { writeNum p1 o.lval y with
            results := (writeNum p1 o.lval y).results.dropLast.dropLast ++
              [⟨.INTERMEDIATE, .num y⟩] } () := by
    unfold bc_program_assign
    rw [hprep]
    simp only [hl2, hy]
    have hn1 : ¬ (l2.type = .CONSTANT ∨ l2.type = .INTERMEDIATE) := by
      rcases ht2 with h | h <;> rw [h] <;> simp
    have hn2 : ¬ (.OP_ASSIGN = BC_EXPR_ASSIGN_DIVIDE ∧ bc_num_cmp y p1.zero = 0) := by
      intro h; exact absurd h.1 (by decide)
    have hn3 : l2.type ≠ .SCALE := by
      rcases ht2 with h | h <;> rw [h] <;> simp
    have hn4 : ¬ (l2.type = .IBASE ∨ l2.type = .OBASE) := by
      rcases ht2 with h | h <;> rw [h] <;> simp
    rw [if_neg hn1, if_neg hn2, if_pos hn3]
    simp only [bc_program_assign_switch, bc_num_copy]
    rw [if_neg hn4]
    exact assign_finish_eq _ _ y hw (by rw [hwl]; omega)
  have htake : (writeNum p1 o.lval y).results.dropLast.dropLast =
      (writeNum p1 o.lval y).results.take base.length := by
    rw [dropLast_two_take, hwl]; rfl
  rw [htake] at hassign
  refine ⟨_, hassign, ?_, rfl, ?_, ?_, ?_⟩
  · rw [read_take_below _ hhome (by rw [hwl]; omega)]
    exact hw
  · simp only [List.length_append, List.length_take, hwl, List.length_singleton, hlen]
    omega
  · intro loc v hne hb hv
    rw [read_take_below _ hb (by rw [hwl]; omega), read_write_other y hlv hne]
    exact hext.reads loc v hv
  · simp only
    rw [write_keeps_scale, hext.scale]

/-- An instance: `x = 3` with the global `x` holding 5. -/
theorem assign_plain_witness :
    ∃ q, bc_program_assign (xAssignState ⟨3, 0, false⟩) .OP_ASSIGN = .ok q () ∧
      readNum q (.var 0) = some ⟨3, 0, false⟩ ∧
      q.results = (writeNum (xAssignState ⟨3, 0, false⟩) (.var 0) ⟨3, 0, false⟩).results.take
          ([] : List BcResult).length ++ [⟨.INTERMEDIATE, .num ⟨3, 0, false⟩⟩] ∧
      q.results.length + 1 = (xAssignState ⟨3, 0, false⟩).results.length ∧
      (∀ loc v, loc ≠ .var 0 → Below ([] : List BcResult).length loc →
        readNum (xAssignState ⟨3, 0, false⟩) loc = some v → readNum q loc = some v) ∧
      q.scale = (xAssignState ⟨3, 0, false⟩).scale :=
  assign_plain (xAssignState ⟨3, 0, false⟩) (xAssignState ⟨3, 0, false⟩) ⟨0, .var 0, 1, .result 1⟩ []
    ⟨.VAR, .id "x" 0⟩ ⟨.INTERMEDIATE, .num ⟨3, 0, false⟩⟩ ⟨3, 0, false⟩ ⟨5, 0, false⟩ rfl (Or.inl rfl) (by decide)
    (by decide) (by decide) trivial

/-! ## Call errors -/

/-- C12, the claim as stated fails: a call of the function `read` (index 1),
whose code is empty, returns `EXEC_UNDEFINED_FUNC`, and a call of `g` (index 2,
one parameter) with two arguments returns `EXEC_MISMATCHED_PARAMS`; in both
cases the frame stack is not what it was: the frame of the caller has had its
program counter moved past the two immediates of the call. -/
theorem call_error_moves_counter :
    (∃ q, bc_program_call (arrayCallState ⟨.VAR, .id "a" 0⟩) [1, 1, 1, 1] =
        .fail .EXEC_UNDEFINED_FUNC q ∧
      q.results = (arrayCallState ⟨.VAR, .id "a" 0⟩).results ∧
      q.stack = [⟨0, 4, 0⟩] ∧ q.stack ≠ (arrayCallState ⟨.VAR, .id "a" 0⟩).stack) ∧
    (∃ q, bc_program_call (arrayCallState ⟨.VAR, .id "a" 0⟩) [1, 2, 1, 2] =
        .fail .EXEC_MISMATCHED_PARAMS q ∧
      q.results = (arrayCallState ⟨.VAR, .id "a" 0⟩).results ∧
      q.stack = [⟨0, 4, 0⟩] ∧ q.stack ≠ (arrayCallState ⟨.VAR, .id "a" 0⟩).stack) :=
  ⟨⟨_, rfl, rfl, rfl, by decide⟩, ⟨_, rfl, rfl, rfl, by decide⟩⟩

/-- C12 (call errors), amended: with the two immediates decoded as the argument
count `nparams` and the function index `fidx`, `bc_program_call` returns
`EXEC_UNDEFINED_FUNC` when the code of the callee is empty, whatever `nparams`
is, and `EXEC_MISMATCHED_PARAMS` when the code is not empty and `nparams`
differs from the callee's `nparams`; in both cases the program is left as it
was (the result stack untouched, no frame pushed or popped) but for the program
counter of the calling frame, which stands past the two immediates. -/
theorem call_errors (p : BcProgram) (code : List Nat) (ip0 : BcInstPtr)
    (nparams fidx i1 i2 : Nat) (func : BcFunc)
    (hip : p.stack.getLast? = some ip0)
    (hn : bc_program_index code ip0.idx = some (nparams, i1))
    (hf : bc_program_index code i1 = some (fidx, i2))
    (hfunc : p.funcs[fidx]? = some func) :
    (func.code.length = 0 →
      bc_program_call p code =
        .fail .EXEC_UNDEFINED_FUNC
          { p with stack := p.stack.dropLast ++ [{ ip0 with idx := i2 }] }) ∧
    (func.code.length ≠ 0 → nparams ≠ func.nparams →
      bc_program_call p code =
        .fail .EXEC_MISMATCHED_PARAMS
          { p with stack := p.stack.dropLast ++ [{ ip0 with idx := i2 }] }) := by
  constructor
  · intro hc
    unfold bc_program_call
    simp only [hip, hn, hf, hfunc, hc, if_true]
  · intro hc hne
    unfold bc_program_call
    simp only [hip, hn, hf, hfunc, hc, hne, if_false, if_true, ne_eq, not_false_eq_true]

/-- C12, an instance of the amended claim: a call of `read` from the initial
frame. -/
theorem call_errors_witness :
    bc_program_call startImage [1, 0, 1, 1] =
      .fail .EXEC_UNDEFINED_FUNC
        { startImage with
          stack := startImage.stack.dropLast ++ [{ (⟨0, 0, 0⟩ : BcInstPtr) with idx := 4 }] } :=
  (call_errors startImage [1, 0, 1, 1] ⟨0, 0, 0⟩ 0 1 2 4 ⟨[], [], 0, []⟩ rfl (by decide)
    (by decide) (by decide)).1 rfl

/-! ## Return -/

theorem size_sub_eq {a b : Nat} (hb : b ≤ a) (ha : a ≤ SIZE_MAX) : size_sub a b = a - b := by
  unfold size_sub
  unfold SIZE_MAX at ha ⊢
  norm_num at ha ⊢
  omega

/-- Materialising a slot that is not an array element reference changes no
other slot of the result stack. -/
theorem num_results_other {p q : BcProgram} {ri : Nat} {hex : Bool} {loc : BcLoc}
    (h : bc_program_num p ri hex = .ok q loc)
    (ht : ∀ r, p.results[ri]? = some r → r.type ≠ .ARRAY) :
    ∀ j, j ≠ ri → q.results[j]? = p.results[j]? := by
  intro j hj
  unfold bc_program_num at h
  cases hr : p.results[ri]? with
  | none => rw [hr] at h; cases h
  | some r =>
    have hty := ht r hr
    rw [hr] at h
    simp only at h
    rcases r with ⟨t, d⟩
    cases t with
    | INTERMEDIATE => simp only [BcRet.ok.injEq] at h; rw [← h.1]
    | SCALE => simp only [BcRet.ok.injEq] at h; rw [← h.1]
    | CONSTANT =>
      simp only at h
      repeat' split at h
      all_goals first
        | (cases h; exact List.getElem?_set_ne (fun e => hj e.symm))
        | cases h
    | VAR =>
      simp only at h
      split at h
      · simp only [decide_True] at h
        rw [(search_var_resolves h).2.2]
      · cases h
    | ARRAY => exact absurd rfl hty
    | LAST => simp only [BcRet.ok.injEq] at h; rw [← h.1]
    | IBASE => simp only [BcRet.ok.injEq] at h; rw [← h.1]
    | OBASE => simp only [BcRet.ok.injEq] at h; rw [← h.1]
    | ONE => simp only [BcRet.ok.injEq] at h; rw [← h.1]
    | ARRAY_AUTO => cases h
    | VAR_AUTO => cases h


theorem vec_pop_of_getLast {α : Type} {v : List α} {a : α} (h : v.getLast? = some a) :
    bc_vec_pop v = some v.dropLast := by
  cases v with
  | nil => simp at h
  | cons x xs => rfl

/-- The tail of `bc_program_return` (lines 991-997): with the base of the top
frame between the parameter count and the height of the result stack, the
stack is cut down to `base - nparams` entries, the value is pushed and the frame
is popped. -/
theorem return_tail (p1 : BcProgram) (ip : BcInstPtr) (func : BcFunc) (v : BcNum)
    (hip : p1.stack.getLast? = some ip)
    (hb1 : func.nparams ≤ ip.len) (hb2 : ip.len ≤ p1.results.length)
    (hsz : p1.results.length ≤ SIZE_MAX) :
    (match bc_vec_npop p1.results
        (size_sub p1.results.length (size_sub ip.len func.nparams)) with
      | none => BcRet.fail .VEC_OUT_OF_BOUNDS p1
      | some rs =>
        match bc_vec_pop p1.stack with
        | none =>
          .fail .VEC_OUT_OF_BOUNDS { p1 with results := rs ++ [(⟨.INTERMEDIATE, .num v⟩ : BcResult)] }
        | some st =>
          .ok { p1 with
                results := rs ++ [(⟨.INTERMEDIATE, .num v⟩ : BcResult)],
                stack := st } ()) =
      .ok { p1 with
            results := p1.results.take (ip.len - func.nparams) ++ [(⟨.INTERMEDIATE, .num v⟩ : BcResult)],
            stack := p1.stack.dropLast } () := by
  rw [size_sub_eq hb1 (Nat.le_trans hb2 hsz), size_sub_eq (by omega) hsz]
  have hle : p1.results.length - (ip.len - func.nparams) ≤ p1.results.length := by omega
  have hk : p1.results.length - (p1.results.length - (ip.len - func.nparams)) =
      ip.len - func.nparams := by omega
  simp only [bc_vec_npop, hle, if_true, hk, vec_pop_of_getLast hip]

/-- C13, the claim as stated fails: `f`, called from inside `g` with base 1 and
no parameters, returns the element `a[5]` of the auto array `a` of `g`; the
return succeeds and leaves two entries, but the entry at index 0, below
`base - nparams = 1`, is not what it was: the array in that slot has grown from
no element to six. -/
theorem return_grows_outer_array :
    ∃ q, bc_program_return instOrdinal returnElemState .RETURN = .ok q () ∧
      q.results = [⟨.ARRAY_AUTO, .array (List.replicate 6 ⟨0, 0, false⟩)⟩,
                   ⟨.INTERMEDIATE, .num ⟨0, 0, false⟩⟩] ∧
      q.results[0]? ≠ returnElemState.results[0]? :=
  ⟨_, rfl, rfl, by decide⟩

/-- C13 (return tears down the frame), amended: for a top frame of base `b`
in a function with `nparams` parameters, `nparams ≤ b ≤ results.len`, that is
not the only frame of the frame stack, `bc_program_return` leaves `b - nparams` entries and, on top of them, one
`Intermediate`: zero for `BC_INST_RETURN_ZERO`, the value of the former top
operand for `BC_INST_RETURN`; the top frame is popped.  For `RETURN_ZERO` the
entries below `b - nparams` are those of before.  For `RETURN` they are those
left by the materialisation of the operand, which keeps the tag and every
number of every entry, and keeps the entries themselves when the operand is not
an array element reference.  A return out of the only frame is not defined (the
routine asserts that there is a frame to return to). -/
theorem return_tears_down (num : BcInst → Nat) (p : BcProgram) (ip : BcInstPtr) (func : BcFunc)
    (hnum : num .RETURN_ZERO ≠ num .RETURN) (hbyte : num .RETURN_ZERO < 256)
    (hip : p.stack.getLast? = some ip) (hfunc : p.funcs[ip.func]? = some func)
    (hstack : 1 < p.stack.length)
    (hb1 : func.nparams ≤ ip.len) (hb2 : ip.len ≤ p.results.length)
    (hsz : p.results.length ≤ SIZE_MAX) :
    bc_program_return num p .RETURN_ZERO =
      .ok { p with
            results := p.results.take (ip.len - func.nparams) ++
              [⟨.INTERMEDIATE, .num bc_num_zero⟩],
            stack := p.stack.dropLast } () ∧
    (∀ p1 loc v, bc_program_num p (p.results.length - 1) false = .ok p1 loc →
      readNum p1 loc = some v →
      bc_program_return num p .RETURN =
        .ok { p1 with
              results := p1.results.take (ip.len - func.nparams) ++ [⟨.INTERMEDIATE, .num v⟩],
              stack := p.stack.dropLast } () ∧
      Extends p p1 ∧
      ((∀ top, p.results[p.results.length - 1]? = some top → top.type ≠ .ARRAY) →
        ∀ j, j < ip.len - func.nparams → j ≠ p.results.length - 1 →
          p1.results[j]? = p.results[j]?)) ∧
    (∀ (rs : List BcResult) (x : BcResult), rs.length = p.results.length →
      (rs.take (ip.len - func.nparams) ++ [x]).length = ip.len - func.nparams + 1) ∧
    (∀ (p0 : BcProgram) (inst : BcInst), p0.stack.length ≤ 1 →
      bc_program_return num p0 inst = .abort) := by
  have hcs : BC_PROGRAM_CHECK_STACK p = true := by
    simp [BC_PROGRAM_CHECK_STACK, hstack]
  refine ⟨?_, ?_, ?_, ?_⟩
  rotate_left 2
  · intro rs x hrs
    simp only [List.length_append, List.length_take, List.length_singleton, hrs]
    omega
  · intro p0 inst h0
    unfold bc_program_return
    have : BC_PROGRAM_CHECK_STACK p0 = false := by
      simp [BC_PROGRAM_CHECK_STACK, h0]
    simp only [this, Bool.false_eq_true, if_false]
  · have hcheck : BC_PROGRAM_CHECK_RESULTS p
        (if (ip.len + num .RETURN_ZERO) % (SIZE_MAX + 1) = num .RETURN then 1 else 0) = true := by
      unfold BC_PROGRAM_CHECK_RESULTS
      simp only [decide_eq_true_eq]
      split
      · rename_i heq
        rcases Nat.eq_zero_or_pos p.results.length with h0 | hpos
        · exfalso
          have hl0 : ip.len = 0 := by omega
          rw [hl0, Nat.zero_add] at heq
          rw [Nat.mod_eq_of_lt (by unfold SIZE_MAX; norm_num; omega)] at heq
          exact hnum heq
        · exact hpos
      · exact Nat.zero_le _
    unfold bc_program_return
    simp only [hcs, if_true, hip, hcheck, hfunc]
    have h := return_tail p ip func bc_num_zero hip hb1 hb2 hsz
    simpa using h
  · intro p1 loc v hn hv
    have hext := (num_outcome p (p.results.length - 1) false).1 p1 loc hn
    have hpos : 0 < p.results.length := by
      rcases Nat.eq_zero_or_pos p.results.length with h0 | hpos
      · exfalso
        unfold bc_program_num at hn
        have : p.results[p.results.length - 1]? = none := by
          rw [List.getElem?_eq_none]; omega
        rw [this] at hn
        cases hn
      · exact hpos
    refine ⟨?_, hext, ?_⟩
    · have hcheck : BC_PROGRAM_CHECK_RESULTS p
          (if (ip.len + num .RETURN) % (SIZE_MAX + 1) = num .RETURN then 1 else 0) = true := by
        unfold BC_PROGRAM_CHECK_RESULTS
        simp only [decide_eq_true_eq]
        split
        · exact hpos
        · exact Nat.zero_le _
      have hrev : ∃ t, bc_vec_item_rev p.results 0 = some t := by
        unfold bc_vec_item_rev
        rw [if_pos hpos]
        exact ⟨_, List.getElem?_eq_getElem (by omega)⟩
      obtain ⟨t, ht⟩ := hrev
      unfold bc_program_return
      simp only [hcs, if_true, hip, hcheck, hfunc, ht, hn, hv, bc_num_copy]
      have h := return_tail p1 ip func v (by rw [hext.stack]; exact hip) hb1
        (by rw [hext.rlen]; exact hb2) (by rw [hext.rlen]; exact hsz)
      have hs : p.stack.dropLast = p1.stack.dropLast := by rw [hext.stack]
      rw [hs]
      simpa using h
    · intro htop j _ hj
      exact num_results_other hn htop j hj

/-- C13, an instance of the amended claim: `f`, called with the argument 4
above the number 9 of its caller (base 2, one parameter), returns: the stack is
left with the 9 and, for `RETURN_ZERO`, the number 0. -/
theorem return_tears_down_witness :
    bc_program_return instOrdinal returnState .RETURN_ZERO =
      .ok { returnState with
            results := returnState.results.take ((⟨2, 0, 2⟩ : BcInstPtr).len -
                (⟨[82], [], 1, [⟨"x", true⟩]⟩ : BcFunc).nparams) ++
              [⟨.INTERMEDIATE, .num bc_num_zero⟩],
            stack := returnState.stack.dropLast } () :=
  (return_tears_down instOrdinal returnState ⟨2, 0, 2⟩ ⟨[82], [], 1, [⟨"x", true⟩]⟩
    (by decide) (by decide) rfl rfl (by decide) (by decide) (by decide) (by decide)).1

/-! ## Array index limit -/

theorem unaryOpPrep_outcome (p : BcProgram) :
    (∀ q k loc, bc_program_unaryOpPrep p = .ok q (k, loc) →
      Extends p q ∧ 1 ≤ p.results.length ∧ k = p.results.length - 1 ∧
        bc_program_num p (p.results.length - 1) false = .ok q loc) ∧
    (∀ s q, bc_program_unaryOpPrep p = .fail s q → Extends p q) := by
  unfold bc_program_unaryOpPrep
  constructor
  · intro q k loc h
    split at h
    · cases h
    · rename_i t ht
      have hlen := (item_rev_some ht).1
      cases hn : bc_program_num p (p.results.length - 1) false with
      | abort => rw [hn] at h; cases h
      | fail s q2 => rw [hn] at h; cases h
      | ok p1 val =>
        rw [hn] at h
        simp only [BcRet.ok.injEq, Prod.mk.injEq] at h
        obtain ⟨h1, h2, h3⟩ := h
        subst h1; subst h3
        exact ⟨(num_outcome p _ false).1 _ _ hn, by omega, h2.symm, rfl⟩
  · intro s q h
    split at h
    · cases h
    · cases hn : bc_program_num p (p.results.length - 1) false with
      | abort => rw [hn] at h; cases h
      | fail s2 q2 =>
        rw [hn] at h
        simp only [BcRet.fail.injEq] at h
        rw [← h.2]
        exact (num_outcome p _ false).2 _ _ hn
      | ok p1 val => rw [hn] at h; cases h

/-- C17, the claim as stated fails twice.  With the literal `65536` as index
operand and `dim_max = 65535`, `BC_INST_PUSH_ARRAY` returns `EXEC_ARRAY_LEN`, but
the result stack is not what it was: the `Constant` on top has been replaced by
the `Intermediate` of its value.  With the index `2 ^ 64`, a non-negative
integer above `dim_max`, the status is not `EXEC_ARRAY_LEN` but that of the
failed conversion. -/
theorem push_array_changes_operand :
    (∃ q, bc_program_push (indexState ⟨.CONSTANT, .id "" 0⟩) nameCode false 0 =
        .fail .EXEC_ARRAY_LEN q ∧
      q.results = [⟨.INTERMEDIATE, .num ⟨65536, 0, false⟩⟩] ∧
      q.results ≠ (indexState ⟨.CONSTANT, .id "" 0⟩).results) ∧
    (bc_program_push (indexState ⟨.INTERMEDIATE, .num ⟨2 ^ 64, 0, false⟩⟩) nameCode false 0).status =
      some .MATH_OVERFLOW := by
  refine ⟨⟨{ indexState ⟨.INTERMEDIATE, .num ⟨65536, 0, false⟩⟩ with stack := [⟨0, 2, 0⟩] },
    by decide, by decide, by decide⟩, by decide⟩


/-- Materialising a slot that is neither a `Constant` nor an array element
reference leaves the result stack as it was. -/
theorem num_results_same {p q : BcProgram} {ri : Nat} {hex : Bool} {loc : BcLoc}
    (h : bc_program_num p ri hex = .ok q loc)
    (ht : ∀ r, p.results[ri]? = some r → r.type ≠ .ARRAY ∧ r.type ≠ .CONSTANT) :
    q.results = p.results := by
  unfold bc_program_num at h
  cases hr : p.results[ri]? with
  | none => rw [hr] at h; cases h
  | some r =>
    have hty := ht r hr
    rw [hr] at h
    simp only at h
    rcases r with ⟨t, d⟩
    cases t with
    | INTERMEDIATE => simp only [BcRet.ok.injEq] at h; rw [← h.1]
    | SCALE => simp only [BcRet.ok.injEq] at h; rw [← h.1]
    | CONSTANT => exact absurd rfl hty.2
    | VAR =>
      simp only at h
      split at h
      · simp only [decide_True] at h
        rw [(search_var_resolves h).2.2]
      · cases h
    | ARRAY => exact absurd rfl hty.1
    | LAST => simp only [BcRet.ok.injEq] at h; rw [← h.1]
    | IBASE => simp only [BcRet.ok.injEq] at h; rw [← h.1]
    | OBASE => simp only [BcRet.ok.injEq] at h; rw [← h.1]
    | ONE => simp only [BcRet.ok.injEq] at h; rw [← h.1]
    | ARRAY_AUTO => cases h
    | VAR_AUTO => cases h

/-- C17 (array index limit), amended: with the name decoded and the top operand
materialised to a number that converts to the unsigned integer `i`,
`BC_INST_PUSH_ARRAY` returns `EXEC_ARRAY_LEN` exactly when `i > dim_max`, and
otherwise replaces the operand by the array element reference carrying the
decoded name and the index `i`.  The result stack keeps its length either way;
in the error case it is the stack left by the materialisation of the operand:
the slots below the operand are those of before when the operand is not itself
an array element reference, and the operand is the one of before when it is
neither that nor a `Constant`. -/
theorem push_array_index (p : BcProgram) (code : List Nat) (junk : Nat) (ip0 : BcInstPtr)
    (name : String) (i1 : Nat) (p1 : BcProgram) (k : Nat) (loc : BcLoc) (v : BcNum) (i : Nat)
    (hip : p.stack.getLast? = some ip0)
    (hname : bc_program_name code ip0.idx = some (name, i1))
    (hprep : bc_program_unaryOpPrep
      { p with stack := p.stack.dropLast ++ [{ ip0 with idx := i1 }] } = .ok p1 (k, loc))
    (hv : readNum p1 loc = some v) (hi : bc_num_ulong v = .ok i) :
    ((bc_program_push p code false junk).status = some .EXEC_ARRAY_LEN ↔ i > p.dim_max) ∧
    (i > p.dim_max → bc_program_push p code false junk = .fail .EXEC_ARRAY_LEN p1) ∧
    (i ≤ p.dim_max →
      bc_program_push p code false junk =
        .ok { p1 with results := p1.results.dropLast ++ [⟨.ARRAY, .id name i⟩] } ()) ∧
    p1.results.length = p.results.length ∧
    ((∀ top, p.results[p.results.length - 1]? = some top → top.type ≠ .ARRAY) →
      ∀ j, j ≠ p.results.length - 1 → p1.results[j]? = p.results[j]?) ∧
    ((∀ top, p.results[p.results.length - 1]? = some top →
        top.type ≠ .ARRAY ∧ top.type ≠ .CONSTANT) → p1.results = p.results) ∧
    (p1.results.dropLast ++ [(⟨.ARRAY, .id name i⟩ : BcResult)]).length = p.results.length := by
  obtain ⟨hext, hpos, -, hnum⟩ := (unaryOpPrep_outcome _).1 p1 k loc hprep
  have hdim : p1.dim_max = p.dim_max := hext.dim_max
  have hlen : p1.results.length = p.results.length := hext.rlen
  have hpop : bc_vec_pop p1.results = some p1.results.dropLast := by
    cases hr : p1.results with
    | nil => rw [hr] at hlen; simp at hlen; simp only at hpos; omega
    | cons x xs => rfl
  have hgt : i > p.dim_max → bc_program_push p code false junk = .fail .EXEC_ARRAY_LEN p1 := by
    intro h
    unfold bc_program_push
    simp only [hip, hname, hprep, hv, hi, Bool.false_eq_true, if_false, hdim, h, if_true]
  have hle : i ≤ p.dim_max → bc_program_push p code false junk =
      .ok { p1 with results := p1.results.dropLast ++ [⟨.ARRAY, .id name i⟩] } () := by
    intro h
    unfold bc_program_push
    simp only [hip, hname, hprep, hv, hi, Bool.false_eq_true, if_false, hdim,
      Nat.not_lt.mpr h, bc_program_unaryOpRetire, hpop]
  refine ⟨?_, hgt, hle, hlen, ?_, ?_, ?_⟩
  · constructor
    · intro hs
      by_contra hn
      rw [hle (Nat.le_of_not_gt hn)] at hs
      simp [BcRet.status] at hs
    · intro h
      rw [hgt h]; rfl
  · intro htop j hj
    exact num_results_other hnum htop j hj
  · intro htop
    have h3 := num_results_same hnum htop
    exact h3
  · simp only [List.length_append, List.length_dropLast, List.length_singleton, hlen]
    simp only at hpos
    omega

/-- C17, an instance of the amended claim: the index 65535 with
`dim_max = 65535` is accepted. -/
theorem push_array_index_witness :
    bc_program_push (indexState ⟨.INTERMEDIATE, .num ⟨65535, 0, false⟩⟩) nameCode false 0 =
      .ok { ({ indexState ⟨.INTERMEDIATE, .num ⟨65535, 0, false⟩⟩ with
               stack := [⟨0, 2, 0⟩] } : BcProgram) with
            results := ({ indexState ⟨.INTERMEDIATE, .num ⟨65535, 0, false⟩⟩ with
              stack := [⟨0, 2, 0⟩] } : BcProgram).results.dropLast ++
                [⟨.ARRAY, .id "a" 65535⟩] } () :=
  (push_array_index (indexState ⟨.INTERMEDIATE, .num ⟨65535, 0, false⟩⟩) nameCode 0 ⟨0, 0, 0⟩ "a" 2
    { indexState ⟨.INTERMEDIATE, .num ⟨65535, 0, false⟩⟩ with stack := [⟨0, 2, 0⟩] } 0 (.result 0)
    ⟨65535, 0, false⟩ 65535 rfl (by decide) (by decide) (by decide) rfl).2.2.1 (by decide)

/-! ## Interrupt polling -/

/-- C19, the claim as stated fails: with the flag `bcg.sig_int` set,
`bc_program_exec` on a program that is about to compute `1 + 2` and halt
executes nothing and leaves the image as it was, but the status it returns is
`BC_STATUS_SUCCESS`, not a signal status; with the flag clear the same program
runs to `BC_INST_HALT` and returns `BC_STATUS_QUIT`. -/
theorem exec_interrupt_returns_success :
    bc_program_exec (exampleEnv true) 1 haltImage startWorld =
      some (.ok haltImage (), ⟨1, 0, []⟩) ∧
    (BcRet.ok haltImage () : BcRet Unit).status = some .SUCCESS ∧
    (bc_program_exec (exampleEnv false) 4 haltImage startWorld).map (fun r => r.1.status) =
      some (some .QUIT) := by
  decide

/-- C19 (interrupt polling), amended: at an opcode boundary, that is, when
`bc_program_exec` tests its loop condition with a top frame `ip` of a function
`func`, a set flag `bcg.sig_int` makes it return at once: no opcode is fetched,
nothing is read or written, the program is the one of that boundary, and the
status is `BC_STATUS_SUCCESS`.  Every boundary is of this kind: with the flag
clear, a round whose opcode is dispatched with success continues as
`bc_program_exec` on the program and world that round leaves. -/
theorem exec_interrupt (env : BcEnv) (fuel : Nat) (p : BcProgram) (w : BcWorld)
    (ip : BcInstPtr) (func : BcFunc)
    (hip : p.stack.getLast? = some ip) (hfunc : p.funcs[ip.func]? = some func) :
    (env.sig_int w.polls = true →
      bc_program_exec env (fuel + 1) p w = some (.ok p (), { w with polls := w.polls + 1 })) ∧
    (∀ inst q w1, env.sig_int w.polls = false → ip.idx < func.code.length →
      (func.code[ip.idx]?).bind (decodeInst env.inst) = some inst →
      bc_program_exec_inst env (bc_program_exec env fuel) func inst
          { p with stack := p.stack.dropLast ++ [{ ip with idx := ip.idx + 1 }] }
          { w with polls := w.polls + 1 } = some (.ok q (), w1) →
      bc_program_exec env (fuel + 1) p w = bc_program_exec env fuel q w1) := by
  constructor
  · intro hs
    rw [bc_program_exec]
    simp only [hip, hfunc, hs, Bool.true_eq_false, false_and, if_false]
  · intro inst q w1 hs hlt hinst hstep
    rw [bc_program_exec]
    simp only [hip, hfunc, hs, hlt, and_self, if_true, hinst, hstep]

/-- C19, an instance of the amended claim: the flag is set before the first
opcode of the program `1 + 2; halt`. -/
theorem exec_interrupt_witness :
    bc_program_exec (exampleEnv true) (0 + 1) haltImage startWorld =
      some (.ok haltImage (), { startWorld with polls := startWorld.polls + 1 }) :=
  (exec_interrupt (exampleEnv true) 0 haltImage startWorld ⟨0, 0, 0⟩
    ⟨[15, 1, 0, 15, 1, 1, 30, 21], [], 0, []⟩ rfl rfl).1 rfl

/-! ## Immediate decoding -/

theorem or_shift_eq_add {r byte k : Nat} (hr : r < 2 ^ k) : r ||| (byte <<< k) = r + byte * 2 ^ k := by
  rw [Nat.lor_comm, Nat.shiftLeft_eq, Nat.mul_comm byte, ← Nat.mul_add_lt_is_or hr, Nat.add_comm]

/-- The loop of `bc_program_index` adds the bytes it reads, each at its
place. -/
theorem index_loop_sum (code : List Nat) (b : Nat → Nat) :
    ∀ (n i result start : Nat), i + n ≤ 8 → result < 256 ^ i →
      (∀ j, j < n → code[start + j]? = some (b (i + j)) ∧ b (i + j) < 256) →
      bc_program_index_loop code n i result start =
        some (result + ∑ j ∈ Finset.range n, b (i + j) * 256 ^ (i + j), start + n) := by
  intro n
  induction n with
  | zero => intro i result start _ _ _; simp [bc_program_index_loop]
  | succ n ih =>
    intro i result start hi hr hb
    have h0 := hb 0 (Nat.succ_pos n)
    simp only [Nat.add_zero] at h0
    have h256 : (256 : Nat) ^ i = 2 ^ (i * 8) := by
      rw [show (256 : Nat) = 2 ^ 8 by norm_num, ← pow_mul, Nat.mul_comm]
    rw [bc_program_index_loop]
    simp only [h0.1]
    rw [if_pos (by omega), or_shift_eq_add (by rw [← h256]; exact hr), ← h256]
    have hr2 : result + b i * 256 ^ i < 256 ^ (i + 1) := by
      have hle : b i * 256 ^ i ≤ 255 * 256 ^ i := Nat.mul_le_mul_right _ (by omega)
      rw [pow_succ]
      generalize (256 : Nat) ^ i = X at hr hle ⊢
      generalize b i * X = Y at hle ⊢
      omega
    rw [ih (i + 1) _ (start + 1) (by omega) hr2]
    · rw [Finset.sum_range_succ']
      simp only [Nat.add_zero]
      have hs : ∑ j ∈ Finset.range n, b (i + 1 + j) * 256 ^ (i + 1 + j) =
          ∑ j ∈ Finset.range n, b (i + (j + 1)) * 256 ^ (i + (j + 1)) := by
        apply Finset.sum_congr rfl
        intro j _
        rw [show i + 1 + j = i + (j + 1) by omega]
      rw [hs]
      simp only [Option.some.injEq, Prod.mk.injEq]
      exact ⟨by ring, by ring⟩
    · intro j hj
      have := hb (j + 1) (by omega)
      rw [show start + 1 + j = start + (j + 1) by omega, show i + 1 + j = i + (j + 1) by omega]
      exact this

theorem sum_bytes_eq_mod (v : Nat) : ∀ n : Nat,
    ∑ i ∈ Finset.range n, (v / 256 ^ i % 256) * 256 ^ i = v % 256 ^ n := by
  intro n
  induction n with
  | zero => simp [Nat.mod_one]
  | succ n ih =>
    rw [Finset.sum_range_succ, ih, Nat.mod_pow_succ, Nat.mul_comm]

/-- C28 (immediate decoding): when the byte at offset `s` is `n ≤ 8` and the
`n` bytes after it are `b 0 .. b (n - 1)`, `bc_program_index` returns the sum
of the `b i * 256 ^ i` (0 when `n = 0`) and moves the offset to `s + n + 1`; so
when the bytes are those of the little-endian encoding of a value
`v < 256 ^ n`, it returns `v`. -/
theorem index_decodes (code : List Nat) (s n : Nat) (b : Nat → Nat)
    (hn : code[s]? = some n) (hw : n ≤ 8)
    (hb : ∀ i, i < n → code[s + 1 + i]? = some (b i) ∧ b i < 256) :
    bc_program_index code s = some (∑ i ∈ Finset.range n, b i * 256 ^ i, s + n + 1) ∧
    (∀ v, v < 256 ^ n → (∀ i, i < n → b i = v / 256 ^ i % 256) →
      bc_program_index code s = some (v, s + n + 1)) := by
  have h1 : bc_program_index code s =
      some (∑ i ∈ Finset.range n, b i * 256 ^ i, s + n + 1) := by
    unfold bc_program_index
    simp only [hn]
    rw [index_loop_sum code b n 0 0 (s + 1) (by omega) (by norm_num)
      (by intro j hj; simpa using hb j hj)]
    simp only [Nat.zero_add]
    congr 2
    omega
  refine ⟨h1, ?_⟩
  intro v hv hd
  rw [h1]
  have hsum : ∑ i ∈ Finset.range n, b i * 256 ^ i =
      ∑ i ∈ Finset.range n, (v / 256 ^ i % 256) * 256 ^ i := by
    apply Finset.sum_congr rfl
    intro i hi
    rw [hd i (Finset.mem_range.mp hi)]
  rw [hsum, sum_bytes_eq_mod, Nat.mod_eq_of_lt hv]

/-- C28, an instance: the two-byte immediate `0x0201` after three other
bytes. -/
theorem index_decodes_witness :
    bc_program_index [7, 7, 7, 2, 1, 2, 9] 3 =
      some (∑ i ∈ Finset.range 2, (fun i => if i = 0 then 1 else 2) i * 256 ^ i, 3 + 2 + 1) :=
  (index_decodes [7, 7, 7, 2, 1, 2, 9] 3 2 (fun i => if i = 0 then 1 else 2) rfl (by decide)
    (by decide)).1

/-! ## Name decoding -/

theorem getElem?_mid {α : Type} (pre : List α) (x : α) (post : List α) :
    (pre ++ x :: post)[pre.length]? = some x := by
  rw [List.getElem?_append_right (Nat.le_refl _)]; simp

theorem name_loop_copies (rest : List Nat) : ∀ (bs pre : List Nat) (acc : List Char) (fuel : Nat),
    bs.length + 1 ≤ fuel → (∀ b ∈ bs, b ≠ 0 ∧ b ≠ 58) →
    bc_program_name_loop (pre ++ bs ++ 58 :: rest) fuel pre.length acc =
      some (String.mk (acc ++ bs.map Char.ofNat), pre.length + bs.length + 1) := by
  intro bs
  induction bs with
  | nil =>
    intro pre acc fuel hf _
    obtain ⟨f, rfl⟩ : ∃ f, fuel = f + 1 := ⟨fuel - 1, by simp at hf; omega⟩
    rw [bc_program_name_loop]
    simp only [List.append_nil, getElem?_mid]
    simp
  | cons b bs ih =>
    intro pre acc fuel hf hb
    obtain ⟨f, rfl⟩ : ∃ f, fuel = f + 1 := ⟨fuel - 1, by simp at hf; omega⟩
    have hb0 := hb b (List.mem_cons_self _ _)
    rw [bc_program_name_loop]
    have hget : (pre ++ b :: bs ++ 58 :: rest)[pre.length]? = some b := by
      rw [List.append_assoc]; exact getElem?_mid pre b _
    simp only [hget]
    rw [if_pos hb0]
    have h := ih (pre ++ [b]) (acc ++ [Char.ofNat b]) f (by simp at hf ⊢; omega)
      (fun x hx => hb x (List.mem_cons_of_mem _ hx))
    simp only [List.length_append, List.length_singleton, List.append_assoc,
      List.singleton_append] at h
    simp only [List.append_assoc, List.cons_append] at h ⊢
    rw [h]
    simp only [List.length_cons, List.map_cons, Option.some.injEq, Prod.mk.injEq, true_and]
    omega

theorem strchr_colon (rest : List Nat) : ∀ (bs pre : List Nat) (k fuel : Nat),
    bs.length + 1 ≤ fuel → (∀ b ∈ bs, b ≠ 0 ∧ b ≠ 58) →
    c_strchr (pre ++ bs ++ 58 :: rest) 58 fuel pre.length k = some (some (k + bs.length)) := by
  intro bs
  induction bs with
  | nil =>
    intro pre k fuel hf _
    obtain ⟨f, rfl⟩ : ∃ f, fuel = f + 1 := ⟨fuel - 1, by simp at hf; omega⟩
    rw [c_strchr]
    simp only [List.append_nil, getElem?_mid]
    simp
  | cons b bs ih =>
    intro pre k fuel hf hb
    obtain ⟨f, rfl⟩ : ∃ f, fuel = f + 1 := ⟨fuel - 1, by simp at hf; omega⟩
    have hb0 := hb b (List.mem_cons_self _ _)
    rw [c_strchr]
    have hget : (pre ++ b :: bs ++ 58 :: rest)[pre.length]? = some b := by
      rw [List.append_assoc]; exact getElem?_mid pre b _
    simp only [hget]
    rw [if_neg hb0.2, if_neg hb0.1]
    have h := ih (pre ++ [b]) (k + 1) f (by simp at hf ⊢; omega)
      (fun x hx => hb x (List.mem_cons_of_mem _ hx))
    simp only [List.length_append, List.length_singleton, List.append_assoc,
      List.singleton_append] at h
    simp only [List.append_assoc, List.cons_append] at h ⊢
    rw [h]
    simp only [List.length_cons, Option.some.injEq]
    omega

/-- C30 (name decoding): when the bytes from offset `s = pre.length` on are
`bs`, without a NUL and without a `':'`, followed by a `':'`, `bc_program_name`
returns the string of the bytes `bs` and moves the offset just past the `':'`;
the buffer it allocates has `bs.length + 1` bytes and it writes that many, the
name and the NUL that ends it. -/
theorem name_decodes (pre bs rest : List Nat) (hbs : ∀ b ∈ bs, b ≠ 0 ∧ b ≠ 58) :
    bc_program_name (pre ++ bs ++ 58 :: rest) pre.length =
      some (String.mk (bs.map Char.ofNat), pre.length + bs.length + 1) ∧
    bc_program_name_alloc (pre ++ bs ++ 58 :: rest) pre.length = some (bs.length + 1) ∧
    bc_program_name_written (String.mk (bs.map Char.ofNat)) ≤ bs.length + 1 := by
  have hfuel : bs.length + 1 ≤ (pre ++ bs ++ 58 :: rest).length - pre.length := by
    simp only [List.length_append, List.length_cons]; omega
  refine ⟨?_, ?_, ?_⟩
  · unfold bc_program_name
    rw [name_loop_copies rest bs pre [] _ hfuel hbs]
    simp
  · unfold bc_program_name_alloc
    rw [strchr_colon rest bs pre 0 _ hfuel hbs]
    simp
  · simp [bc_program_name_written, String.length]

/-- C30, an instance: the name `ab` after one other byte. -/
theorem name_decodes_witness :
    bc_program_name ([7] ++ [97, 98] ++ 58 :: [3]) ([7] : List Nat).length =
      some (String.mk ([97, 98].map Char.ofNat),
        ([7] : List Nat).length + ([97, 98] : List Nat).length + 1) ∧
    bc_program_name_alloc ([7] ++ [97, 98] ++ 58 :: [3]) ([7] : List Nat).length =
      some (([97, 98] : List Nat).length + 1) ∧
    bc_program_name_written (String.mk ([97, 98].map Char.ofNat)) ≤
      ([97, 98] : List Nat).length + 1 :=
  name_decodes [7] [97, 98] [3] (by decide)

/-! ## Escape processing -/

theorem escape_table (c2 : Char) :
    escapeChars c2 = (bc_program_printString_escape c2).toList := by
  unfold escapeChars bc_program_printString_escape escapeTable
  simp only [List.find?]
  by_cases ha : c2 = 'a'
  · subst ha; rfl
  by_cases hb : c2 = 'b'
  · subst hb; rfl
  by_cases he : c2 = 'e'
  · subst he; rfl
  by_cases hf : c2 = 'f'
  · subst hf; rfl
  by_cases hn : c2 = 'n'
  · subst hn; rfl
  by_cases hr : c2 = 'r'
  · subst hr; rfl
  by_cases hq : c2 = 'q'
  · subst hq; rfl
  by_cases ht : c2 = 't'
  · subst ht; rfl
  have h1 : ('a' == c2) = false := by simpa using fun h => ha h.symm
  have h2 : ('b' == c2) = false := by simpa using fun h => hb h.symm
  have h3 : ('e' == c2) = false := by simpa using fun h => he h.symm
  have h4 : ('f' == c2) = false := by simpa using fun h => hf h.symm
  have h5 : ('n' == c2) = false := by simpa using fun h => hn h.symm
  have h6 : ('r' == c2) = false := by simpa using fun h => hr h.symm
  have h7 : ('q' == c2) = false := by simpa using fun h => hq h.symm
  have h8 : ('t' == c2) = false := by simpa using fun h => ht h.symm
  simp only [h1, h2, h3, h4, h5, h6, h7, h8, ha, hb, he, hf, hn, hr, hq, ht, if_false,
    Option.toList]

/-- With every write succeeding, the loop of `bc_program_printString` emits the
unescaped text of a string none of whose backslashes is its last character. -/
theorem printString_loop_unescape (putchar : List Char → Char → Bool)
    (hw : ∀ o c, putchar o c = true) :
    ∀ (k : Nat) (cs : List Char) (nchars : Nat) (out : List Char), cs.length = k →
      (∀ i, i < cs.length → cs[i]? = some '\\' → i + 1 < cs.length) →
      ∃ n, bc_program_printString_loop putchar cs nchars out =
        some (.SUCCESS, n, out ++ unescape cs) := by
  intro k
  induction k using Nat.strong_induction_on with
  | _ k ih =>
    intro cs nchars out hk hesc
    cases cs with
    | nil => exact ⟨nchars, by simp [bc_program_printString_loop, unescape]⟩
    | cons c rest =>
      by_cases hc : c = '\\'
      · subst hc
        cases rest with
        | nil =>
          have := hesc 0 (by simp) (by simp)
          simp at this
        | cons c2 rest2 =>
          have hesc2 : ∀ i, i < rest2.length → rest2[i]? = some '\\' → i + 1 < rest2.length := by
            intro i hi h
            have := hesc (i + 2) (by simp; omega) (by simpa using h)
            simp at this
            omega
          rw [bc_program_printString_loop.eq_def]
          simp only [ne_eq, not_true_eq_false, if_false, hw, if_true]
          unfold unescape
          simp only [if_true]
          rw [escape_table]
          cases he : bc_program_printString_escape c2 with
          | none =>
            obtain ⟨n, hn⟩ := ih rest2.length (by simp at hk; omega) rest2
              ((nchars + 1) % (SIZE_MAX + 1)) out rfl hesc2
            exact ⟨n, by simpa using hn⟩
          | some e =>
            obtain ⟨n, hn⟩ := ih rest2.length (by simp at hk; omega) rest2
              (((if c2 = 'n' then SIZE_MAX else nchars) + 1) % (SIZE_MAX + 1)) (out ++ [e])
              rfl hesc2
            exact ⟨n, by simpa using hn⟩
      · have hesc2 : ∀ i, i < rest.length → rest[i]? = some '\\' → i + 1 < rest.length := by
          intro i hi h
          have := hesc (i + 1) (by simp; omega) (by simpa using h)
          simp at this
          omega
        rw [bc_program_printString_loop.eq_def]
        simp only [ne_eq, hc, not_false_eq_true, if_true, hw]
        unfold unescape
        simp only [hc, if_false]
        obtain ⟨n, hn⟩ := ih rest.length (by simp at hk; omega) rest
          ((nchars + 1) % (SIZE_MAX + 1)) (out ++ [c]) rfl hesc2
        exact ⟨n, by simpa using hn⟩

/-- C21 (escape processing): for a string none of whose backslashes is its last
character, and with every write succeeding, `bc_program_printString` returns
`BC_STATUS_SUCCESS` and has written the unescaped text of the string: every
character that is not a backslash as it is, and for every backslash and the
character after it the single character of the table (`\a` BEL, `\b` backspace,
`\e` backslash, `\f` form feed, `\n` newline, `\r` carriage return, `\q` double
quote, `\t` tab), or nothing when the character is not in the table. -/
theorem printString_escapes (putchar : List Char → Char → Bool) (str : String)
    (nchars : Nat) (out : List Char)
    (hw : ∀ o c, putchar o c = true)
    (hesc : ∀ i, i < str.toList.length → str.toList[i]? = some '\\' →
      i + 1 < str.toList.length) :
    ∃ n, bc_program_printString putchar str nchars out =
      some (.SUCCESS, n, out ++ unescape str.toList) :=
  printString_loop_unescape putchar hw _ str.toList nchars out rfl hesc

/-- C21, an instance: the string `a\tb\zc` is written as `a`, a tab, `b` and
`c`. -/
theorem printString_escapes_witness :
    ∃ n, bc_program_printString (fun _ _ => true) "a\\tb\\zc" 0 [] =
      some (.SUCCESS, n, [] ++ unescape "a\\tb\\zc".toList) :=
  printString_escapes (fun _ _ => true) "a\\tb\\zc" 0 [] (fun _ _ => rfl) (by decide)

/-! ## The LENGTH builtin -/

theorem size_sub_one_succ {m : Nat} (hm : m + 1 ≤ SIZE_MAX) : size_sub (m + 1) 1 = m := by
  rw [size_sub_eq (by omega) hm]; rfl

theorem size_sub_zero_one : size_sub 0 1 = SIZE_MAX := by
  unfold size_sub SIZE_MAX; norm_num

theorem zerosFromTop_take_succ (num : List Nat) (m d : Nat) (hd : num[m]? = some d) :
    zerosFromTop (num.take (m + 1)) =
      if d = 0 then zerosFromTop (num.take m) + 1 else 0 := by
  have hm : m < num.length := getElem?_lt hd
  have ht : num.take (m + 1) = num.take m ++ [d] := by
    rw [List.take_succ, hd]; rfl
  unfold zerosFromTop
  rw [ht, List.reverse_append]
  simp only [List.reverse_cons, List.reverse_nil, List.nil_append, List.singleton_append,
    List.takeWhile_cons]
  by_cases h0 : d = 0
  · simp [h0]
  · simp [h0]

/-- The loop of `bc_program_length`, entered with `len = m` and `i = m - 1`
(wrapped around for `m = 0`), ends and strips the zeros on top of the lowest
`m` digits. -/
theorem length_loop_strips (num : List Nat) (hsz : num.length ≤ SIZE_MAX) :
    ∀ (m fuel : Nat), m ≤ num.length → m + 1 ≤ fuel →
      bc_program_length_loop num num.length fuel (size_sub m 1) m =
        some (m - zerosFromTop (num.take m)) := by
  intro m
  induction m with
  | zero =>
    intro fuel _ hf
    obtain ⟨f, rfl⟩ : ∃ f, fuel = f + 1 := ⟨fuel - 1, by omega⟩
    rw [bc_program_length_loop, size_sub_zero_one, if_neg (by omega)]
    simp
  | succ m ih =>
    intro fuel hm hf
    obtain ⟨f, rfl⟩ : ∃ f, fuel = f + 1 := ⟨fuel - 1, by omega⟩
    have hi : size_sub (m + 1) 1 = m := size_sub_one_succ (by omega)
    rw [bc_program_length_loop, hi, if_pos (by omega)]
    have hd : num[m]? = some (num[m]) := List.getElem?_eq_getElem (by omega)
    rw [hd]
    simp only
    rw [zerosFromTop_take_succ num m _ hd]
    by_cases h0 : num[m] = 0
    · rw [if_pos h0, if_pos h0, ih f (by omega) (by omega), Nat.add_sub_add_right]
    · rw [if_neg h0, if_neg h0]
      rfl

theorem zerosFromTop_all_zero (num : List Nat) (h : ∀ d ∈ num, d = 0) :
    zerosFromTop num = num.length := by
  unfold zerosFromTop
  rw [List.takeWhile_eq_self_iff.mpr]
  · simp
  · intro d hd
    simp [h d (List.mem_reverse.mp hd)]

theorem takeWhile_stops {α : Type} (p : α → Bool) : ∀ (l : List α), (∃ x ∈ l, p x = false) →
    ∃ x, l[(l.takeWhile p).length]? = some x ∧ p x = false := by
  intro l
  induction l with
  | nil => rintro ⟨x, hx, _⟩; cases hx
  | cons a rest ih =>
    rintro ⟨x, hx, hpx⟩
    cases hpa : p a with
    | false => exact ⟨a, by simp [List.takeWhile_cons, hpa], hpa⟩
    | true =>
      have hx2 : x ∈ rest := by
        rcases List.mem_cons.mp hx with h | h
        · subst h; rw [hpa] at hpx; cases hpx
        · exact h
      obtain ⟨y, hy, hpy⟩ := ih ⟨x, hx2, hpx⟩
      exact ⟨y, by simpa [List.takeWhile_cons, hpa] using hy, hpy⟩

/-- C22 (LENGTH builtin): `bc_program_length` returns: `len` when `rdx`
differs from `len`; and when they are equal, for a number of `len` digits, `len`
minus the number of consecutive zero digits counted from the highest index
downward.  In that case the result is 0 when all the digits are zero (so for
`len = 0`), and otherwise the digit just below the result is not zero: the
result counts the digits up to the highest one that is not zero. -/
theorem length_counts (nlen rdx : Nat) (num : List Nat) :
    (rdx ≠ nlen → bc_program_length nlen rdx num = some nlen) ∧
    (rdx = nlen → num.length = nlen → nlen ≤ SIZE_MAX →
      bc_program_length nlen rdx num = some (nlen - zerosFromTop num) ∧
      ((∀ d ∈ num, d = 0) → bc_program_length nlen rdx num = some 0) ∧
      ((∃ d ∈ num, d ≠ 0) → 0 < nlen - zerosFromTop num ∧
        ∃ d, num[nlen - zerosFromTop num - 1]? = some d ∧ d ≠ 0)) := by
  constructor
  · intro h
    unfold bc_program_length
    rw [if_neg h]
  · intro h hlen hsz
    subst hlen
    have h1 : bc_program_length num.length rdx num = some (num.length - zerosFromTop num) := by
      unfold bc_program_length
      rw [if_pos h, length_loop_strips num hsz num.length _ (Nat.le_refl _) (Nat.le_refl _),
        List.take_length]
    refine ⟨h1, ?_, ?_⟩
    · intro hz
      rw [h1, zerosFromTop_all_zero num hz, Nat.sub_self]
    · rintro ⟨d, hd, hd0⟩
      obtain ⟨x, hx, hpx⟩ := takeWhile_stops (fun d => d == 0) num.reverse
        ⟨d, List.mem_reverse.mpr hd, by simpa using hd0⟩
      have hlt : zerosFromTop num < num.length := by
        have := getElem?_lt hx
        simpa [zerosFromTop] using this
      refine ⟨by omega, x, ?_, by simpa using hpx⟩
      have hrev := List.getElem?_reverse (l := num) (i := zerosFromTop num) hlt
      have hx2 : num.reverse[zerosFromTop num]? = some x := hx
      rw [hrev] at hx2
      rw [← hx2]
      congr 1
      omega

/-- C22, an instance: the number `.001`, stored as the three digits 1, 0, 0
with `rdx = len = 3`, has length 3 minus the two zeros on top. -/
theorem length_counts_witness :
    bc_program_length 3 3 [1, 0, 0] = some (3 - zerosFromTop [1, 0, 0]) :=
  ((length_counts 3 3 [1, 0, 0]).2 rfl rfl (by decide)).1

/-! ## Constant materialisation -/

/-- C27 (constant materialisation): on a `Constant` slot whose literal is `s`,
`bc_program_num` parses `s` in base 16 when `hex` is set and `s` has one
character, and in the working input base `ibase_t` otherwise; when the parse
gives `n` the slot becomes the `Intermediate` `n`, and materialising it again
gives the same slot and number whatever the input base has become and whatever
`hex` is; when the parse fails its status is returned.  The flag `hex` is what
`bc_program_binaryOpPrep` passes for its right operand when the left operand is
`IBase` or `OBase`; it is clear for the left operand and for the operand of
`bc_program_unaryOpPrep`. -/
theorem num_constant (p : BcProgram) (ri : Nat) (hex : Bool) (name : String) (cidx : Nat)
    (s : String)
    (hslot : p.results[ri]? = some ⟨.CONSTANT, .id name cidx⟩)
    (hs : p.constants[cidx]? = some s) :
    (∀ n, bc_num_parse s
        (if hex = true ∧ s.length = 1 then BC_NUM_MAX_INPUT_BASE else p.ibase_t) = .ok n →
      bc_program_num p ri hex =
        .ok { p with results := p.results.set ri ⟨.INTERMEDIATE, .num n⟩ } (.result ri) ∧
      readNum { p with results := p.results.set ri ⟨.INTERMEDIATE, .num n⟩ } (.result ri) =
        some n ∧
      ∀ (b2 : Nat) (bnum : BcNum) (hex2 : Bool),
        bc_program_num
            { p with
              results := p.results.set ri ⟨.INTERMEDIATE, .num n⟩,
              ibase_t := b2,
              ibase := bnum } ri hex2 =
          .ok { p with
                results := p.results.set ri ⟨.INTERMEDIATE, .num n⟩,
                ibase_t := b2,
                ibase := bnum } (.result ri)) ∧
    (∀ e, bc_num_parse s
        (if hex = true ∧ s.length = 1 then BC_NUM_MAX_INPUT_BASE else p.ibase_t) = .error e →
      (bc_program_num p ri hex).status = some e) ∧
    (∀ (p0 p1 : BcProgram) (o : BcOperands) (l : BcResult),
      bc_program_binaryOpPrep p0 = .ok p1 o → bc_vec_item_rev p0.results 1 = some l →
      ∃ pa lv, bc_program_num p0 (p0.results.length - 2) false = .ok pa lv ∧
        bc_program_num pa (p0.results.length - 1)
          (decide (l.type = .IBASE) || decide (l.type = .OBASE)) = .ok p1 o.rval ∧
        o.lval = (if ptrKept pa p1 lv then lv else .dangling)) ∧
    (∀ (p0 p1 : BcProgram) (k : Nat) (loc : BcLoc),
      bc_program_unaryOpPrep p0 = .ok p1 (k, loc) →
      bc_program_num p0 (p0.results.length - 1) false = .ok p1 loc) := by
  have hif : (if (hex && s.length == 1) = true then BC_NUM_MAX_INPUT_BASE else p.ibase_t) =
      (if hex = true ∧ s.length = 1 then BC_NUM_MAX_INPUT_BASE else p.ibase_t) := by
    cases hex <;> simp
  have hlt : ri < p.results.length := getElem?_lt hslot
  refine ⟨?_, ?_, ?_, ?_⟩
  · intro n hn
    refine ⟨?_, ?_, ?_⟩
    · unfold bc_program_num
      simp only [hslot, hs, hif, hn]
    · simp only [readNum]
      rw [List.getElem?_set_self hlt]
    · intro b2 bnum hex2
      unfold bc_program_num
      simp only
      rw [List.getElem?_set_self hlt]
  · intro e he
    unfold bc_program_num
    simp only [hslot, hs, hif, he]
    rfl
  · intro p0 p1 o l hprep hl
    obtain ⟨pa, lv, h1, h2, h3, -, -⟩ := binaryOpPrep_reads hprep hl
    exact ⟨pa, lv, h1, h2, h3⟩
  · intro p0 p1 k loc hprep
    exact ((unaryOpPrep_outcome p0).1 p1 k loc hprep).2.2.2

/-- C27, an instance: the literal `1` to the right of `ibase` is read with the
flag `hex` set, in base 16, and the slot becomes the `Intermediate` 1. -/
theorem num_constant_witness :
    bc_program_num ibaseOneState 1 true =
      .ok { ibaseOneState with
            results := ibaseOneState.results.set 1 ⟨.INTERMEDIATE, .num ⟨1, 0, false⟩⟩ }
        (.result 1) :=
  ((num_constant ibaseOneState 1 true "" 0 "1" rfl rfl).1 ⟨1, 0, false⟩ rfl).1

/-! ## Jumps -/

theorem getLast?_concat {α : Type} (l : List α) (x : α) : (l ++ [x]).getLast? = some x := by
  simp

theorem dropLast_concat_eq {α : Type} (l : List α) (x : α) : (l ++ [x]).dropLast = l := by
  simp

/-- The jump itself: the counter of the top frame becomes the label when the
jump is taken and stands past the immediate when it is not. -/
theorem exec_JUMP_eq (func : BcFunc) (q : BcProgram) (below : List BcInstPtr) (fr : BcInstPtr)
    (taken : Bool) (idx start addr : Nat)
    (hst : q.stack = below ++ [fr])
    (hidx : bc_program_index func.code fr.idx = some (idx, start))
    (hlab : func.labels[idx]? = some addr) :
    bc_program_exec_JUMP func q taken =
      .ok { q with stack := below ++ [{ fr with idx := if taken then addr else start }] } () := by
  unfold bc_program_exec_JUMP
  simp only [hst, getLast?_concat, hidx, hlab, dropLast_concat_eq]

/-- C29 (jumps): in a round of `bc_program_exec` that fetches `BC_INST_JUMP`
with the immediate `idx`, the counter of the top frame becomes `labels[idx]` of
the function of that frame and nothing else changes; in a round that fetches
`BC_INST_JUMP_ZERO`, with the operand materialised to the value `v`, the top of
the result stack is popped and the counter becomes `labels[idx]` when `v` is
zero and stands just past the immediate when it is not.  The loop goes on from
the program so obtained. -/
theorem exec_jumps (env : BcEnv) (fuel : Nat) (p : BcProgram) (w : BcWorld) (ip : BcInstPtr)
    (func : BcFunc) (idx start addr : Nat)
    (hip : p.stack.getLast? = some ip) (hfunc : p.funcs[ip.func]? = some func)
    (hsig : env.sig_int w.polls = false) (hlt : ip.idx < func.code.length)
    (hidx : bc_program_index func.code (ip.idx + 1) = some (idx, start))
    (hlab : func.labels[idx]? = some addr) :
    ((func.code[ip.idx]?).bind (decodeInst env.inst) = some .JUMP →
      bc_program_exec env (fuel + 1) p w =
        bc_program_exec env fuel
          { p with stack := p.stack.dropLast ++ [{ ip with idx := addr }] }
          { w with polls := w.polls + 1 }) ∧
    (∀ p1 k loc v, (func.code[ip.idx]?).bind (decodeInst env.inst) = some .JUMP_ZERO →
      p.zero = bc_num_zero →
      bc_program_unaryOpPrep
        { p with stack := p.stack.dropLast ++ [{ ip with idx := ip.idx + 1 }] } =
          .ok p1 (k, loc) →
      readNum p1 loc = some v →
      bc_program_exec env (fuel + 1) p w =
        bc_program_exec env fuel
          { p1 with
            results := p1.results.dropLast,
            stack := p.stack.dropLast ++
              [{ ip with idx := if v.val = 0 then addr else start }] }
          { w with polls := w.polls + 1 } ∧
      p1.results.dropLast.length + 1 = p.results.length) := by
  constructor
  · intro hinst
    rw [bc_program_exec]
    simp only [hip, hfunc, hsig, hlt, and_self, if_true, hinst, bc_program_exec_inst]
    rw [exec_JUMP_eq func _ p.stack.dropLast { ip with idx := ip.idx + 1 } true idx start addr
      rfl hidx hlab]
    simp only [if_true]
  · intro p1 k loc v hinst hz hprep hv
    obtain ⟨hext, hpos, -, -⟩ := (unaryOpPrep_outcome _).1 p1 k loc hprep
    have hlen : p1.results.length = p.results.length := hext.rlen
    have hpop : bc_vec_pop p1.results = some p1.results.dropLast := by
      cases hr : p1.results with
      | nil => rw [hr] at hlen; simp only at hpos; simp at hlen; omega
      | cons x xs => rfl
    have hz1 : p1.zero = bc_num_zero := by rw [hext.zero]; exact hz
    have hst : p1.stack = p.stack.dropLast ++ [{ ip with idx := ip.idx + 1 }] := hext.stack
    have hcond : decide (bc_num_cmp v p1.zero = 0) = decide (v.val = 0) := by
      rw [hz1]
      simp only [cmp_zero]
    constructor
    · rw [bc_program_exec]
      simp only [hip, hfunc, hsig, hlt, and_self, if_true, hinst, bc_program_exec_inst,
        bc_program_exec_JUMP_ZERO, hprep, hv, hpop]
      rw [exec_JUMP_eq func { p1 with results := p1.results.dropLast } p.stack.dropLast
        { ip with idx := ip.idx + 1 } (decide (bc_num_cmp v p1.zero = 0)) idx start addr hst
        hidx hlab, hcond]
      simp only [decide_eq_true_eq]
    · simp only [List.length_dropLast]
      simp only at hpos
      omega

/-- C29, an instance: the jump to label 0 moves the counter from 0 to 4 and
the loop goes on from there. -/
theorem exec_jumps_witness :
    bc_program_exec (exampleEnv false) (1 + 1) jumpImage startWorld =
      bc_program_exec (exampleEnv false) 1
        { jumpImage with
          stack := jumpImage.stack.dropLast ++ [{ (⟨0, 0, 0⟩ : BcInstPtr) with idx := 4 }] }
        { startWorld with polls := startWorld.polls + 1 } :=
  (exec_jumps (exampleEnv false) 1 jumpImage startWorld ⟨0, 0, 0⟩
    ⟨[5, 1, 0, 21, 21], [4], 0, []⟩ 0 3 4 rfl rfl rfl (by decide) (by decide)
    (by decide)).1 (by decide)

/-! ## HALT and error propagation -/

/-- C23, the claim as stated fails: with the flag `bcg.sig_int` found set at
the second test of the loop condition, `bc_program_exec` on the program
`1 + 2; halt` returns `BC_STATUS_SUCCESS` after the first opcode, with the
counter of the top frame at 3, not at the end of the 8 bytes of code. -/
theorem exec_success_before_end :
    bc_program_exec (interruptEnv 1) 3 haltImage startWorld =
      some (.ok { haltImage with
                  results := [⟨.CONSTANT, .id "" 0⟩],
                  stack := [⟨0, 3, 0⟩] } (), ⟨2, 0, []⟩) ∧
    (haltImage.funcs[0]?).map (fun f => decide (3 < f.code.length)) = some true := by
  decide

/-! ## The initial image -/

theorem init_eq (plat : BcLimits) (p : BcProgram)
    (h : plat.base_max ≤ BC_BASE_MAX_DEF ∧ plat.dim_max ≤ BC_DIM_MAX_DEF ∧
      plat.scale_max ≤ BC_SCALE_MAX_DEF ∧ plat.string_max ≤ BC_STRING_MAX_DEF) :
    bc_program_init plat p = .ok startImage () := by
  unfold bc_program_init
  rw [if_neg (not_not.mpr h)]
  rfl

/-- C24 (initial program image): `bc_program_init` succeeds when the platform
reports no limit above the compiled-in one, and whenever it succeeds,
whatever the platform reports and whatever the memory held, the image is the
same: two empty functions, `main` bound to index 0 and `read` to index 1, the
bases 10, `scale` 0, `last` and `zero` 0, `one` 1, the limits 99, 65535, 65535
and 65535, no variable, array, string, constant or result, `nchars` 0, and the
one frame `{func = 0, idx = 0, base = 0}`. -/
theorem init_image (plat : BcLimits) (p : BcProgram) :
    (plat.base_max ≤ 99 ∧ plat.dim_max ≤ 65535 ∧ plat.scale_max ≤ 65535 ∧
        plat.string_max ≤ 65535 →
      bc_program_init plat p = .ok startImage ()) ∧
    (∀ q, bc_program_init plat p = .ok q () →
      q.funcs = [bc_func_init, bc_func_init] ∧
      q.func_map.length = 2 ∧
      entryOf bc_lang_func_main q.func_map = some ⟨bc_lang_func_main, 0⟩ ∧
      entryOf bc_lang_func_read q.func_map = some ⟨bc_lang_func_read, 1⟩ ∧
      q.ibase_t = 10 ∧ q.ibase = bc_num_ten ∧ q.obase_t = 10 ∧ q.obase = bc_num_ten ∧
      q.scale = 0 ∧ q.last = bc_num_zero ∧ q.zero = bc_num_zero ∧ q.one = bc_num_one ∧
      q.base_max = 99 ∧ q.dim_max = 65535 ∧ q.scale_max = 65535 ∧ q.string_max = 65535 ∧
      q.vars = [] ∧ q.var_map = [] ∧ q.arrays = [] ∧ q.array_map = [] ∧
      q.strings = [] ∧ q.constants = [] ∧
      q.results = [] ∧ q.nchars = 0 ∧ q.stack = [⟨0, 0, 0⟩]) := by
  constructor
  · intro h
    exact init_eq plat p h
  · intro q hq
    by_cases h : plat.base_max ≤ BC_BASE_MAX_DEF ∧ plat.dim_max ≤ BC_DIM_MAX_DEF ∧
        plat.scale_max ≤ BC_SCALE_MAX_DEF ∧ plat.string_max ≤ BC_STRING_MAX_DEF
    · rw [init_eq plat p h] at hq
      simp only [BcRet.ok.injEq, and_true] at hq
      subst hq
      decide
    · unfold bc_program_init at hq
      rw [if_pos h] at hq
      cases hq

/-- C24, an instance: a platform that reports the limits of POSIX. -/
theorem init_image_witness :
    bc_program_init ⟨99, 2048, 99, 1000⟩ startImage = .ok startImage () :=
  (init_image ⟨99, 2048, 99, 1000⟩ startImage).1 (by decide)

/-! ## C25: the layout of the locals after a call -/

/-- C25 (frame layout after a call): the call `f()` of a function whose autos
are the scalar `x` (auto 0) and the array `a` (auto 1) succeeds and pushes two
entries above the recorded base 0, but the slot at base + 0 is an `AutoArray`
and the slot at base + 1 an `AutoVar`: the kinds of the locals are laid out in
reverse.  A lookup of the scalar `x` in the callee is then given slot base + 0,
which holds no number. -/
theorem call_locals_reversed :
    ∃ q, bc_program_call localsState localsCode = .ok q () ∧
      q.stack = [⟨0, 4, 0⟩, ⟨2, 0, 0⟩] ∧
      (q.funcs[2]?).map (fun f => f.autos) = some [⟨"x", true⟩, ⟨"a", false⟩] ∧
      q.results = [⟨.ARRAY_AUTO, .array []⟩, ⟨.VAR_AUTO, .num ⟨0, 0, false⟩⟩] ∧
      bc_program_search q "x" 0 ⟨true, false⟩ = .ok q (.result 0) ∧
      readNum q (.result 0) = none ∧
      bc_program_search q "a" 0 ⟨false, true⟩ = .ok q (.result 1) ∧
      readArray q (.result 1) = none :=
  ⟨{ localsState with
      stack := [⟨0, 4, 0⟩, ⟨2, 0, 0⟩],
      results := [⟨.ARRAY_AUTO, .array []⟩, ⟨.VAR_AUTO, .num ⟨0, 0, false⟩⟩] }, by decide⟩

/-! ## Lemmas: what materialisation leaves on the result stack -/

theorem getElem?_take_some {α : Type} {l : List α} {n j : Nat} {a : α}
    (h : (l.take n)[j]? = some a) : j < n ∧ l[j]? = some a := by
  rcases Nat.lt_or_ge j n with hlt | hge
  · rw [List.getElem?_take_of_lt hlt] at h; exact ⟨hlt, h⟩
  · rw [List.getElem?_eq_none (by simp; omega)] at h; cases h

/-- A number read under a given height of the result stack is there in the
whole stack. -/
theorem read_take_some {q : BcProgram} {n : Nat} {loc : BcLoc} {v : BcNum}
    (h : readNum { q with results := q.results.take n } loc = some v) :
    readNum q loc = some v := by
  cases loc with
  | result j =>
    simp only [readNum] at h ⊢
    split at h
    · rename_i t x hx
      rw [(getElem?_take_some hx).2]; exact h
    · cases h
  | resultElem j k =>
    simp only [readNum] at h ⊢
    split at h
    · rename_i t x hx
      rw [(getElem?_take_some hx).2]; exact h
    · cases h
  | var j => exact h
  | arrayElem j k => exact h
  | array j => exact h
  | last => exact h
  | ibase => exact h
  | obase => exact h
  | one => exact h
  | dangling => exact h

/-- What materialisation leaves alone, it leaves alone under every height of
the result stack. -/
theorem extends_take {p q : BcProgram} (h : Extends p q) (n : Nat) :
    Extends { p with results := p.results.take n } { q with results := q.results.take n } := by
  have key : ∀ j, j < n → ∀ (l : List BcResult), (l.take n)[j]? = l[j]? :=
    fun j hj l => List.getElem?_take_of_lt hj
  refine
    { ibase := h.ibase, ibase_t := h.ibase_t, obase := h.obase, obase_t := h.obase_t,
      scale := h.scale, base_max := h.base_max, dim_max := h.dim_max,
      scale_max := h.scale_max, string_max := h.string_max, last := h.last, zero := h.zero,
      one := h.one, funcs := h.funcs, func_map := h.func_map, strings := h.strings,
      constants := h.constants, stack := h.stack, nchars := h.nchars, rlen := ?_,
      vlen := h.vlen, reads := ?_, entries := h.entries, types := ?_ }
  · simp only [List.length_take, h.rlen]
  · intro loc v hv
    cases loc with
    | result j =>
      simp only [readNum] at hv
      split at hv
      · rename_i t x hx
        obtain ⟨hj, hx2⟩ := getElem?_take_some hx
        have h1 : readNum p (.result j) = some v := by
          simp only [readNum]; rw [hx2]; exact hv
        have h2 := h.reads _ _ h1
        simp only [readNum] at h2 ⊢
        rw [key j hj]; exact h2
      · cases hv
    | resultElem j k =>
      simp only [readNum] at hv
      split at hv
      · rename_i t x hx
        obtain ⟨hj, hx2⟩ := getElem?_take_some hx
        have h1 : readNum p (.resultElem j k) = some v := by
          simp only [readNum]; rw [hx2]; exact hv
        have h2 := h.reads _ _ h1
        simp only [readNum] at h2 ⊢
        rw [key j hj]; exact h2
      · cases hv
    | var j => exact h.reads (.var j) v hv
    | arrayElem j k => exact h.reads (.arrayElem j k) v hv
    | array j => exact h.reads (.array j) v hv
    | last => exact h.reads .last v hv
    | ibase => exact h.reads .ibase v hv
    | obase => exact h.reads .obase v hv
    | one => exact h.reads .one v hv
    | dangling => exact h.reads .dangling v hv
  · intro j l hl
    obtain ⟨hj, hl2⟩ := getElem?_take_some hl
    obtain ⟨l2, hl3, ht⟩ := h.types j l hl2
    exact ⟨l2, by simp only; rw [key j hj]; exact hl3, ht⟩

theorem search_autos_nonarray {p : BcProgram} {ip : BcInstPtr} {x : String} {r : Nat}
    {flags : BcSearchFlags} :
    ∀ (autos : List BcAuto) (idx : Nat) (q : BcProgram) (loc : BcLoc),
      bc_program_search_autos p ip x r flags autos idx = some (.ok q loc) →
      ∀ (j : Nat) (l : BcResult), p.results[j]? = some l → (∀ a, l.data ≠ .array a) →
        q.results[j]? = some l := by
  intro autos
  induction autos with
  | nil => intro idx q loc h; simp [bc_program_search_autos] at h
  | cons a rest ih =>
    intro idx q loc h j l hl hd
    unfold bc_program_search_autos at h
    by_cases hn : a.name = x
    · simp only [hn, if_true] at h
      split at h
      · cases h
      · split at h
        · cases h
        · rename_i rr hr
          split at h
          · simp only [Option.some.injEq, BcRet.ok.injEq] at h
            rw [← h.1]; exact hl
          · split at h
            · rename_i arr hda
              simp only [Option.some.injEq, BcRet.ok.injEq] at h
              rw [← h.1]
              simp only
              by_cases hj : ip.len + idx = j
              · rw [hj, hl] at hr
                simp only [Option.some.injEq] at hr
                rw [hr] at hd
                exact absurd hda (hd arr)
              · rw [List.getElem?_set_ne hj]; exact hl
            · cases h
    · simp only [hn, if_false] at h
      exact ih _ q loc h j l hl hd

theorem search_frames_nonarray {p : BcProgram} {x : String} {r : Nat} {flags : BcSearchFlags} :
    ∀ (fs : List BcInstPtr) (q : BcProgram) (loc : BcLoc),
      bc_program_search_frames p x r flags fs = some (.ok q loc) →
      ∀ (j : Nat) (l : BcResult), p.results[j]? = some l → (∀ a, l.data ≠ .array a) →
        q.results[j]? = some l := by
  intro fs
  induction fs with
  | nil => intro q loc h; simp [bc_program_search_frames] at h
  | cons ip rest ih =>
    intro q loc h
    unfold bc_program_search_frames at h
    split at h
    · exact ih q loc h
    · split at h
      · simp at h
      · split at h
        · rename_i ret hret
          simp only [Option.some.injEq] at h
          subst h
          exact search_autos_nonarray _ _ q loc hret
        · exact ih q loc h

theorem search_global_results {p q : BcProgram} {x : String} {r : Nat} {flags : BcSearchFlags}
    {loc : BcLoc} (h : bc_program_search_global p x r flags = .ok q loc) :
    q.results = p.results := by
  unfold bc_program_search_global bc_veco_insert at h
  cases hv : flags.var with
  | true =>
    simp only [hv, if_true] at h
    cases hp : entryPos x p.var_map with
    | none =>
      simp only [hp, ne_eq, reduceCtorEq, not_false_eq_true, if_true] at h
      repeat' split at h
      all_goals first
        | (cases h; rfl)
        | cases h
    | some i =>
      simp only [hp, ne_eq, not_true_eq_false, if_false] at h
      repeat' split at h
      all_goals first
        | (cases h; rfl)
        | cases h
  | false =>
    simp only [hv, Bool.false_eq_true, if_false] at h
    cases hp : entryPos x p.array_map with
    | none =>
      simp only [hp, ne_eq, reduceCtorEq, not_false_eq_true, if_true] at h
      repeat' split at h
      all_goals first
        | (cases h; rfl)
        | cases h
    | some i =>
      simp only [hp, ne_eq, not_true_eq_false, if_false] at h
      repeat' split at h
      all_goals first
        | (cases h; rfl)
        | cases h

/-- A lookup changes no slot of the result stack but one that holds an
array. -/
theorem search_nonarray {p q : BcProgram} {x : String} {r : Nat} {flags : BcSearchFlags}
    {loc : BcLoc} (h : bc_program_search p x r flags = .ok q loc) :
    ∀ (j : Nat) (l : BcResult), p.results[j]? = some l → (∀ a, l.data ≠ .array a) →
      q.results[j]? = some l := by
  unfold bc_program_search at h
  split at h
  · cases h
  · split at h
    · rename_i ret hret
      subst h
      exact search_frames_nonarray _ q loc hret
    · intro j l hl _
      rw [search_global_results h]; exact hl

/-- Materialising a slot changes no other slot of the result stack but one that
holds an array. -/
theorem num_nonarray {p q : BcProgram} {ri : Nat} {hex : Bool} {loc : BcLoc}
    (h : bc_program_num p ri hex = .ok q loc) :
    ∀ (j : Nat) (l : BcResult), j ≠ ri → p.results[j]? = some l → (∀ a, l.data ≠ .array a) →
      q.results[j]? = some l := by
  intro j l hj hl hd
  unfold bc_program_num at h
  cases hr : p.results[ri]? with
  | none => rw [hr] at h; cases h
  | some r =>
    rw [hr] at h
    simp only at h
    rcases r with ⟨t, d⟩
    cases t with
    | INTERMEDIATE => simp only [BcRet.ok.injEq] at h; rw [← h.1]; exact hl
    | SCALE => simp only [BcRet.ok.injEq] at h; rw [← h.1]; exact hl
    | CONSTANT =>
      simp only at h
      repeat' split at h
      all_goals first
        | (cases h; simp only; rw [List.getElem?_set_ne (fun e => hj e.symm)]; exact hl)
        | cases h
    | VAR =>
      simp only at h
      split at h
      · exact search_nonarray h j l hl hd
      · cases h
    | ARRAY =>
      simp only at h
      split at h
      · exact search_nonarray h j l hl hd
      · cases h
    | LAST => simp only [BcRet.ok.injEq] at h; rw [← h.1]; exact hl
    | IBASE => simp only [BcRet.ok.injEq] at h; rw [← h.1]; exact hl
    | OBASE => simp only [BcRet.ok.injEq] at h; rw [← h.1]; exact hl
    | ONE => simp only [BcRet.ok.injEq] at h; rw [← h.1]; exact hl
    | ARRAY_AUTO => cases h
    | VAR_AUTO => cases h

/-- The second loop of `bc_program_call` appends one entry per round and
changes nothing else. -/
theorem call_autos_appends (func : BcFunc) :
    ∀ (n i : Nat) (s q : BcProgram), bc_program_call_autos func n i s = .ok q () →
      ∃ extra : List BcResult, extra.length = n ∧ q = { s with results := s.results ++ extra } := by
  intro n
  induction n with
  | zero =>
    intro i s q h
    simp only [bc_program_call_autos, BcRet.ok.injEq, and_true] at h
    exact ⟨[], rfl, by rw [← h]; simp⟩
  | succ n ih =>
    intro i s q h
    simp only [bc_program_call_autos] at h
    split at h
    · cases h
    · rename_i a ha
      obtain ⟨extra, hlen, hq⟩ := ih _ _ _ h
      refine ⟨(if a.var then ⟨.VAR_AUTO, .num (bc_num_init BC_NUM_DEF_SIZE)⟩
        else ⟨.ARRAY_AUTO, .array []⟩) :: extra, by simp [hlen], ?_⟩
      rw [hq]
      simp only [List.append_assoc, List.singleton_append]

/-! ## Lemmas: the first loop of `bc_program_call` -/

/-- The first loop of `bc_program_call` over scalar parameters: round `k`
materialises the operand `nparams - k` slots below the entries of the caller
and pushes a copy of its number, which stays where it is pushed. -/
theorem call_params_copies (func : BcFunc) (nparams : Nat) (p0 : BcProgram)
    (hargs : nparams ≤ p0.results.length)
    (hscalar : ∀ i a, i < nparams → func.autos[i]? = some a → a.var = true) :
    ∀ (n i : Nat) (s t : BcProgram), i + n = nparams → CopyStep p0 nparams s i →
      bc_program_call_params func nparams n i s = .ok t () →
      CopyStep p0 nparams t nparams ∧
      (∀ k x, k < i → s.results[p0.results.length + k]? = some ⟨.VAR_AUTO, .num x⟩ →
        t.results[p0.results.length + k]? = some ⟨.VAR_AUTO, .num x⟩) ∧
      (∀ k, i ≤ k → k < nparams → k < func.autos.length ∧
        ∃ s1 s2 loc v, CopyStep p0 nparams s1 k ∧
        bc_program_num s1 (p0.results.length - nparams + k) false = .ok s2 loc ∧
        readNum s2 loc = some v ∧
        t.results[p0.results.length + k]? = some ⟨.VAR_AUTO, .num v⟩) := by
  intro n
  induction n with
  | zero =>
    intro i s t hin hinv h
    simp only [bc_program_call_params, BcRet.ok.injEq, and_true] at h
    subst h
    have hi : i = nparams := by omega
    subst hi
    exact ⟨hinv, fun k x _ hx => hx, fun k hk1 hk2 => absurd hk2 (by omega)⟩
  | succ n ih =>
    intro i s t hin hinv h
    obtain ⟨hlen, hext, hpin⟩ := hinv
    have hi : i < nparams := by omega
    unfold bc_program_call_params at h
    cases ha : func.autos[i]? with
    | none => simp only [ha] at h; cases h
    | some a =>
      cases hr : bc_vec_item_rev s.results (nparams - 1) with
      | none => simp only [ha, hr] at h; cases h
      | some arg =>
        simp only [ha, hr] at h
        have hav := hscalar i a hi ha
        rw [if_pos hav] at h
        have hidx : s.results.length - (nparams - 1) - 1 = p0.results.length - nparams + i := by
          omega
        rw [hidx] at h
        cases hnum : bc_program_num s (p0.results.length - nparams + i) false with
        | abort => rw [hnum] at h; cases h
        | fail st q => rw [hnum] at h; cases h
        | ok s2 loc =>
          rw [hnum] at h
          simp only at h
          cases hv : readNum s2 loc with
          | none => rw [hv] at h; cases h
          | some v =>
            rw [hv] at h
            simp only [bc_num_copy] at h
            have hext2 := (num_outcome s _ false).1 s2 loc hnum
            have hlen2 : s2.results.length = p0.results.length + i := by
              rw [hext2.rlen, hlen]
            have hinv3 : CopyStep p0 nparams
                { s2 with results := s2.results ++ [⟨.VAR_AUTO, .num v⟩] } (i + 1) := by
              refine ⟨?_, ?_, ?_⟩
              · simp only [List.length_append, List.length_singleton, hlen2]; omega
              · have htk : (s2.results ++ [(⟨.VAR_AUTO, .num v⟩ : BcResult)]).take
                    p0.results.length = s2.results.take p0.results.length :=
                  List.take_append_of_le_length (by omega)
                show Extends p0 { s2 with
                  results := (s2.results ++ [(⟨.VAR_AUTO, .num v⟩ : BcResult)]).take
                    p0.results.length }
                rw [htk]
                exact Extends.trans hext (extends_take hext2 _)
              · intro j l hj hl hd
                have h1 : s.results[j]? = some l :=
                  hpin j l (by rcases hj with hj | hj; exact Or.inl hj; exact Or.inr (by omega))
                    hl hd
                have h2 := num_nonarray hnum j l (by omega) h1 hd
                show (s2.results ++ [(⟨.VAR_AUTO, .num v⟩ : BcResult)])[j]? = some l
                rw [List.getElem?_append_left (getElem?_lt h2)]; exact h2
            obtain ⟨hT, hkeep, hall⟩ := ih (i + 1) _ t (by omega) hinv3 h
            refine ⟨hT, ?_, ?_⟩
            · intro k x hk hx
              have h2 := num_nonarray hnum (p0.results.length + k) _ (by omega) hx
                (by intro a; simp)
              refine hkeep k x (by omega) ?_
              show (s2.results ++ [(⟨.VAR_AUTO, .num v⟩ : BcResult)])[p0.results.length + k]?
                = some _
              rw [List.getElem?_append_left (getElem?_lt h2)]; exact h2
            · intro k hk1 hk2
              by_cases hki : k = i
              · subst hki
                refine ⟨getElem?_lt ha, s, s2, loc, v, ⟨hlen, hext, hpin⟩, hnum, hv,
                  hkeep k v (by omega) ?_⟩
                show (s2.results ++ [(⟨.VAR_AUTO, .num v⟩ : BcResult)])[p0.results.length + k]?
                  = some _
                rw [← hlen2]
                simp
              · exact hall k (by omega) hk2

/-- The first loop of `bc_program_call` comes to an end only if the result stack
holds as many entries as there are arguments. -/
theorem call_params_args (func : BcFunc) (nparams : Nat) (s t : BcProgram)
    (h : bc_program_call_params func nparams nparams 0 s = .ok t ()) :
    nparams ≤ s.results.length := by
  cases nparams with
  | zero => exact Nat.zero_le _
  | succ m =>
    unfold bc_program_call_params at h
    cases ha : func.autos[0]? with
    | none => simp only [ha] at h; cases h
    | some a =>
      cases hr : bc_vec_item_rev s.results (m + 1 - 1) with
      | none => simp only [ha, hr] at h; cases h
      | some arg =>
        have := (item_rev_some hr).1
        omega

/-- The number the first loop of `bc_program_call` reads in a round, for the
operands whose value can be read off the program at the call: a number, a
literal of the constants pool, a scalar name that resolves to a storage holding
a number. -/
theorem copy_step_value {p0 s s2 : BcProgram} {nparams i : Nat} {loc : BcLoc} {v : BcNum}
    (hinv : CopyStep p0 nparams s i) (hargs : nparams ≤ p0.results.length) (hi : i < nparams)
    (hnum : bc_program_num s (p0.results.length - nparams + i) false = .ok s2 loc)
    (hv : readNum s2 loc = some v) :
    (∀ n, p0.results[p0.results.length - nparams + i]? = some ⟨.INTERMEDIATE, .num n⟩ →
      v = n) ∧
    (∀ nm c str n, p0.results[p0.results.length - nparams + i]? = some ⟨.CONSTANT, .id nm c⟩ →
      p0.constants[c]? = some str → bc_num_parse str p0.ibase_t = .ok n → v = n) ∧
    (∀ x k loc0 n, p0.results[p0.results.length - nparams + i]? = some ⟨.VAR, .id x k⟩ →
      Resolves p0 x loc0 → readNum p0 loc0 = some n → v = n) := by
  obtain ⟨hlen, hext, hpin⟩ := hinv
  have hjlt : p0.results.length - nparams + i < s.results.length := by omega
  refine ⟨?_, ?_, ?_⟩
  · intro n hp
    have hs := hpin _ _ (Or.inr (Nat.le_refl _)) hp (by intro a; simp)
    unfold bc_program_num at hnum
    rw [hs] at hnum
    simp only [BcRet.ok.injEq] at hnum
    rw [← hnum.1, ← hnum.2] at hv
    simp only [readNum, hs, Option.some.injEq] at hv
    exact hv.symm
  · intro nm c str n hp hc hparse
    have hs := hpin _ _ (Or.inr (Nat.le_refl _)) hp (by intro a; simp)
    have hcs : s.constants[c]? = some str := by
      have := hext.constants
      simp only at this
      rw [this]; exact hc
    have hib : s.ibase_t = p0.ibase_t := hext.ibase_t
    unfold bc_program_num at hnum
    rw [hs] at hnum
    simp only [hcs, Bool.false_and, Bool.false_eq_true, if_false, hib, hparse,
      BcRet.ok.injEq] at hnum
    rw [← hnum.1, ← hnum.2] at hv
    simp only [readNum, List.getElem?_set_self hjlt, Option.some.injEq] at hv
    exact hv.symm
  · intro x k loc0 n hp hres hread
    have hs := hpin _ _ (Or.inr (Nat.le_refl _)) hp (by intro a; simp)
    have hres2 : Resolves s x loc0 :=
      resolves_mono hres hext.stack hext.funcs (by omega) hext.vlen (hext.entries x)
    have hsearch := resolves_search hres2 k
    unfold bc_program_num at hnum
    rw [hs] at hnum
    simp only [decide_True, hsearch, BcRet.ok.injEq] at hnum
    rw [← hnum.1, ← hnum.2] at hv
    have h2 := read_take_some (hext.reads loc0 n hread)
    rw [h2] at hv
    simp only [Option.some.injEq] at hv
    exact hv.symm

/-! ## C26: scalar parameters are copied in order -/

/-- C26 (scalar parameters are copied in order): let the two immediates of a
call decode to the argument count `nparams` and the function index `fidx`, let
the first `nparams` autos of that function be scalars, and let `p0` be the
program at the call with the program counter of the caller past the
immediates.  If `bc_program_call` succeeds, then the result stack held at least
`nparams` entries, the argument count is the parameter count of the callee, and:
the frame pushed on the frames of `p0` is `(fidx, 0, length of the result stack
at the call)`; one entry per auto has been pushed; under the recorded base the
program has everything it had (every slot in place with its tag, a `Constant`
excepted that has become an `Intermediate`, and every number); and for every
`i < nparams` the slot at base + `i` is an `AutoVar` holding the number that
materialising the operand `nparams - i` slots under the base gave when the
`i` arguments before it had been copied, which is the number itself for a
number, the parsed literal for a literal of the constants pool, and the number
held by the storage a scalar name resolves to. -/
theorem call_copies_params (p p0 q : BcProgram) (code : List Nat) (ip0 : BcInstPtr)
    (nparams fidx i1 i2 : Nat) (func : BcFunc)
    (hip : p.stack.getLast? = some ip0)
    (hn : bc_program_index code ip0.idx = some (nparams, i1))
    (hf : bc_program_index code i1 = some (fidx, i2))
    (hfunc : p.funcs[fidx]? = some func)
    (hscalar : ∀ i a, i < nparams → func.autos[i]? = some a → a.var = true)
    (hp0 : p0 = { p with stack := p.stack.dropLast ++ [{ ip0 with idx := i2 }] })
    (hcall : bc_program_call p code = .ok q ()) :
    nparams ≤ p.results.length ∧ nparams = func.nparams ∧ nparams ≤ func.autos.length ∧
    q.stack = p0.stack ++ [⟨fidx, 0, p.results.length⟩] ∧
    q.results.length = p.results.length + func.autos.length ∧
    Extends p0 { q with results := q.results.take p.results.length, stack := p0.stack } ∧
    ∀ i, i < nparams →
      (∃ s s2 loc v, CopyStep p0 nparams s i ∧
        bc_program_num s (p.results.length - nparams + i) false = .ok s2 loc ∧
        readNum s2 loc = some v ∧
        q.results[p.results.length + i]? = some ⟨.VAR_AUTO, .num v⟩) ∧
      (∀ n, p.results[p.results.length - nparams + i]? = some ⟨.INTERMEDIATE, .num n⟩ →
        q.results[p.results.length + i]? = some ⟨.VAR_AUTO, .num n⟩) ∧
      (∀ nm c str n,
        p.results[p.results.length - nparams + i]? = some ⟨.CONSTANT, .id nm c⟩ →
        p.constants[c]? = some str → bc_num_parse str p.ibase_t = .ok n →
        q.results[p.results.length + i]? = some ⟨.VAR_AUTO, .num n⟩) ∧
      (∀ x k loc0 n, p.results[p.results.length - nparams + i]? = some ⟨.VAR, .id x k⟩ →
        Resolves p0 x loc0 → readNum p0 loc0 = some n →
        q.results[p.results.length + i]? = some ⟨.VAR_AUTO, .num n⟩) := by
  have hres : p0.results = p.results := by rw [hp0]
  have hcon : p0.constants = p.constants := by rw [hp0]
  have hibt : p0.ibase_t = p.ibase_t := by rw [hp0]
  unfold bc_program_call at hcall
  simp only [hip, hn, hf, hfunc] at hcall
  rw [← hp0] at hcall
  by_cases hc : func.code.length = 0
  · rw [if_pos hc] at hcall; cases hcall
  rw [if_neg hc] at hcall
  by_cases hne : nparams ≠ func.nparams
  · rw [if_pos hne] at hcall; cases hcall
  rw [if_neg hne] at hcall
  cases h1 : bc_program_call_params func nparams nparams 0 p0 with
  | abort => rw [h1] at hcall; cases hcall
  | fail st r => rw [h1] at hcall; cases hcall
  | ok t u =>
    rw [h1] at hcall
    simp only at hcall
    cases h2 : bc_program_call_autos func (func.autos.length - nparams) nparams t with
    | abort => rw [h2] at hcall; cases hcall
    | fail st r => rw [h2] at hcall; cases hcall
    | ok t2 u2 =>
      rw [h2] at hcall
      simp only [BcRet.ok.injEq, and_true] at hcall
      have hargs : nparams ≤ p0.results.length := call_params_args func nparams p0 t h1
      have hstart : CopyStep p0 nparams p0 0 :=
        ⟨rfl, by
          have e : p0.results.take p0.results.length = p0.results := List.take_length _
          rw [e]
          exact Extends.refl p0, fun j l _ hl _ => hl⟩
      obtain ⟨hT, _, hall⟩ :=
        call_params_copies func nparams p0 hargs hscalar nparams 0 p0 t (by omega) hstart h1
      obtain ⟨extra, hxl, ht2⟩ := call_autos_appends func _ _ _ _ h2
      obtain ⟨hTlen, hText, hTpin⟩ := hT
      have hle : nparams ≤ func.autos.length := by
        rcases Nat.eq_zero_or_pos nparams with h0 | hpos
        · omega
        · have := (hall (nparams - 1) (Nat.zero_le _) (by omega)).1
          omega
      have hst : t.stack = p0.stack := hText.stack
      have hqr : q.results = t.results ++ extra := by rw [← hcall, ht2]
      have hqs : q.stack = t.stack ++ [⟨fidx, 0, p0.results.length⟩] := by
        rw [← hcall, ht2, hres]
      have hslot : ∀ i, i < nparams → q.results[p0.results.length + i]? =
          t.results[p0.results.length + i]? := by
        intro i hi
        rw [hqr, List.getElem?_append_left (by omega)]
      rw [← hres, ← hcon, ← hibt]
      refine ⟨hargs, not_not.mp hne, hle, ?_, ?_, ?_, ?_⟩
      · rw [hqs, hst]
      · rw [hqr, List.length_append, hTlen, hxl]; omega
      · have htk : q.results.take p0.results.length = t.results.take p0.results.length := by
          rw [hqr]
          exact List.take_append_of_le_length (by omega)
        rw [htk, ← hst, ← hcall, ht2]
        exact hText
      · intro i hi
        obtain ⟨_, s, s2, loc, v, hS, hnum, hv, hq⟩ := hall i (Nat.zero_le _) hi
        have hq2 : q.results[p0.results.length + i]? = some ⟨.VAR_AUTO, .num v⟩ := by
          rw [hslot i hi]; exact hq
        obtain ⟨e1, e2, e3⟩ := copy_step_value hS hargs hi hnum hv
        refine ⟨⟨s, s2, loc, v, hS, hnum, hv, hq2⟩, ?_, ?_, ?_⟩
        · intro n hp; rw [← e1 n hp]; exact hq2
        · intro nm c str n hp hcc hparse; rw [← e2 nm c str n hp hcc hparse]; exact hq2
        · intro x k loc0 n hp hr hread; rw [← e3 x k loc0 n hp hr hread]; exact hq2

/-- C26, an instance: the call `f(1, x)` with the global `x` holding 7, above a
number 9 of the caller; the parameter `a` at base + 0 receives 1 and the
parameter `b` at base + 1 receives 7. -/
theorem call_copies_params_witness :
    ∃ q, bc_program_call paramsState paramsCode = .ok q () ∧
      q.stack = [⟨0, 4, 0⟩, ⟨2, 0, 3⟩] ∧
      q.results.length = 6 ∧
      q.results[3]? = some ⟨.VAR_AUTO, .num ⟨1, 0, false⟩⟩ ∧
      q.results[4]? = some ⟨.VAR_AUTO, .num ⟨7, 0, false⟩⟩ := by
  have hcall : bc_program_call paramsState paramsCode =
      .ok { paramsState with
            stack := [⟨0, 4, 0⟩, ⟨2, 0, 3⟩],
            results := [⟨.INTERMEDIATE, .num ⟨9, 0, false⟩⟩, ⟨.INTERMEDIATE, .num ⟨1, 0, false⟩⟩,
              ⟨.VAR, .id "x" 0⟩, ⟨.VAR_AUTO, .num ⟨1, 0, false⟩⟩, ⟨.VAR_AUTO, .num ⟨7, 0, false⟩⟩,
              ⟨.VAR_AUTO, .num ⟨0, 0, false⟩⟩] } () := by decide
  have hscalar : ∀ (i : Nat) (a : BcAuto), i < 2 →
      ([⟨"a", true⟩, ⟨"b", true⟩, ⟨"c", true⟩] : List BcAuto)[i]? = some a → a.var = true := by
    intro i a hi h
    interval_cases i <;> simp at h <;> subst h <;> rfl
  have hres : Resolves { paramsState with stack := [⟨0, 4, 0⟩] } "x" (.var 0) :=
    ⟨by decide, Or.inr ⟨fun _ => rfl, ⟨"x", 0⟩, by decide, by decide, rfl⟩⟩
  have H := call_copies_params paramsState { paramsState with stack := [⟨0, 4, 0⟩] } _
    paramsCode ⟨0, 0, 0⟩ 2 2 2 4 ⟨[82], [], 2, [⟨"a", true⟩, ⟨"b", true⟩, ⟨"c", true⟩]⟩
    rfl (by decide) (by decide) (by decide) hscalar rfl hcall
  exact ⟨_, hcall, H.2.2.2.1, H.2.2.2.2.1,
    (H.2.2.2.2.2.2 0 (by decide)).2.2.1 "" 0 "1" ⟨1, 0, false⟩ (by decide) (by decide) rfl,
    (H.2.2.2.2.2.2 1 (by decide)).2.2.2 "x" 0 (.var 0) ⟨7, 0, false⟩ (by decide) hres (by decide)⟩

/-! ## HALT and error propagation: whole runs -/

/-- A round that dispatches an opcode: `bc_program_exec` goes on with the next
round when the dispatch ends with success and returns what it yields
otherwise. -/
theorem exec_of_round (env : BcEnv) (fuel : Nat) (p : BcProgram) (w : BcWorld)
    (r : BcRet Unit) (w1 : BcWorld)
    (h : bc_program_exec_round env fuel p w = some (r, w1)) :
    bc_program_exec env (fuel + 1) p w =
      match r with
      | .ok q _ => bc_program_exec env fuel q w1
      | r => some (r, w1) := by
  unfold bc_program_exec_round at h
  rw [bc_program_exec]
  cases hip : p.stack.getLast? with
  | none => rw [hip] at h; cases h
  | some ip =>
    rw [hip] at h
    simp only at h ⊢
    cases hf : p.funcs[ip.func]? with
    | none => rw [hf] at h; cases h
    | some func =>
      rw [hf] at h
      simp only at h ⊢
      by_cases hc : env.sig_int w.polls = false ∧ ip.idx < func.code.length
      · rw [if_pos hc] at h ⊢
        cases hi : (func.code[ip.idx]?).bind (decodeInst env.inst) with
        | none => rw [hi] at h; cases h
        | some inst =>
          rw [hi] at h
          simp only at h ⊢
          rw [h]
          cases r <;> rfl
      · rw [if_neg hc] at h; cases h

/-- After `k` rounds that end with success, `bc_program_exec` goes on from the
program and the world they leave. -/
theorem exec_after_rounds (env : BcEnv) : ∀ (k fuel : Nat) (p : BcProgram) (w : BcWorld)
    (q : BcProgram) (w2 : BcWorld),
    bc_program_exec_rounds env fuel k p w = some (q, w2) →
    k ≤ fuel ∧ bc_program_exec env fuel p w = bc_program_exec env (fuel - k) q w2 := by
  intro k
  induction k with
  | zero =>
    intro fuel p w q w2 h
    simp only [bc_program_exec_rounds, Option.some.injEq, Prod.mk.injEq] at h
    rw [h.1, h.2]
    exact ⟨Nat.zero_le _, rfl⟩
  | succ k ih =>
    intro fuel p w q w2 h
    cases fuel with
    | zero => simp [bc_program_exec_rounds] at h
    | succ f =>
      simp only [bc_program_exec_rounds] at h
      cases hr : bc_program_exec_round env f p w with
      | none => rw [hr] at h; cases h
      | some rw1 =>
        rcases rw1 with ⟨r, w1⟩
        rw [hr] at h
        cases r with
        | abort => cases h
        | fail s q1 => cases h
        | ok q1 u =>
          simp only at h
          obtain ⟨hle, hex⟩ := ih f q1 w1 q w2 h
          refine ⟨by omega, ?_⟩
          rw [exec_of_round env f p w _ w1 hr]
          simp only
          rw [hex, Nat.add_sub_add_right]

/-- What `bc_program_exec` returns comes after rounds that all ended with
success: a status other than success is what the dispatch of the next round
yielded, and success is returned with the loop condition false. -/
theorem exec_result_rounds (env : BcEnv) : ∀ (fuel : Nat) (p : BcProgram) (w : BcWorld),
    (∀ s r w3, bc_program_exec env fuel p w = some (.fail s r, w3) →
      ∃ k f q w2, fuel = f + 1 + k ∧ bc_program_exec_rounds env fuel k p w = some (q, w2) ∧
        bc_program_exec_round env f q w2 = some (.fail s r, w3)) ∧
    (∀ q3 w3, bc_program_exec env fuel p w = some (.ok q3 (), w3) →
      ∃ k w2, bc_program_exec_rounds env fuel k p w = some (q3, w2) ∧
        w3 = { w2 with polls := w2.polls + 1 } ∧
        ∃ ip func, q3.stack.getLast? = some ip ∧ q3.funcs[ip.func]? = some func ∧
          (env.sig_int w2.polls = true ∨ func.code.length ≤ ip.idx)) := by
  intro fuel
  induction fuel with
  | zero => intro p w; constructor <;> intros <;> simp [bc_program_exec] at *
  | succ f ih =>
    intro p w
    cases hr : bc_program_exec_round env f p w with
    | some rw1 =>
      rcases rw1 with ⟨r, w1⟩
      have he := exec_of_round env f p w r w1 hr
      cases r with
      | abort =>
        simp only at he
        constructor
        · intro s r w3 h; rw [he] at h; cases h
        · intro q3 w3 h; rw [he] at h; cases h
      | fail s1 r1 =>
        simp only at he
        constructor
        · intro s r w3 h
          rw [he] at h
          simp only [Option.some.injEq, Prod.mk.injEq, BcRet.fail.injEq] at h
          obtain ⟨⟨hs, hq⟩, hw⟩ := h
          subst hs; subst hq; subst hw
          exact ⟨0, f, p, w, by omega, rfl, hr⟩
        · intro q3 w3 h; rw [he] at h; cases h
      | ok q1 u =>
        simp only at he
        have hstep : ∀ k, bc_program_exec_rounds env (f + 1) (k + 1) p w =
            bc_program_exec_rounds env f k q1 w1 := by
          intro k
          simp only [bc_program_exec_rounds, hr]
        constructor
        · intro s r w3 h
          rw [he] at h
          obtain ⟨k, f2, q, w2, hk, hrun, hlast⟩ := (ih q1 w1).1 s r w3 h
          exact ⟨k + 1, f2, q, w2, by omega, by rw [hstep]; exact hrun, hlast⟩
        · intro q3 w3 h
          rw [he] at h
          obtain ⟨k, w2, hrun, hw, hend⟩ := (ih q1 w1).2 q3 w3 h
          exact ⟨k + 1, w2, by rw [hstep]; exact hrun, hw, hend⟩
    | none =>
      unfold bc_program_exec_round at hr
      constructor
      · intro s r w3 h
        rw [bc_program_exec] at h
        cases hip : p.stack.getLast? with
        | none => rw [hip] at h; simp at h
        | some ip =>
          rw [hip] at h hr
          simp only at h hr
          cases hf : p.funcs[ip.func]? with
          | none => rw [hf] at h; simp at h
          | some func =>
            rw [hf] at h hr
            simp only at h hr
            by_cases hc : env.sig_int w.polls = false ∧ ip.idx < func.code.length
            · rw [if_pos hc] at h hr
              cases hi : (func.code[ip.idx]?).bind (decodeInst env.inst) with
              | none => rw [hi] at h; simp at h
              | some inst =>
                rw [hi] at h hr
                simp only at h hr
                rw [hr] at h
                cases h
            · rw [if_neg hc] at h
              simp at h
      · intro q3 w3 h
        rw [bc_program_exec] at h
        cases hip : p.stack.getLast? with
        | none => rw [hip] at h; simp at h
        | some ip =>
          rw [hip] at h hr
          simp only at h hr
          cases hf : p.funcs[ip.func]? with
          | none => rw [hf] at h; simp at h
          | some func =>
            rw [hf] at h hr
            simp only at h hr
            by_cases hc : env.sig_int w.polls = false ∧ ip.idx < func.code.length
            · rw [if_pos hc] at h hr
              cases hi : (func.code[ip.idx]?).bind (decodeInst env.inst) with
              | none => rw [hi] at h; simp at h
              | some inst =>
                rw [hi] at h hr
                simp only at h hr
                rw [hr] at h
                cases h
            · rw [if_neg hc] at h
              simp only [Option.some.injEq, Prod.mk.injEq, BcRet.ok.injEq, and_true] at h
              obtain ⟨hq, hw⟩ := h
              subst hq
              refine ⟨0, w, rfl, hw.symm, ip, func, hip, hf, ?_⟩
              by_cases hs : env.sig_int w.polls = true
              · exact Or.inl hs
              · right
                have hs2 : env.sig_int w.polls = false := by simpa using hs
                by_contra hlt
                exact hc ⟨hs2, by omega⟩

/-- C23 (HALT and error propagation), amended: let the first `k` rounds of
`bc_program_exec` started on `p` end with success and lead to `q`.  Then the
routine goes on from `q` with the next round; if that round fetches
`BC_INST_HALT`, the routine returns `BC_STATUS_QUIT`; if the dispatch of that
round yields a status other than success, the routine returns that status, with
the program and the world that opcode left, and no later round takes place.
Conversely, a status other than success that the routine returns is what the
dispatch yielded in the first round that did not end with success, and
`BC_STATUS_SUCCESS` is returned only after rounds that all ended with success,
with the counter of the top frame at the end of the code of its function or the
flag `bcg.sig_int` found set at the last test of the loop condition. -/
theorem exec_status (env : BcEnv) (fuel k : Nat) (p q : BcProgram) (w w2 : BcWorld)
    (hrun : bc_program_exec_rounds env fuel k p w = some (q, w2)) :
    bc_program_exec env fuel p w = bc_program_exec env (fuel - k) q w2 ∧
    (∀ f ip func, fuel = f + 1 + k → q.stack.getLast? = some ip →
      q.funcs[ip.func]? = some func → env.sig_int w2.polls = false →
      ip.idx < func.code.length →
      (func.code[ip.idx]?).bind (decodeInst env.inst) = some .HALT →
      bc_program_exec env fuel p w =
        some (.fail .QUIT
                { q with stack := q.stack.dropLast ++ [{ ip with idx := ip.idx + 1 }] },
              { w2 with polls := w2.polls + 1 })) ∧
    (∀ f s r w3, fuel = f + 1 + k →
      bc_program_exec_round env f q w2 = some (.fail s r, w3) →
      bc_program_exec env fuel p w = some (.fail s r, w3)) ∧
    (∀ s r w3, bc_program_exec env fuel p w = some (.fail s r, w3) →
      ∃ k2 f q2 w4, fuel = f + 1 + k2 ∧
        bc_program_exec_rounds env fuel k2 p w = some (q2, w4) ∧
        bc_program_exec_round env f q2 w4 = some (.fail s r, w3)) ∧
    (∀ q3 w3, bc_program_exec env fuel p w = some (.ok q3 (), w3) →
      ∃ k2 w4, bc_program_exec_rounds env fuel k2 p w = some (q3, w4) ∧
        w3 = { w4 with polls := w4.polls + 1 } ∧
        ∃ ip func, q3.stack.getLast? = some ip ∧ q3.funcs[ip.func]? = some func ∧
          (env.sig_int w4.polls = true ∨ func.code.length ≤ ip.idx)) := by
  obtain ⟨hle, hex⟩ := exec_after_rounds env k fuel p w q w2 hrun
  have hfail : ∀ f s r w3, fuel = f + 1 + k →
      bc_program_exec_round env f q w2 = some (.fail s r, w3) →
      bc_program_exec env fuel p w = some (.fail s r, w3) := by
    intro f s r w3 hf h
    have hfk : fuel - k = f + 1 := by omega
    rw [hex, hfk, exec_of_round env f q w2 _ w3 h]
  refine ⟨hex, ?_, hfail, (exec_result_rounds env fuel p w).1, (exec_result_rounds env fuel p w).2⟩
  intro f ip func hf hip hfunc hsig hlt hinst
  apply hfail f _ _ _ hf
  unfold bc_program_exec_round
  simp only [hip, hfunc, hsig, hlt, and_self, if_true, hinst, bc_program_exec_inst]

/-- C23, an instance of the amended claim: on the program `1 + 2; halt` the
first three rounds end with success and the fourth fetches `BC_INST_HALT`. -/
theorem exec_status_witness :
    bc_program_exec_rounds (exampleEnv false) 4 3 haltImage startWorld =
      some ({ haltImage with
              results := [⟨.INTERMEDIATE, .num ⟨3, 0, false⟩⟩],
              stack := [⟨0, 7, 0⟩] }, ⟨3, 0, []⟩) ∧
    bc_program_exec (exampleEnv false) 4 haltImage startWorld =
      some (.fail .QUIT
              { haltImage with
                results := [⟨.INTERMEDIATE, .num ⟨3, 0, false⟩⟩],
                stack := [⟨0, 8, 0⟩] }, ⟨4, 0, []⟩) :=
  have hrun : bc_program_exec_rounds (exampleEnv false) 4 3 haltImage startWorld =
      some ({ haltImage with
              results := [⟨.INTERMEDIATE, .num ⟨3, 0, false⟩⟩],
              stack := [⟨0, 7, 0⟩] }, ⟨3, 0, []⟩) := by decide
  ⟨hrun, (exec_status (exampleEnv false) 4 3 haltImage _ startWorld _ hrun).2.1 0 ⟨0, 7, 0⟩
    ⟨[15, 1, 0, 15, 1, 1, 30, 21], [], 0, []⟩ rfl rfl rfl rfl (by decide) (by decide)⟩

/-! ## C10, C11, C20: the pointer to the left number across the right operand -/

/-- C11 (result of a plain assignment), where the code departs from the claim:
at `a[0] = a[40]`, with the global array `a` holding the one element 7, both
operands materialise and the right one has the value 0, but materialising it
grows `a` from 1 element to 41 after the pointer to `a[0]` has been taken.  The
pointer the store goes through is dangling, and what the assignment does is not
defined. -/
theorem assign_through_moved_array :
    ∃ p1 o, bc_program_binaryOpPrep elemGrowState = .ok p1 o ∧
      o.lval = .dangling ∧ o.rval = .arrayElem 0 40 ∧
      readNum p1 o.rval = some ⟨0, 0, false⟩ ∧
      (elemGrowState.arrays[0]?).map List.length = some 1 ∧
      (p1.arrays[0]?).map List.length = some 41 ∧
      bc_program_num elemGrowState 0 false = .ok elemGrowState (.arrayElem 0 0) ∧
      bc_program_assign elemGrowState .OP_ASSIGN = .abort :=
  ⟨_, _, rfl, rfl, rfl, by decide, by decide, by decide, by decide, by decide⟩

/-- C20 (relational and boolean opcodes), where the code departs from the claim:
at `a[0] < a[40]`, with the global array `a` holding the one element 7, the
operands have the values 7 and 0, but materialising the right one grows `a`
from 1 element to 41 after the pointer to `a[0]` has been taken.  The left
number is read through a dangling pointer, and what the comparison yields is
not defined. -/
theorem logical_through_moved_array :
    ∃ p1 o, bc_program_binaryOpPrep elemGrowState = .ok p1 o ∧
      o.lval = .dangling ∧
      readNum p1 (.arrayElem 0 0) = some ⟨7, 0, false⟩ ∧
      readNum p1 o.rval = some ⟨0, 0, false⟩ ∧
      (p1.arrays[0]?).map List.length = some 41 ∧
      bc_program_logical elemGrowState .OP_REL_LESS = .abort ∧
      bc_program_logical elemGrowState .OP_BOOL_AND = .abort :=
  ⟨_, _, rfl, rfl, by decide, by decide, by decide, by decide, by decide⟩

/-- Negation flips the sign flag of any number: `-0` is a zero whose flag is
set, which the conversion to an unsigned integer refuses, and `-5` is the
number with the digits of 5 and the flag set. -/
theorem negate_flips_flag :
    bc_program_negate (numState ⟨0, 0, false⟩) = .ok (numState ⟨0, 0, true⟩) () ∧
    BcNum.neg ⟨0, 0, true⟩ = true ∧
    bc_num_ulong ⟨0, 0, true⟩ = .error .MATH_NEGATIVE ∧
    bc_num_ulong ⟨0, 0, false⟩ = .ok 0 ∧
    (bc_program_negate (numState ⟨5, 0, false⟩)).prog.map (fun q => q.results) =
      some [⟨.INTERMEDIATE, .num ⟨-5, 0, true⟩⟩] ∧
    BcNum.neg ⟨-5, 0, true⟩ = true := by
  refine ⟨by decide, by decide, rfl, rfl, by decide, by decide⟩

end Bc
